import Mathlib

/-!
# stream-audio: audio ingestion pipeline and session lifecycle

A shallow embedding of the RTP chunker, the energy based voice activity
detector and the fan-out of `internal/ingest/chunker.go`, of the session
registry of `internal/session/session.go`, of the lifecycle callbacks of
`internal/webrtc/handler.go`, of the WAV header writer of
`internal/session/recorder.go` and of the skill registry of
`internal/skills/skill.go`, and the properties of the specification that were
checked on it.

Conventions of the embedding

* Go `int` / `int64` values are `Int`; where a Go expression can overflow the
  wrap-around is written out with `wrapInt64`.
* A `[]byte` is a `List Byte` with `Byte = Fin 256`.
* A callback field (`func(...)`, possibly `nil`) is a `Bool`: `true` when the
  field is non-nil.  Every invocation of a callback is recorded, in order, in
  the result of the operation.
* A Go loop is run with a fuel argument that bounds the number of iterations;
  a run that still has an iteration to do when the fuel is used up has status
  `Status.running`.
* A finite `float64` is the rational number it denotes, and every `float64`
  operation is the exact result rounded to nearest, ties to even.
* `time.Now()` is an argument: the clock value, in nanoseconds, that the call
  reads.  A `time.Duration` is an `Int` number of nanoseconds.
* A panic of an index or slice expression is the result `none`.
* The conversion `int(f)` of a `float64` out of the range of `int` succeeds
  with a value Go leaves to the implementation; that value is an argument.
* A Go `error` that carries a message is an `Option String`, `none` being nil.
-/

namespace StreamAudio

/-- One octet of a Go `[]byte`. -/
abbrev Byte := Fin 256

/-- Two's complement wrap-around of a mathematical integer to Go's 64-bit `int`. -/
def wrapInt64 (x : Int) : Int := (x + 2 ^ 63) % 2 ^ 64 - 2 ^ 63

/-- How a run of Go code ended: it returned, it panicked, or the fuel given to
the model ran out while the code was still looping. -/
inductive Status where
  | returned
  | panicked
  | running
  deriving DecidableEq, Repr

/-! ## float64

A finite `float64` is represented by the rational number it denotes.  Every
arithmetic operation is the exact rational result rounded to the nearest value
with a 53 bit significand, ties to even, with gradual underflow below
`2 ^ (-1022)` (IEEE 754 binary64, round-to-nearest-even).  Overflow to an
infinity and NaN are not represented; the computations embedded below stay far
inside the finite range. -/

/-- Number of binary digits of `n`, by halving at most `fuel` times. -/
def bitLengthAux : Nat → Nat → Nat
  | 0, _ => 0
  | fuel + 1, n => if n = 0 then 0 else bitLengthAux fuel (n / 2) + 1

/-- Number of binary digits of `n` (`0` for `n = 0`). -/
def bitLength (n : Nat) : Nat := bitLengthAux n n

/-- The binary exponent `e` of a non-zero rational: `2 ^ e ≤ |q| < 2 ^ (e + 1)`. -/
def binExp (q : ℚ) : Int :=
  let e := (bitLength q.num.natAbs : Int) - (bitLength q.den : Int)
  if (2 : ℚ) ^ e ≤ |q| then e else e - 1

/-- Nearest integer, ties to the even neighbour. -/
def roundHalfEven (x : ℚ) : Int :=
  let f := ⌊x⌋
  if x - f < 1 / 2 then f
  else if 1 / 2 < x - f then f + 1
  else if f % 2 = 0 then f else f + 1

/-- Distance between neighbouring `float64` values around `q`. -/
def f64Ulp (q : ℚ) : ℚ := (2 : ℚ) ^ (max (binExp q) (-1022) - 52)

/-- The `float64` nearest to the exact value `q` (round to nearest, ties to even). -/
def f64Round (q : ℚ) : ℚ :=
  if q = 0 then 0 else (roundHalfEven (q / f64Ulp q) : ℚ) * f64Ulp q

/-- Go `float64(n)` for an integer `n`. -/
def f64OfInt (n : Int) : ℚ := f64Round (n : ℚ)

/-- Go `a + b` on `float64`. -/
def f64Add (a b : ℚ) : ℚ := f64Round (a + b)

/-- Go `a * b` on `float64`. -/
def f64Mul (a b : ℚ) : ℚ := f64Round (a * b)

/-- Go `a / b` on `float64`, for a non-zero divisor. -/
def f64Div (a b : ℚ) : ℚ := f64Round (a / b)

/-- Integer square root by binary digits, with at most `fuel` digit pairs. -/
def isqrtAux : Nat → Nat → Nat
  | 0, _ => 0
  | fuel + 1, n =>
    if n = 0 then 0
    else
      let r := 2 * isqrtAux fuel (n / 4)
      if (r + 1) * (r + 1) ≤ n then r + 1 else r

/-- Integer square root: the largest `s` with `s * s ≤ n`. -/
def isqrt (n : Nat) : Nat := isqrtAux n n

/-- Go `math.Sqrt` on a non-negative finite `float64`: the correctly rounded
square root.  The argument is scaled by a power of four to an integer part of
at least 108 bits, whose integer square root carries more than 54 bits; a
sticky bit records that the root is not exact, and the result is rounded once. -/
def f64Sqrt (x : ℚ) : ℚ :=
  if x ≤ 0 then 0
  else
    let k : Nat := ((109 - binExp x) / 2).toNat
    let y : ℚ := x * 4 ^ k
    let s : Nat := isqrt ⌊y⌋.toNat
    let sticky : Nat := if (s * s : ℚ) = y then 0 else 1
    f64Round (((2 * s + sticky : Nat) : ℚ) / 2 ^ (k + 1))

/-- Truncation of a `float64` toward zero, as a mathematical integer. -/
def f64Trunc (x : ℚ) : Int := if 0 ≤ x then ⌊x⌋ else ⌈x⌉

/-- Go `int(f)` for a `float64`: truncation toward zero.  When the truncated
value is outside the range of `int` the conversion still succeeds, and Go
leaves the value to the implementation: `indefinite` stands for the value the
implementation gives in this call (amd64 gives the least `int`, `-2 ^ 63`). -/
def f64ToInt (indefinite : Int) (x : ℚ) : Int :=
  if -2 ^ 63 ≤ f64Trunc x ∧ f64Trunc x < 2 ^ 63 then f64Trunc x else wrapInt64 indefinite

/-- Go `time.Duration.Seconds`: `float64(d / Second) + float64(d % Second) / 1e9`
on a duration in nanoseconds (Go integer division truncates toward zero). -/
def durationSeconds (d : Int) : ℚ :=
  f64Add (f64OfInt (d.tdiv 1000000000)) (f64Div (f64OfInt (d.tmod 1000000000)) 1000000000)

/-- Relative rounding error of one `float64` operation: `2 ^ (-53)`. -/
def f64Eps : ℚ := 1 / 2 ^ 53

/-! ## Chunker -/

/-- Go `type Chunker struct`; `onChunk` is `true` when the callback is non-nil. -/
structure Chunker where
  sampleRate : Int
  frameDuration : Int
  samplesPerFrame : Int
  buffer : List Byte
  onChunk : Bool
  deriving DecidableEq, Repr

/-- The local `bytesPerFrame := c.samplesPerFrame * 2` of `ProcessRTP` (Go `int`
arithmetic, so the product wraps). -/
def Chunker.bytesPerFrame (c : Chunker) : Int := wrapInt64 (c.samplesPerFrame * 2)

/-- The variables the frame loop of `ProcessRTP` changes: the rolling buffer,
the frames handed to `onChunk` so far, and the number of loop iterations. -/
structure LoopState where
  buffer : List Byte
  emitted : List (List Byte)
  iterations : Nat
  deriving DecidableEq, Repr

/-- One iteration of the body of `for len(c.buffer) >= bytesPerFrame { ... }`
for a non-negative `bytesPerFrame`: slice one frame off the front, advance the
buffer, and hand the frame to `onChunk` when that is non-nil. -/
def frameStep (bytesPerFrame : Int) (onChunk : Bool) (s : LoopState) : LoopState :=
  { buffer := s.buffer.drop bytesPerFrame.toNat
    emitted := if onChunk then s.emitted ++ [s.buffer.take bytesPerFrame.toNat] else s.emitted
    iterations := s.iterations + 1 }

/-- The loop `for len(c.buffer) >= bytesPerFrame { ... }` of `ProcessRTP`, with
at most `fuel` iterations.  A negative `bytesPerFrame` makes the slice
expression `c.buffer[:bytesPerFrame]` panic in the first iteration. -/
def frameLoop (bytesPerFrame : Int) (onChunk : Bool) : Nat → LoopState → Status × LoopState
  | 0, s =>
    if bytesPerFrame ≤ (s.buffer.length : Int) then
      if bytesPerFrame < 0 then (Status.panicked, s) else (Status.running, s)
    else (Status.returned, s)
  | fuel + 1, s =>
    if bytesPerFrame ≤ (s.buffer.length : Int) then
      if bytesPerFrame < 0 then (Status.panicked, s)
      else frameLoop bytesPerFrame onChunk fuel (frameStep bytesPerFrame onChunk s)
    else (Status.returned, s)

/-- What one call of `ProcessRTP` did: how it ended, the chunker afterwards, the
frames handed to `onChunk` in order, and the number of loop iterations.  The
Go function returns the error `nil` whenever it returns. -/
structure RTPResult where
  status : Status
  chunker : Chunker
  emitted : List (List Byte)
  iterations : Nat
  deriving DecidableEq, Repr

/-- Go `func (c *Chunker) ProcessRTP(packet *rtp.Packet) error`, on the payload
of a non-nil packet. -/
def Chunker.ProcessRTP (fuel : Nat) (c : Chunker) (payload : List Byte) : RTPResult :=
  let r := frameLoop c.bytesPerFrame c.onChunk fuel
    { buffer := c.buffer ++ payload, emitted := [], iterations := 0 }
  { status := r.1
    chunker := { c with buffer := r.2.buffer }
    emitted := r.2.emitted
    iterations := r.2.iterations }

/-- What a sequence of `ProcessRTP` calls did: how the last call made ended, the
chunker afterwards, and the frames handed to `onChunk` by all calls, in order. -/
structure FeedResult where
  status : Status
  chunker : Chunker
  emitted : List (List Byte)
  deriving DecidableEq, Repr

/-- A sequence of `ProcessRTP` calls on the same chunker, one per payload, in
order.  The sequence stops at the first call that does not return. -/
def Chunker.feed (fuel : Nat) : Chunker → List (List Byte) → FeedResult
  | c, [] => { status := Status.returned, chunker := c, emitted := [] }
  | c, p :: ps =>
    let r := c.ProcessRTP fuel p
    match r.status with
    | Status.returned =>
      let rest := Chunker.feed fuel r.chunker ps
      { status := rest.status, chunker := rest.chunker, emitted := r.emitted ++ rest.emitted }
    | st => { status := st, chunker := r.chunker, emitted := r.emitted }

/-- Go `func NewChunker(sampleRate int, frameDuration time.Duration, onChunk func([]byte)) *Chunker`,
with the duration in nanoseconds; `indefinite` is the value the implementation
gives to the conversion `int(...)` when the product is out of range.  The
result is `none` when `make([]byte, 0, samplesPerFrame*2)` panics on a negative
capacity (the allocation limit of the host is not modelled). -/
def NewChunker (indefinite sampleRate frameDuration : Int) (onChunk : Bool) : Option Chunker :=
  let samplesPerFrame :=
    f64ToInt indefinite (f64Mul (f64OfInt sampleRate) (durationSeconds frameDuration))
  if wrapInt64 (samplesPerFrame * 2) < 0 then none
  else some
    { sampleRate := sampleRate
      frameDuration := frameDuration
      samplesPerFrame := samplesPerFrame
      buffer := []
      onChunk := onChunk }

/-- The frame size the specification words describe: the exact product
`sampleRate × frameDurationSeconds`, rounded to the nearest integer. -/
def specSamplesPerFrame (sampleRate frameDuration : Int) : Int :=
  round ((sampleRate : ℚ) * ((frameDuration : ℚ) / 1000000000))

/-! ## Voice activity detection -/

/-- Go `pcm[k:]`: `none` when the slice expression panics. -/
def sliceFrom (pcm : List Byte) (k : Nat) : Option (List Byte) :=
  if k ≤ pcm.length then some (pcm.drop k) else none

/-- Go `binary.LittleEndian.Uint16(b)`: `none` when `b` has fewer than two bytes
(the bounds check `_ = b[1]` panics). -/
def uint16LE : List Byte → Option Nat
  | b0 :: b1 :: _ => some (b0.val + 256 * b1.val)
  | _ => none

/-- Go `int16(u)` for a `uint16` value: reinterpretation as two's complement. -/
def int16 (u : Nat) : Int := if u < 32768 then (u : Int) else (u : Int) - 65536

/-- The sample read in iteration `i` of the loop of `calculateEnergy`:
`int16(binary.LittleEndian.Uint16(pcm[i*2:]))`. -/
def sampleAt (pcm : List Byte) (i : Nat) : Option Int :=
  (sliceFrom pcm (i * 2)).bind fun b => (uint16LE b).map int16

/-- The body of the loop of `calculateEnergy` for index `i`, on the running sum:
`normalized := float64(sample) / 32768.0; sum += normalized * normalized`. -/
def energyStep (pcm : List Byte) (acc : Option ℚ) (i : Nat) : Option ℚ :=
  acc.bind fun sum => (sampleAt pcm i).map fun sample =>
    let normalized := f64Div (f64OfInt sample) 32768
    f64Add sum (f64Mul normalized normalized)

/-- Go `func calculateEnergy(pcm []byte) float64`; `none` stands for a panic of
an index or slice expression. -/
def calculateEnergy (pcm : List Byte) : Option ℚ :=
  if pcm.length < 2 then some 0
  else
    let samples := pcm.length / 2
    ((List.range samples).foldl (energyStep pcm) (some 0)).map fun sum =>
      f64Sqrt (f64Div sum (f64OfInt (samples : Int)))

/-- The samples the specification words describe: the `len / 2` signed 16-bit
little-endian samples of a byte slice, pair by pair; a trailing odd byte is
ignored. -/
def specSamples : List Byte → List Int
  | b0 :: b1 :: rest => int16 (b0.val + 256 * b1.val) :: specSamples rest
  | _ => []

/-- The exact square `(s / 32768) ^ 2` of a sample normalized to `[-1, 1]`. -/
def sqTerm (s : Int) : ℚ := ((s : ℚ) / 32768) ^ 2

/-- The quantity the specification words describe: the mean of `(s / 32768) ^ 2`
over a list of samples, in exact arithmetic. -/
def specMeanSquare (samples : List Int) : ℚ :=
  (samples.map sqTerm).sum / (samples.length : ℚ)

/-- The loop body of `calculateEnergy` on a sample value. -/
def sumStep (sum : ℚ) (sample : Int) : ℚ :=
  f64Add sum (f64Mul (f64Div (f64OfInt sample) 32768) (f64Div (f64OfInt sample) 32768))

/-- What holds for the running sum `S` of `calculateEnergy` after `k` samples
whose exact squares add up to `T`. -/
structure SumInv (k : Nat) (T S : ℚ) : Prop where
  nonneg : 0 ≤ S
  le_count : S ≤ min (k : ℚ) (2 ^ 53)
  zero_or_big : S = 0 ∨ (1 : ℚ) / 2 ^ 30 ≤ S
  exact_nonneg : 0 ≤ T
  lower : T * (1 - f64Eps) ^ k ≤ S
  upper : S ≤ T * (1 + f64Eps) ^ k

/-- Go `type VAD struct`.  A time is a reading of the clock in nanoseconds;
`silenceStart = none` is the zero `time.Time` (`IsZero()` holds).  The callback
fields are `true` when non-nil.  The threshold is a finite `float64`. -/
structure VAD where
  threshold : ℚ
  minSilenceDur : Int
  silenceStart : Option Int
  isSpeaking : Bool
  onSpeechStart : Bool
  onSpeechEnd : Bool
  deriving DecidableEq, Repr

/-- A callback invocation made by `VAD.Process`. -/
inductive VADEvent where
  | speechStart
  | speechEnd
  deriving DecidableEq, Repr

/-- What one call of `VAD.Process` did: the detector afterwards, the returned
boolean, and the callbacks it invoked, in order. -/
structure VADResult where
  vad : VAD
  active : Bool
  events : List VADEvent
  deriving DecidableEq, Repr

/-- Go `func NewVAD(threshold float64, minSilenceDur time.Duration) *VAD`. -/
def NewVAD (threshold : ℚ) (minSilenceDur : Int) : VAD :=
  { threshold := threshold
    minSilenceDur := minSilenceDur
    silenceStart := none
    isSpeaking := false
    onSpeechStart := false
    onSpeechEnd := false }

/-- Go `func (v *VAD) SetCallbacks(onStart, onEnd func())`. -/
def VAD.SetCallbacks (v : VAD) (onStart onEnd : Bool) : VAD :=
  { v with onSpeechStart := onStart, onSpeechEnd := onEnd }

/-- Go `time.Since(t)` read at clock value `now`: the difference as a
`time.Duration`, saturated to the range of `int64` as `Time.Sub` does. -/
def timeSince (now t : Int) : Int := max (-2 ^ 63) (min (2 ^ 63 - 1) (now - t))

/-- The state machine of `VAD.Process` once the energy of the chunk is known;
`now` is the clock value that `time.Now()` / `time.Since` read in this call. -/
def VAD.classify (v : VAD) (now : Int) (energy : ℚ) : VADResult :=
  if v.threshold < energy then
    if !v.isSpeaking then
      { vad := { v with isSpeaking := true, silenceStart := none }
        active := true
        events := if v.onSpeechStart then [VADEvent.speechStart] else [] }
    else { vad := v, active := true, events := [] }
  else if v.isSpeaking then
    match v.silenceStart with
    | none => { vad := { v with silenceStart := some now }, active := false, events := [] }
    | some t =>
      if v.minSilenceDur < timeSince now t then
        { vad := { v with isSpeaking := false }
          active := false
          events := if v.onSpeechEnd then [VADEvent.speechEnd] else [] }
      else { vad := v, active := false, events := [] }
  else { vad := v, active := false, events := [] }

/-- Go `func (v *VAD) Process(chunk []byte) bool`, called when the clock reads
`now`; `none` stands for a panic inside `calculateEnergy`. -/
def VAD.Process (v : VAD) (now : Int) (chunk : List Byte) : Option VADResult :=
  (calculateEnergy chunk).map (v.classify now)

/-- Go `func (v *VAD) IsSpeaking() bool`. -/
def VAD.IsSpeaking (v : VAD) : Bool := v.isSpeaking

/-- A sequence of `Process` calls on the same detector, one per timestamped
frame, in order; the callback invocations of all calls are collected in order. -/
def VAD.feed : VAD → List (Int × List Byte) → Option (VAD × List VADEvent)
  | v, [] => some (v, [])
  | v, (now, chunk) :: rest =>
    (v.Process now chunk).bind fun r =>
      (VAD.feed r.vad rest).map fun out => (out.1, r.events ++ out.2)

/-- The classification `energy > v.threshold` of `VAD.Process` for a chunk:
`true` when the energy of the chunk exceeds the threshold. -/
def loud (threshold : ℚ) (chunk : List Byte) : Bool :=
  match calculateEnergy chunk with
  | some energy => decide (threshold < energy)
  | none => false

/-- The opposite classification: `true` when the energy of the chunk is computed
and does not exceed the threshold. -/
def quiet (threshold : ℚ) (chunk : List Byte) : Bool :=
  match calculateEnergy chunk with
  | some energy => !decide (threshold < energy)
  | none => false

/-- Timestamped frames `chunk 0, chunk 1, ...` whose clock readings start at
`t0` and are `step` nanoseconds apart. -/
def framesEvery (t0 step : Int) (chunk : Nat → List Byte) (n : Nat) : List (Int × List Byte) :=
  (List.range n).map fun (k : Nat) => (t0 + step * (k : Int), chunk k)

/-- The Go `error` values of this package that the embedding needs: `nil` only. -/
inductive GoError where
  | nil
  deriving DecidableEq, Repr

/-- The value `ProcessRTP` returns to its caller, when it returns: the only
return statement of the function is `return nil`.  `none` when the call did
not return. -/
def RTPResult.err (r : RTPResult) : Option GoError :=
  match r.status with
  | Status.returned => some GoError.nil
  | _ => none

/-! ## Sessions (`internal/session/session.go`)

Session objects live on a heap and are referred to by pointers, as in Go: the
`Manager` map stores `*Session`, and the callbacks of the WebRTC handler keep
the pointer that `Create` returned.  A pointer is the index of the object in
the heap; objects are never freed.  The locks are not modelled: every
operation below is one atomic step. -/

/-- Go `type State string`. -/
abbrev State := String

/-- Go `StateNew`. -/
def StateNew : State := "new"

/-- Go `StateConnected`. -/
def StateConnected : State := "connected"

/-- Go `StateListening`. -/
def StateListening : State := "listening"

/-- Go `StateSpeaking`. -/
def StateSpeaking : State := "speaking"

/-- Go `StateDisconnected`. -/
def StateDisconnected : State := "disconnected"

/-- Go `type Session struct` without its lock; times are clock readings in
nanoseconds. -/
structure Session where
  ID : String
  CreatedAt : Int
  UpdatedAt : Int
  State : State
  deriving DecidableEq, Repr

/-- A `*Session`: the index of the object in the heap. -/
abbrev SessionPtr := Nat

/-- Go `type Manager struct`: the map `sessions`, as an association list with at
most one entry per key in use (the first entry for a key is the binding). -/
structure Manager where
  sessions : List (String × SessionPtr)
  deriving DecidableEq, Repr

/-- The session objects allocated so far and the manager. -/
structure SessionWorld where
  heap : List Session
  manager : Manager
  deriving DecidableEq, Repr

/-- Go `func NewManager() *Manager`. -/
def NewManager : Manager := { sessions := [] }

/-- Go `func (s *Session) UpdateState(state State)`, when the clock reads `now`. -/
def Session.UpdateState (s : Session) (state : StreamAudio.State) (now : Int) : Session :=
  { s with State := state, UpdatedAt := now }

/-- Go `func (s *Session) GetState() State`. -/
def Session.GetState (s : Session) : StreamAudio.State := s.State

/-- Go `func (m *Manager) Get(id string) (*Session, bool)`: the pointer (`none`
for the nil pointer of a missing key) and the found flag. -/
def Manager.Get (m : Manager) (id : String) : Option SessionPtr × Bool :=
  match m.sessions.lookup id with
  | some p => (some p, true)
  | none => (none, false)

/-- Go `func (m *Manager) Delete(id string)`: `delete(m.sessions, id)`. -/
def Manager.Delete (m : Manager) (id : String) : Manager :=
  { sessions := m.sessions.filter fun e => e.1 != id }

/-- Go `func (m *Manager) Create() *Session`: `uuid` is the string that
`uuid.New().String()` produced, `now1` and `now2` the two readings of
`time.Now()`.  The new object is allocated at the end of the heap and stored in
the map under its ID. -/
def SessionWorld.Create (w : SessionWorld) (uuid : String) (now1 now2 : Int) :
    SessionWorld × SessionPtr :=
  let session : Session :=
    { ID := uuid, CreatedAt := now1, UpdatedAt := now2, State := StateNew }
  ({ heap := w.heap ++ [session]
     manager := { sessions := (uuid, w.heap.length) ::
                    w.manager.sessions.filter fun e => e.1 != uuid } },
   w.heap.length)

/-- `sess.UpdateState(state)` through a pointer; `none` when the pointer does
not refer to an object (a nil dereference). -/
def SessionWorld.updateState (w : SessionWorld) (sess : SessionPtr) (state : State)
    (now : Int) : Option SessionWorld :=
  match w.heap[sess]? with
  | some s => some { w with heap := w.heap.set sess (s.UpdateState state now) }
  | none => none

/-- The state of the object a pointer refers to. -/
def SessionWorld.stateOf (w : SessionWorld) (sess : SessionPtr) : Option State :=
  (w.heap[sess]?).map Session.GetState

/-! ## WebRTC handler (`internal/webrtc/handler.go`) -/

/-- The lifecycle events the callbacks of `HandleOffer` react to, for one
session: `OnConnectionStateChange` with `Connected`, with one of
`Disconnected` / `Failed` / `Closed`, or with another state; `OnTrack`; and the
end of the goroutine that `OnTrack` started (EOF, read error or closed pipe),
which runs its deferred function. -/
inductive PeerEvent where
  | transportConnected
  | transportClosed
  | transportOther
  | trackStarted
  | trackEnded
  deriving DecidableEq, Repr

/-- What the callbacks registered by `HandleOffer` do to the sessions on one
event, for the session `sess` they captured, when the clock reads `now`. -/
def handleEvent (w : SessionWorld) (sess : SessionPtr) (ev : PeerEvent) (now : Int) :
    Option SessionWorld :=
  match ev with
  | PeerEvent.transportConnected => w.updateState sess StateConnected now
  | PeerEvent.transportClosed =>
    (w.updateState sess StateDisconnected now).bind fun w1 =>
      (w1.heap[sess]?).map fun s => { w1 with manager := w1.manager.Delete s.ID }
  | PeerEvent.transportOther => some w
  | PeerEvent.trackStarted => w.updateState sess StateListening now
  | PeerEvent.trackEnded => w.updateState sess StateDisconnected now

/-- A sequence of timestamped events, in order. -/
def handleEvents (sess : SessionPtr) : SessionWorld → List (PeerEvent × Int) → Option SessionWorld
  | w, [] => some w
  | w, (ev, now) :: rest => (handleEvent w sess ev now).bind fun w1 => handleEvents sess w1 rest

/-! ## FanOut (`internal/ingest/chunker.go`)

A channel is a bounded FIFO queue with the receivers blocked on it and a closed
flag.  `FanOut` runs sequentially; the consumers act between its channel
operations, as a schedule gives them: `sched t` lists the channels from which
a consumer receives just before the `t`-th channel operation of `FanOut`. -/

/-- The state of a Go `chan []byte`: capacity, buffered frames (oldest first),
the frames consumers have received so far, the number of receivers blocked on
the empty channel, and whether the channel has been closed. -/
structure Chan where
  cap : Nat
  queue : List (List Byte)
  taken : List (List Byte)
  waiting : Nat
  closed : Bool
  deriving DecidableEq, Repr

/-- All channels, by identity. -/
abbrev Chans := Nat → Chan

/-- The frames a destination has received from `FanOut`: those its consumers
have taken and those still buffered, in order. -/
def Chan.accepted (c : Chan) : List (List Byte) := c.taken ++ c.queue

/-- A consumer executes `<-ch`: it takes the oldest buffered frame; on an empty
closed channel it gets the zero value; on an empty open channel it blocks. -/
def Chan.recv (c : Chan) : Chan :=
  match c.queue with
  | f :: rest => { c with queue := rest, taken := c.taken ++ [f] }
  | [] => if c.closed then c else { c with waiting := c.waiting + 1 }

/-- The `select { case out <- chunk: default: }` of `FanOut` on one channel:
`none` is the panic of a send on a closed channel; otherwise the channel
afterwards and whether the send case was taken.  The send proceeds when a
receiver is blocked on the channel or the buffer has room. -/
def Chan.trySend (c : Chan) (frame : List Byte) : Option (Chan × Bool) :=
  if c.closed then none
  else if 0 < c.waiting then
    some ({ c with waiting := c.waiting - 1, taken := c.taken ++ [frame] }, true)
  else if c.queue.length < c.cap then some ({ c with queue := c.queue ++ [frame] }, true)
  else some (c, false)

/-- Go `close(ch)`: `none` is the panic of closing a closed channel; blocked
receivers are released. -/
def Chan.close (c : Chan) : Option Chan :=
  if c.closed then none else some { c with closed := true, waiting := 0 }

/-- Replace the state of channel `i`. -/
def Chans.set (cs : Chans) (i : Nat) (c : Chan) : Chans := fun j => if j = i then c else cs j

/-- The consumers receive once from each channel of the list, in order. -/
def drain (cs : Chans) (receivers : List Nat) : Chans :=
  receivers.foldl (fun acc i => acc.set i (acc i).recv) cs

/-- The state of a run of `FanOut`: the channels, the destination of every
dropped send in order (one logged warning each; `none` is a nil channel), the
channels closed so far in order, and the number of channel operations done. -/
structure FanOutState where
  chans : Chans
  drops : List (Option Nat)
  closes : List Nat
  step : Nat

/-- The body of the inner loop of `FanOut` for one destination: the
non-blocking send of `frame` to `out`, with the warning of the `default` case.
A nil channel is never ready, so the frame is dropped.  `none` is a panic. -/
def sendOne (sched : Nat → List Nat) (frame : List Byte) (st : FanOutState)
    (out : Option Nat) : Option FanOutState :=
  let cs := drain st.chans (sched st.step)
  match out with
  | none => some { st with chans := cs, drops := st.drops ++ [none], step := st.step + 1 }
  | some i =>
    match (cs i).trySend frame with
    | none => none
    | some (c, true) => some { st with chans := cs.set i c, step := st.step + 1 }
    | some (_, false) =>
      some { st with chans := cs, drops := st.drops ++ [some i], step := st.step + 1 }

/-- The inner loop `for _, out := range outs { select ... }` for one frame. -/
def sendFrame (sched : Nat → List Nat) (frame : List Byte) :
    FanOutState → List (Option Nat) → Option FanOutState
  | st, [] => some st
  | st, out :: rest => (sendOne sched frame st out).bind fun st1 => sendFrame sched frame st1 rest

/-- The outer loop `for chunk := range in { ... }` over the frames the input
channel delivers before it is closed. -/
def sendAll (sched : Nat → List Nat) (outs : List (Option Nat)) :
    FanOutState → List (List Byte) → Option FanOutState
  | st, [] => some st
  | st, frame :: rest => (sendFrame sched frame st outs).bind fun st1 => sendAll sched outs st1 rest

/-- The body of the final loop: `close(out)`.  Closing a nil channel or a closed
channel panics. -/
def closeOne (sched : Nat → List Nat) (st : FanOutState) (out : Option Nat) :
    Option FanOutState :=
  let cs := drain st.chans (sched st.step)
  match out with
  | none => none
  | some i =>
    match (cs i).close with
    | none => none
    | some c => some { st with chans := cs.set i c, closes := st.closes ++ [i], step := st.step + 1 }

/-- The final loop `for _, out := range outs { close(out) }`. -/
def closeAll (sched : Nat → List Nat) : FanOutState → List (Option Nat) → Option FanOutState
  | st, [] => some st
  | st, out :: rest => (closeOne sched st out).bind fun st1 => closeAll sched st1 rest

/-- Go `func FanOut(in <-chan []byte, outs ...chan<- []byte)`, for an input
channel that delivers the frames `input` and is then closed.  `none` is a
panic. -/
def FanOut (sched : Nat → List Nat) (chans : Chans) (outs : List (Option Nat))
    (input : List (List Byte)) : Option FanOutState :=
  (sendAll sched outs { chans := chans, drops := [], closes := [], step := 0 } input).bind
    fun st => closeAll sched st outs

/-- One operation on a single channel: a consumer receives, `FanOut` offers a
frame, or `FanOut` closes the channel. -/
inductive ChanOp where
  | recv
  | send (frame : List Byte)
  | close
  deriving DecidableEq, Repr

/-- A channel with the number of frames dropped for it, under one operation. -/
def Chan.exec (s : Chan × Nat) : ChanOp → Option (Chan × Nat)
  | ChanOp.recv => some (s.1.recv, s.2)
  | ChanOp.send frame =>
    match s.1.trySend frame with
    | none => none
    | some (c, true) => some (c, s.2)
    | some (_, false) => some (s.1, s.2 + 1)
  | ChanOp.close => (s.1.close).map fun c => (c, s.2)

/-- A channel under a sequence of operations. -/
def Chan.execs : Chan × Nat → List ChanOp → Option (Chan × Nat)
  | s, [] => some s
  | s, op :: rest => (Chan.exec s op).bind fun s1 => Chan.execs s1 rest

/-- The frames offered to the channel by a sequence of operations, in order. -/
def offered : List ChanOp → List (List Byte)
  | [] => []
  | ChanOp.send frame :: rest => frame :: offered rest
  | _ :: rest => offered rest

/-- An open, empty channel of capacity `cap` with no receiver blocked on it. -/
def Chan.fresh (cap : Nat) : Chan :=
  { cap := cap, queue := [], taken := [], waiting := 0, closed := false }

/-- The operations on channel `d` during the inner loop of `FanOut` for one
frame, started at operation number `t`: the receives of its consumers, and
the offer of the frame wherever `d` is listed. -/
def localSend (d : Nat) (sched : Nat → List Nat) (frame : List Byte) :
    Nat → List (Option Nat) → List ChanOp
  | _, [] => []
  | t, out :: rest =>
    List.replicate ((sched t).count d) ChanOp.recv
      ++ (if out = some d then [ChanOp.send frame] else [])
      ++ localSend d sched frame (t + 1) rest

/-- The operations on channel `d` during the outer loop of `FanOut`. -/
def localSendAll (d : Nat) (sched : Nat → List Nat) (outs : List (Option Nat)) :
    Nat → List (List Byte) → List ChanOp
  | _, [] => []
  | t, frame :: rest =>
    localSend d sched frame t outs ++ localSendAll d sched outs (t + outs.length) rest

/-- The operations on channel `d` during the final loop of `FanOut`. -/
def localClose (d : Nat) (sched : Nat → List Nat) : Nat → List (Option Nat) → List ChanOp
  | _, [] => []
  | t, out :: rest =>
    List.replicate ((sched t).count d) ChanOp.recv
      ++ (if out = some d then [ChanOp.close] else [])
      ++ localClose d sched (t + 1) rest

/-- Receivers only block on an empty channel. -/
def Chan.Good (c : Chan) : Prop := 0 < c.waiting → c.queue = []

/-- The send case of the `select` can proceed: the buffer has room or a
receiver is blocked on the channel. -/
def Chan.ready (c : Chan) : Bool := decide (c.queue.length < c.cap) || decide (0 < c.waiting)

/-- The channel is ready whenever a frame arrives: running the operations in
order, every `send` finds the channel with room or with a blocked receiver. -/
def Chan.readyAtSends : Chan × Nat → List ChanOp → Bool
  | _, [] => true
  | s, op :: rest =>
    (match op with
      | ChanOp.send _ => s.1.ready
      | _ => true)
    && (match Chan.exec s op with
      | some s1 => Chan.readyAtSends s1 rest
      | none => true)

/-- The state a destination keeps while `FanOut` sends to it: open, no more
frames buffered than its capacity, receivers blocked only on an empty buffer. -/
def Chan.Sound (c : Chan) : Prop := c.closed = false ∧ c.queue.length ≤ c.cap ∧ c.Good

/-- Reading of a notification sequence that alternates: `speaking = false` expects
`onSpeechStart` next, `speaking = true` expects `onSpeechEnd` next.  The result
is the flag after the whole sequence, or `none` when some notification comes
out of turn. -/
def alternatesFrom : Bool → List VADEvent → Option Bool
  | speaking, [] => some speaking
  | false, VADEvent.speechStart :: rest => alternatesFrom true rest
  | true, VADEvent.speechEnd :: rest => alternatesFrom false rest
  | _, _ :: _ => none

/-! ## WAV header (`internal/session/recorder.go`)

A Go `uint16` / `uint32` is a `Nat` below `2 ^ 16` / `2 ^ 32`; arithmetic on
them wraps, which is written out with `%`.  An `error` is an `Option String`,
`none` being nil. -/

/-- An `io.Writer` that appends what it is given to `out`.  `budget = none`: it
never fails; `budget = some k`: the next `k` calls of `Write` succeed and the
call after them writes nothing and returns an error. -/
structure Writer where
  out : List Byte
  budget : Option Nat
  deriving DecidableEq, Repr

/-- Go `w.Write(p)`: the writer afterwards and the error. -/
def Writer.Write (w : Writer) (p : List Byte) : Writer × Option String :=
  match w.budget with
  | none => ({ w with out := w.out ++ p }, none)
  | some 0 => (w, some "write failed")
  | some (k + 1) => ({ out := w.out ++ p, budget := some k }, none)

/-- Go `byte(val)`: the low eight bits. -/
def toByte (val : Nat) : Byte := Fin.ofNat (val % 256)

/-- Go `[]byte(s)` for a string of ASCII characters. -/
def asciiBytes (s : String) : List Byte := s.toList.map fun c => toByte c.toNat

/-- Go `func writeUint16(w io.Writer, val uint16) error`. -/
def writeUint16 (w : Writer) (val : Nat) : Writer × Option String :=
  w.Write [toByte val, toByte (val >>> 8)]

/-- Go `func writeUint32(w io.Writer, val uint32) error`. -/
def writeUint32 (w : Writer) (val : Nat) : Writer × Option String :=
  w.Write [toByte val, toByte (val >>> 8), toByte (val >>> 16), toByte (val >>> 24)]

/-- The pattern `if err := step; err != nil { return err }` followed by the rest
of the function. -/
def orReturn (r : Writer × Option String) (rest : Writer → Writer × Option String) :
    Writer × Option String :=
  match r.2 with
  | some err => (r.1, some err)
  | none => rest r.1

/-- Go `func writeWAVHeader(w io.Writer, sampleRate uint32, bitsPerSample,
numChannels uint16, dataSize uint32) error`. -/
def writeWAVHeader (w : Writer) (sampleRate bitsPerSample numChannels dataSize : Nat) :
    Writer × Option String :=
  let byteRate := sampleRate * numChannels % 2 ^ 32 * (bitsPerSample / 8) % 2 ^ 32
  let blockAlign := numChannels * (bitsPerSample / 8) % 2 ^ 16
  orReturn (w.Write (asciiBytes "RIFF")) fun w =>
  orReturn (writeUint32 w ((dataSize + 36) % 2 ^ 32)) fun w =>
  orReturn (w.Write (asciiBytes "WAVE")) fun w =>
  orReturn (w.Write (asciiBytes "fmt ")) fun w =>
  orReturn (writeUint32 w 16) fun w =>
  orReturn (writeUint16 w 1) fun w =>
  orReturn (writeUint16 w numChannels) fun w =>
  orReturn (writeUint32 w sampleRate) fun w =>
  orReturn (writeUint32 w byteRate) fun w =>
  orReturn (writeUint16 w blockAlign) fun w =>
  orReturn (writeUint16 w bitsPerSample) fun w =>
  orReturn (w.Write (asciiBytes "data")) fun w =>
  orReturn (writeUint32 w dataSize) fun w =>
  (w, none)

/-- The little-endian encoding the specification words describe: the `n` bytes
of `val`, least significant first. -/
def specLittleEndian : Nat → Nat → List Byte
  | 0, _ => []
  | n + 1, val => toByte val :: specLittleEndian n (val / 256)

/-- Decoding of a little-endian byte sequence. -/
def decodeLittleEndian : List Byte → Nat
  | [] => 0
  | b :: rest => b.val + 256 * decodeLittleEndian rest

/-- The 44 bytes the specification words describe for a WAV header. -/
def specWAVHeader (sampleRate bitsPerSample numChannels dataSize : Nat) : List Byte :=
  asciiBytes "RIFF" ++ specLittleEndian 4 ((dataSize + 36) % 2 ^ 32)
    ++ asciiBytes "WAVE" ++ asciiBytes "fmt "
    ++ specLittleEndian 4 16 ++ specLittleEndian 2 1
    ++ specLittleEndian 2 numChannels ++ specLittleEndian 4 sampleRate
    ++ specLittleEndian 4 (sampleRate * numChannels * (bitsPerSample / 8) % 2 ^ 32)
    ++ specLittleEndian 2 (numChannels * (bitsPerSample / 8) % 2 ^ 16)
    ++ specLittleEndian 2 bitsPerSample
    ++ asciiBytes "data" ++ specLittleEndian 4 dataSize

/-! ## Skill registry (`internal/skills/skill.go`) -/

/-- A non-nil value of the Go interface `Skill`: `impl` identifies the dynamic
value behind the interface and `name` is what its `Name()` returns. -/
structure Skill where
  impl : Nat
  name : String
  deriving DecidableEq, Repr

/-- Go `Skill.Name()`. -/
def Skill.Name (s : Skill) : String := s.name

/-- Go `type Registry struct`, as `NewRegistry` and `Register` make it: the map
`skills` (never nil) is an association list with at most one entry per name;
the mutex is not modelled. -/
structure Registry where
  skills : List (String × Skill)
  deriving DecidableEq, Repr

/-- Go `func NewRegistry() *Registry`. -/
def NewRegistry : Registry := { skills := [] }

/-- Go `func (r *Registry) Get(name string) (Skill, bool)`; the nil `Skill` of a
failed lookup is `none`. -/
def Registry.Get (r : Registry) (name : String) : Option Skill × Bool :=
  match r.skills.lookup name with
  | some skill => (some skill, true)
  | none => (none, false)

/-- Go `func (r *Registry) Register(skill Skill) error`: the registry afterwards
and the error, `none` being nil. -/
def Registry.Register (r : Registry) (skill : Skill) : Registry × Option String :=
  let name := skill.Name
  match r.skills.lookup name with
  | some _ => (r, some ("skill " ++ name ++ " already registered"))
  | none => ({ skills := (name, skill) :: r.skills }, none)

/-- Go `&EchoSkill{}`. -/
def EchoSkill : Skill := { impl := 0, name := "echo" }

/-- Go `&TimeSkill{}`. -/
def TimeSkill : Skill := { impl := 1, name := "get_time" }

/-- Go `&WeatherSkill{}`. -/
def WeatherSkill : Skill := { impl := 2, name := "get_weather" }

/-- The loop of `InitDefaultSkills`: register each skill, returning at the first
error. -/
def registerAll (r : Registry) : List Skill → Registry × Option String
  | [] => (r, none)
  | skill :: rest =>
    match (r.Register skill).2 with
    | some err => ((r.Register skill).1, some err)
    | none => registerAll (r.Register skill).1 rest

/-- Go `func InitDefaultSkills(registry *Registry) error`. -/
def InitDefaultSkills (registry : Registry) : Registry × Option String :=
  registerAll registry [EchoSkill, TimeSkill, WeatherSkill]

/-! ## Example inputs -/

/-- A 20 ms frame of silence at 16 kHz: 320 samples of value 0. -/
def silentFrame : List Byte := List.replicate 640 0

/-- A 20 ms frame at 16 kHz whose 320 samples all have the value `0x4040`. -/
def loudFrame : List Byte := List.replicate 640 0x40

/-- The `float64` constant `0.02`. -/
def threshold002 : ℚ := f64Round (1 / 50)

/-- A detector with threshold 0.02 and 300 ms minimum silence, both callbacks
set, in the middle of speech with no silence timer pending. -/
def vadSpeaking : VAD :=
  { threshold := threshold002, minSilenceDur := 300000000, silenceStart := none,
    isSpeaking := true, onSpeechStart := true, onSpeechEnd := true }

/-- The detector `NewVAD(0.02, 300ms)` after `SetCallbacks` with two non-nil
callbacks. -/
def vadFresh : VAD := (NewVAD threshold002 300000000).SetCallbacks true true

/-- A chunker with frame length 2 bytes and no `onChunk` callback. -/
def chunkerNoCallback : Chunker :=
  { sampleRate := 100, frameDuration := 10000000, samplesPerFrame := 1, buffer := [],
    onChunk := false }

/-- A chunker with frame length 2 bytes and an `onChunk` callback. -/
def chunkerTwoBytes : Chunker :=
  { sampleRate := 100, frameDuration := 10000000, samplesPerFrame := 1, buffer := [],
    onChunk := true }

/-- The chunker that `NewChunker(16000, 20ms, cb)` builds. -/
def chunker16k : Chunker :=
  { sampleRate := 16000, frameDuration := 20000000, samplesPerFrame := 320, buffer := [],
    onChunk := true }

/-- The chunker that `NewChunker(0, 20ms, cb)` builds. -/
def chunkerZeroFrame : Chunker :=
  { sampleRate := 0, frameDuration := 20000000, samplesPerFrame := 0, buffer := [],
    onChunk := true }

/-- A chunker with frame length 2 bytes holding one retained byte. -/
def chunkerOneByte : Chunker :=
  { sampleRate := 100, frameDuration := 10000000, samplesPerFrame := 1, buffer := [9],
    onChunk := true }

/-- The world after `NewManager()` and one `Create()` that drew the ID `"a"` at
clock readings 10 and 11; the new session has pointer 0. -/
def worldOneSession : SessionWorld :=
  ({ heap := [], manager := NewManager } : SessionWorld).Create "a" 10 11 |>.1

/-- A session in the state `Disconnected`. -/
def sessionDisconnected : Session :=
  { ID := "a", CreatedAt := 10, UpdatedAt := 20, State := StateDisconnected }

/-- A manager with the sessions `"a"` and `"b"`. -/
def managerTwo : Manager := { sessions := [("a", 0), ("b", 1)] }

/-- The schedule in which no consumer ever receives. -/
def noDrain : Nat → List Nat := fun _ => []

/-- The schedule in which a consumer of channel 0 receives before every channel
operation of `FanOut`. -/
def drainZero : Nat → List Nat := fun _ => [0]

/-- Fresh channels: channel 0 has capacity 2, every other channel capacity 3. -/
def chansFresh : Chans := fun i => Chan.fresh (if i = 0 then 2 else 3)

/-- The same channels, with every channel but channel 0 of capacity 0. -/
def chansOthersFull : Chans := fun i => Chan.fresh (if i = 0 then 2 else 0)

/-- A registry that holds the echo skill. -/
def registryEcho : Registry := (NewRegistry.Register EchoSkill).1

/-- Another skill that calls itself "echo". -/
def otherEcho : Skill := { impl := 7, name := "echo" }

/-! ## Lemmas -/

/-! ### float64: exponent -/

theorem bitLengthAux_spec : ∀ (fuel n : Nat), n ≤ fuel →
    n < 2 ^ bitLengthAux fuel n ∧ (0 < n → 2 ^ bitLengthAux fuel n ≤ 2 * n) := by
  intro fuel
  induction fuel with
  | zero =>
    intro n hn
    have : n = 0 := Nat.le_zero.mp hn
    subst this
    simp [bitLengthAux]
  | succ fuel ih =>
    intro n hn
    by_cases h0 : n = 0
    · subst h0; simp [bitLengthAux]
    · have hpos : 0 < n := Nat.pos_of_ne_zero h0
      have hhalf : n / 2 ≤ fuel := by omega
      obtain ⟨h1, h2⟩ := ih (n / 2) hhalf
      simp only [bitLengthAux, h0, if_false, pow_succ]
      refine ⟨by omega, fun _ => ?_⟩
      by_cases hm : n / 2 = 0
      · have hb : bitLengthAux fuel (n / 2) = 0 := by
          rw [hm]; cases fuel <;> simp [bitLengthAux]
        rw [hb]; omega
      · have := h2 (Nat.pos_of_ne_zero hm)
        omega

theorem bitLength_spec (n : Nat) (h : 0 < n) :
    n < 2 ^ bitLength n ∧ 2 ^ bitLength n ≤ 2 * n :=
  ⟨(bitLengthAux_spec n n le_rfl).1, (bitLengthAux_spec n n le_rfl).2 h⟩

theorem binExp_spec (q : ℚ) (hq : q ≠ 0) :
    (2 : ℚ) ^ binExp q ≤ |q| ∧ |q| < (2 : ℚ) ^ (binExp q + 1) := by
  have hnum : 0 < q.num.natAbs := Int.natAbs_pos.mpr (Rat.num_ne_zero.mpr hq)
  have hden : 0 < q.den := q.den_pos
  obtain ⟨ha1, ha2⟩ := bitLength_spec _ hnum
  obtain ⟨hb1, hb2⟩ := bitLength_spec _ hden
  have habs : |q| = (q.num.natAbs : ℚ) / (q.den : ℚ) := by
    conv_lhs => rw [← Rat.num_div_den q]
    rw [abs_div, Nat.abs_cast, Nat.cast_natAbs, Int.cast_abs]
  have hdq : (0 : ℚ) < (q.den : ℚ) := by exact_mod_cast hden
  have h2 : (0 : ℚ) < 2 := by norm_num
  set la := bitLength q.num.natAbs with hla
  set lb := bitLength q.den with hlb
  have hA1 : ((q.num.natAbs : ℕ) : ℚ) < (2 : ℚ) ^ la := by exact_mod_cast ha1
  have hA2 : (2 : ℚ) ^ la ≤ 2 * ((q.num.natAbs : ℕ) : ℚ) := by exact_mod_cast ha2
  have hB1 : ((q.den : ℕ) : ℚ) < (2 : ℚ) ^ lb := by exact_mod_cast hb1
  have hB2 : (2 : ℚ) ^ lb ≤ 2 * ((q.den : ℕ) : ℚ) := by exact_mod_cast hb2
  have hpl : (0 : ℚ) < (2 : ℚ) ^ lb := pow_pos h2 _
  have hsub : (2 : ℚ) ^ ((la : ℤ) - (lb : ℤ)) = (2 : ℚ) ^ la / (2 : ℚ) ^ lb := by
    rw [zpow_sub₀ (by norm_num), zpow_natCast, zpow_natCast]
  -- upper and lower bounds for the first guess
  have hup : |q| < (2 : ℚ) ^ ((la : ℤ) - (lb : ℤ) + 1) := by
    rw [zpow_add_one₀ (by norm_num), hsub, habs, div_lt_iff₀ hdq]
    have : (2 : ℚ) ^ la / (2 : ℚ) ^ lb * 2 * (q.den : ℚ) = (2 : ℚ) ^ la * (2 * (q.den : ℚ) / (2 : ℚ) ^ lb) := by
      field_simp
      ring
    rw [this]
    have h1 : (1 : ℚ) ≤ 2 * (q.den : ℚ) / (2 : ℚ) ^ lb := by
      rw [le_div_iff₀ hpl]; linarith
    calc ((q.num.natAbs : ℕ) : ℚ) < (2 : ℚ) ^ la := hA1
      _ = (2 : ℚ) ^ la * 1 := (mul_one _).symm
      _ ≤ (2 : ℚ) ^ la * (2 * (q.den : ℚ) / (2 : ℚ) ^ lb) :=
        mul_le_mul_of_nonneg_left h1 (pow_pos h2 _).le
  have hlow : (2 : ℚ) ^ ((la : ℤ) - (lb : ℤ) - 1) < |q| := by
    rw [zpow_sub_one₀ (by norm_num), hsub, habs, lt_div_iff₀ hdq]
    have : (2 : ℚ) ^ la / (2 : ℚ) ^ lb * 2⁻¹ * (q.den : ℚ) = (2 : ℚ) ^ la / 2 * ((q.den : ℚ) / (2 : ℚ) ^ lb) := by
      field_simp
      ring
    rw [this]
    have h1 : (q.den : ℚ) / (2 : ℚ) ^ lb < 1 := by
      rw [div_lt_iff₀ hpl]; linarith
    have h3 : (2 : ℚ) ^ la / 2 ≤ ((q.num.natAbs : ℕ) : ℚ) := by linarith
    have hnq : (0 : ℚ) < ((q.num.natAbs : ℕ) : ℚ) := by exact_mod_cast hnum
    have hdpos : (0 : ℚ) ≤ (q.den : ℚ) / (2 : ℚ) ^ lb := (div_pos hdq hpl).le
    calc (2 : ℚ) ^ la / 2 * ((q.den : ℚ) / (2 : ℚ) ^ lb)
        ≤ ((q.num.natAbs : ℕ) : ℚ) * ((q.den : ℚ) / (2 : ℚ) ^ lb) :=
          mul_le_mul_of_nonneg_right h3 hdpos
      _ < ((q.num.natAbs : ℕ) : ℚ) * 1 := mul_lt_mul_of_pos_left h1 hnq
      _ = _ := mul_one _
  unfold binExp
  simp only [← hla, ← hlb]
  split_ifs with hc
  · exact ⟨hc, hup⟩
  · refine ⟨hlow.le, ?_⟩
    rw [sub_add_cancel]
    exact lt_of_not_ge hc

theorem binExp_lt_of_lt (q : ℚ) (hq : q ≠ 0) (j : ℤ) (h : |q| < (2 : ℚ) ^ j) : binExp q < j := by
  have h1 := (binExp_spec q hq).1
  have : (2 : ℚ) ^ binExp q < (2 : ℚ) ^ j := lt_of_le_of_lt h1 h
  exact (zpow_lt_zpow_iff_right₀ (by norm_num : (1 : ℚ) < 2)).mp this

theorem binExp_ge_of_le (q : ℚ) (hq : q ≠ 0) (j : ℤ) (h : (2 : ℚ) ^ j ≤ |q|) : j ≤ binExp q := by
  have h1 := (binExp_spec q hq).2
  have : (2 : ℚ) ^ j < (2 : ℚ) ^ (binExp q + 1) := lt_of_le_of_lt h h1
  have := (zpow_lt_zpow_iff_right₀ (by norm_num : (1 : ℚ) < 2)).mp this
  omega

/-! ### float64: rounding to an integer -/

theorem roundHalfEven_cases (x : ℚ) : roundHalfEven x = ⌊x⌋ ∨
    (roundHalfEven x = ⌊x⌋ + 1 ∧ (1 : ℚ) / 2 ≤ x - ⌊x⌋) := by
  unfold roundHalfEven
  simp only
  split_ifs with h1 h2 h3
  · exact Or.inl rfl
  · exact Or.inr ⟨rfl, h2.le⟩
  · exact Or.inl rfl
  · exact Or.inr ⟨rfl, not_lt.mp h1⟩

theorem roundHalfEven_int (n : Int) : roundHalfEven (n : ℚ) = n := by
  unfold roundHalfEven
  simp

theorem floor_le_roundHalfEven (x : ℚ) : ⌊x⌋ ≤ roundHalfEven x := by
  rcases roundHalfEven_cases x with h | ⟨h, -⟩ <;> rw [h]
  omega

theorem roundHalfEven_le_floor_succ (x : ℚ) : roundHalfEven x ≤ ⌊x⌋ + 1 := by
  rcases roundHalfEven_cases x with h | ⟨h, -⟩ <;> rw [h]
  omega

theorem int_le_roundHalfEven (x : ℚ) (n : Int) (h : (n : ℚ) ≤ x) : n ≤ roundHalfEven x :=
  le_trans (Int.le_floor.mpr h) (floor_le_roundHalfEven x)

theorem roundHalfEven_le_int (x : ℚ) (n : Int) (h : x ≤ (n : ℚ)) : roundHalfEven x ≤ n := by
  have hf : ⌊x⌋ ≤ n := by
    have : (⌊x⌋ : ℚ) ≤ (n : ℚ) := le_trans (Int.floor_le x) h
    exact_mod_cast this
  rcases roundHalfEven_cases x with h1 | ⟨h1, h2⟩ <;> rw [h1]
  · exact hf
  · have hlt : (⌊x⌋ : ℚ) < (n : ℚ) := by linarith
    have : ⌊x⌋ < n := by exact_mod_cast hlt
    omega

theorem roundHalfEven_mono (x y : ℚ) (h : x ≤ y) : roundHalfEven x ≤ roundHalfEven y := by
  have hf : ⌊x⌋ ≤ ⌊y⌋ := Int.floor_mono h
  rcases lt_or_eq_of_le hf with hlt | heq
  · calc roundHalfEven x ≤ ⌊x⌋ + 1 := roundHalfEven_le_floor_succ x
      _ ≤ ⌊y⌋ := hlt
      _ ≤ roundHalfEven y := floor_le_roundHalfEven y
  · have hr : x - ⌊x⌋ ≤ y - ⌊y⌋ := by rw [heq]; linarith
    unfold roundHalfEven
    simp only
    rw [← heq] at hr ⊢
    have hr' : x - (⌊x⌋ : ℚ) ≤ y - (⌊x⌋ : ℚ) := by
      have : ((⌊y⌋ : ℤ) : ℚ) = ((⌊x⌋ : ℤ) : ℚ) := by rw [heq]
      linarith
    split_ifs <;> first | omega | (exfalso; linarith)

theorem roundHalfEven_error (x : ℚ) : |(roundHalfEven x : ℚ) - x| ≤ 1 / 2 := by
  have h1 := Int.floor_le x
  have h2 := Int.lt_floor_add_one x
  unfold roundHalfEven
  simp only
  rw [abs_le]
  split_ifs with a b c <;> push_cast <;> constructor <;> linarith

theorem roundHalfEven_nonneg (x : ℚ) (h : 0 ≤ x) : 0 ≤ roundHalfEven x :=
  int_le_roundHalfEven x 0 (by simpa using h)

/-! ### float64: rounding to the nearest float -/

theorem f64Ulp_pos (q : ℚ) : 0 < f64Ulp q := zpow_pos (by norm_num) _

theorem f64Round_zero : f64Round 0 = 0 := by simp [f64Round]

theorem f64Round_eq (q : ℚ) (hq : q ≠ 0) :
    f64Round q = (roundHalfEven (q / f64Ulp q) : ℚ) * f64Ulp q := by
  simp [f64Round, hq]

theorem f64Round_nonneg (q : ℚ) (h : 0 ≤ q) : 0 ≤ f64Round q := by
  by_cases hq : q = 0
  · rw [hq, f64Round_zero]
  · rw [f64Round_eq q hq]
    have h1 : 0 ≤ q / f64Ulp q := div_nonneg h (f64Ulp_pos q).le
    have h2 : (0 : ℚ) ≤ (roundHalfEven (q / f64Ulp q) : ℚ) := by
      exact_mod_cast roundHalfEven_nonneg _ h1
    exact mul_nonneg h2 (f64Ulp_pos q).le

/-- A value that is a whole number of units in the last place is a float. -/
theorem f64Round_exact_of_int (q : ℚ) (n : Int) (h : q / f64Ulp q = (n : ℚ)) :
    f64Round q = q := by
  by_cases hq : q = 0
  · rw [hq, f64Round_zero]
  · rw [f64Round_eq q hq, h, roundHalfEven_int, ← h]
    exact div_mul_cancel₀ q (f64Ulp_pos q).ne'

theorem two_zpow_nat (k : ℤ) (hk : 0 ≤ k) : ∃ n : ℕ, (2 : ℚ) ^ k = (n : ℚ) := by
  obtain ⟨j, rfl⟩ := Int.eq_ofNat_of_zero_le hk
  exact ⟨2 ^ j, by push_cast; rw [zpow_natCast]⟩

/-- Every `m * 2 ^ j` with `|m| < 2 ^ 53` and `j ≥ -1074` is a float. -/
theorem f64Round_exact (m j : Int) (hm : |(m : ℚ)| < (2 : ℚ) ^ (53 : ℤ)) (hj : -1074 ≤ j) :
    f64Round ((m : ℚ) * (2 : ℚ) ^ j) = (m : ℚ) * (2 : ℚ) ^ j := by
  by_cases hm0 : m = 0
  · subst hm0; simp [f64Round_zero]
  have h2j : (0 : ℚ) < (2 : ℚ) ^ j := zpow_pos (by norm_num) _
  have hq : (m : ℚ) * (2 : ℚ) ^ j ≠ 0 :=
    mul_ne_zero (by exact_mod_cast hm0) h2j.ne'
  have habs : |(m : ℚ) * (2 : ℚ) ^ j| < (2 : ℚ) ^ (53 + j) := by
    rw [abs_mul, abs_of_pos h2j, zpow_add₀ (by norm_num)]
    exact mul_lt_mul_of_pos_right hm h2j
  have he : binExp ((m : ℚ) * (2 : ℚ) ^ j) < 53 + j := binExp_lt_of_lt _ hq _ habs
  have hE : max (binExp ((m : ℚ) * (2 : ℚ) ^ j)) (-1022) - 52 ≤ j := by
    rcases max_cases (binExp ((m : ℚ) * (2 : ℚ) ^ j)) (-1022) with ⟨h, -⟩ | ⟨h, -⟩ <;>
      rw [h] <;> omega
  obtain ⟨n, hn⟩ := two_zpow_nat (j - (max (binExp ((m : ℚ) * (2 : ℚ) ^ j)) (-1022) - 52))
    (by omega)
  refine f64Round_exact_of_int _ (m * (n : Int)) ?_
  unfold f64Ulp
  rw [mul_div_assoc, ← zpow_sub₀ (by norm_num), hn]
  push_cast
  rfl

theorem f64Round_int (m : Int) (hm : |(m : ℚ)| < (2 : ℚ) ^ (53 : ℤ)) :
    f64Round (m : ℚ) = (m : ℚ) := by
  have := f64Round_exact m 0 hm (by norm_num)
  simpa using this

/-- Upper bound: a positive value rounds to at most the next power of two. -/
theorem f64Round_le_pow (q : ℚ) (hq : 0 < q) :
    f64Round q ≤ (2 : ℚ) ^ (max (binExp q) (-1022) + 1) := by
  have hq0 : q ≠ 0 := hq.ne'
  rw [f64Round_eq q hq0]
  have hu := f64Ulp_pos q
  have hlt : q < (2 : ℚ) ^ (max (binExp q) (-1022) + 1) := by
    have h1 := (binExp_spec q hq0).2
    rw [abs_of_pos hq] at h1
    refine lt_of_lt_of_le h1 ?_
    exact zpow_le_zpow_right₀ (by norm_num) (by have := le_max_left (binExp q) (-1022); omega)
  have hsplit : (2 : ℚ) ^ (max (binExp q) (-1022) + 1) = (2 : ℚ) ^ (53 : ℤ) * f64Ulp q := by
    unfold f64Ulp
    rw [← zpow_add₀ (by norm_num)]
    congr 1
    ring
  rw [hsplit]
  refine mul_le_mul_of_nonneg_right ?_ hu.le
  have h53 : ((2 : ℚ) ^ (53 : ℤ)) = ((2 ^ 53 : Int) : ℚ) := by norm_num
  rw [h53]
  have : roundHalfEven (q / f64Ulp q) ≤ 2 ^ 53 := by
    apply roundHalfEven_le_int
    rw [div_le_iff₀ hu, ← h53, ← hsplit]
    exact hlt.le
  exact_mod_cast this

/-- Lower bound: a normal positive value rounds to at least its power of two. -/
theorem pow_le_f64Round (q : ℚ) (hq : 0 < q) (hn : -1022 ≤ binExp q) :
    (2 : ℚ) ^ binExp q ≤ f64Round q := by
  have hq0 : q ≠ 0 := hq.ne'
  rw [f64Round_eq q hq0]
  have hu := f64Ulp_pos q
  have hle : (2 : ℚ) ^ binExp q ≤ q := by
    have h1 := (binExp_spec q hq0).1
    rwa [abs_of_pos hq] at h1
  have hsplit : (2 : ℚ) ^ binExp q = (2 : ℚ) ^ (52 : ℤ) * f64Ulp q := by
    unfold f64Ulp
    rw [max_eq_left hn, ← zpow_add₀ (by norm_num)]
    congr 1
    ring
  rw [hsplit]
  refine mul_le_mul_of_nonneg_right ?_ hu.le
  have h52 : ((2 : ℚ) ^ (52 : ℤ)) = ((2 ^ 52 : Int) : ℚ) := by norm_num
  rw [h52]
  have : (2 ^ 52 : Int) ≤ roundHalfEven (q / f64Ulp q) := by
    apply int_le_roundHalfEven
    rw [le_div_iff₀ hu, ← h52, ← hsplit]
    exact hle
  exact_mod_cast this

theorem binExp_mono (x y : ℚ) (hx : 0 < x) (hxy : x ≤ y) : binExp x ≤ binExp y := by
  have hy : 0 < y := lt_of_lt_of_le hx hxy
  have h1 := (binExp_spec x hx.ne').1
  rw [abs_of_pos hx] at h1
  exact binExp_ge_of_le y hy.ne' _ (by rw [abs_of_pos hy]; exact le_trans h1 hxy)

/-- Rounding is monotone on the non-negative values. -/
theorem f64Round_mono (x y : ℚ) (hx : 0 ≤ x) (hxy : x ≤ y) : f64Round x ≤ f64Round y := by
  rcases eq_or_lt_of_le hx with h0 | hpos
  · rw [← h0, f64Round_zero]
    exact f64Round_nonneg y (le_trans hx hxy)
  have hy : 0 < y := lt_of_lt_of_le hpos hxy
  have he := binExp_mono x y hpos hxy
  have hE : max (binExp x) (-1022) ≤ max (binExp y) (-1022) := max_le_max he le_rfl
  rcases eq_or_lt_of_le hE with heq | hlt
  · have hu : f64Ulp x = f64Ulp y := by unfold f64Ulp; rw [heq]
    rw [f64Round_eq x hpos.ne', f64Round_eq y hy.ne', hu]
    refine mul_le_mul_of_nonneg_right ?_ (f64Ulp_pos y).le
    have : roundHalfEven (x / f64Ulp y) ≤ roundHalfEven (y / f64Ulp y) :=
      roundHalfEven_mono _ _ (div_le_div_of_nonneg_right hxy (f64Ulp_pos y).le)
    exact_mod_cast this
  · have hny : -1022 ≤ binExp y := by
      by_contra hc
      have : max (binExp y) (-1022) = -1022 := max_eq_right (by omega)
      have := le_max_right (binExp x) (-1022)
      omega
    have hEy : max (binExp y) (-1022) = binExp y := max_eq_left hny
    calc f64Round x ≤ (2 : ℚ) ^ (max (binExp x) (-1022) + 1) := f64Round_le_pow x hpos
      _ ≤ (2 : ℚ) ^ binExp y := zpow_le_zpow_right₀ (by norm_num) (by omega)
      _ ≤ f64Round y := pow_le_f64Round y hy hny

/-- Relative error of rounding a value in the normal range. -/
theorem f64Round_error (q : ℚ) (hq : q ≠ 0) (hn : -1022 ≤ binExp q) :
    |f64Round q - q| ≤ |q| / 2 ^ 53 := by
  have hu := f64Ulp_pos q
  rw [f64Round_eq q hq]
  have h1 := roundHalfEven_error (q / f64Ulp q)
  have h2 : (roundHalfEven (q / f64Ulp q) : ℚ) * f64Ulp q - q
      = ((roundHalfEven (q / f64Ulp q) : ℚ) - q / f64Ulp q) * f64Ulp q := by
    field_simp
  rw [h2, abs_mul, abs_of_pos hu]
  have h3 : f64Ulp q * 2 ^ 52 ≤ |q| := by
    have := (binExp_spec q hq).1
    refine le_trans (le_of_eq ?_) this
    unfold f64Ulp
    rw [max_eq_left hn]
    have : ((2 : ℚ) ^ 52) = (2 : ℚ) ^ (52 : ℤ) := by norm_num
    rw [this, ← zpow_add₀ (by norm_num)]
    congr 1
    ring
  calc |(roundHalfEven (q / f64Ulp q) : ℚ) - q / f64Ulp q| * f64Ulp q
      ≤ 1 / 2 * f64Ulp q := mul_le_mul_of_nonneg_right h1 hu.le
    _ = f64Ulp q * 2 ^ 52 / 2 ^ 53 := by ring
    _ ≤ |q| / 2 ^ 53 := div_le_div_of_nonneg_right h3 (by positivity)

/-! ### float64: square root -/

theorem isqrtAux_spec : ∀ (fuel n : Nat), n ≤ fuel →
    isqrtAux fuel n * isqrtAux fuel n ≤ n ∧ n < (isqrtAux fuel n + 1) * (isqrtAux fuel n + 1) := by
  intro fuel
  induction fuel with
  | zero =>
    intro n hn
    have : n = 0 := Nat.le_zero.mp hn
    subst this
    simp [isqrtAux]
  | succ fuel ih =>
    intro n hn
    by_cases h0 : n = 0
    · subst h0; simp [isqrtAux]
    · obtain ⟨h1, h2⟩ := ih (n / 4) (by omega)
      simp only [isqrtAux, h0, if_false]
      generalize isqrtAux fuel (n / 4) = r at h1 h2 ⊢
      have e1 : (2 * r + 1 + 1) * (2 * r + 1 + 1) = 4 * ((r + 1) * (r + 1)) := by ring
      have e2 : 2 * r * (2 * r) = 4 * (r * r) := by ring
      split_ifs with hc
      · refine ⟨hc, ?_⟩
        rw [e1]; omega
      · refine ⟨?_, lt_of_not_ge hc⟩
        rw [e2]; omega

theorem isqrt_spec (n : Nat) : isqrt n * isqrt n ≤ n ∧ n < (isqrt n + 1) * (isqrt n + 1) :=
  isqrtAux_spec n n le_rfl

theorem f64Round_one : f64Round 1 = 1 := by
  have := f64Round_int 1 (by norm_num)
  simpa using this

/-- The pieces of `f64Sqrt x` for `x > 0`: the scaling `w = 2 ^ k`, the integer
root `s` of the scaled argument, and the sticky bit. -/
theorem f64Sqrt_parts (x : ℚ) (hx : 0 < x) :
    ∃ (k s sticky : Nat),
      f64Sqrt x = f64Round (((2 * s + sticky : Nat) : ℚ) / 2 ^ (k + 1)) ∧
      (109 - binExp x ≤ 2 * (k : Int) + 1) ∧ ((k : Int) ≤ max 0 ((109 - binExp x) / 2)) ∧
      ((s : ℚ) * s ≤ x * 4 ^ k) ∧ (x * 4 ^ k < ((s : ℚ) + 1) * (s + 1)) ∧
      sticky ≤ 1 ∧ (sticky = 0 ↔ (s : ℚ) * s = x * 4 ^ k) := by
  have hy : 0 ≤ x * 4 ^ ((109 - binExp x) / 2).toNat := by positivity
  have hfl : 0 ≤ ⌊x * 4 ^ ((109 - binExp x) / 2).toNat⌋ := Int.floor_nonneg.mpr hy
  obtain ⟨h1, h2⟩ := isqrt_spec ⌊x * 4 ^ ((109 - binExp x) / 2).toNat⌋.toNat
  refine ⟨((109 - binExp x) / 2).toNat, isqrt ⌊x * 4 ^ ((109 - binExp x) / 2).toNat⌋.toNat,
    if ((isqrt ⌊x * 4 ^ ((109 - binExp x) / 2).toNat⌋.toNat : ℚ)
        * isqrt ⌊x * 4 ^ ((109 - binExp x) / 2).toNat⌋.toNat) = x * 4 ^ ((109 - binExp x) / 2).toNat
      then 0 else 1, ?_, ?_, ?_, ?_, ?_, ?_, ?_⟩
  · simp only [f64Sqrt, not_le.mpr hx, if_false]
  · have := Int.self_le_toNat ((109 - binExp x) / 2)
    omega
  · rcases le_or_lt 0 ((109 - binExp x) / 2) with h | h
    · rw [Int.toNat_of_nonneg h]; exact le_max_right _ _
    · rw [Int.toNat_eq_zero.mpr h.le]; exact le_max_left _ _
  · have hN : ((⌊x * 4 ^ ((109 - binExp x) / 2).toNat⌋.toNat : ℕ) : ℚ)
        ≤ x * 4 ^ ((109 - binExp x) / 2).toNat := by
      have : ((⌊x * 4 ^ ((109 - binExp x) / 2).toNat⌋.toNat : ℕ) : ℤ)
          = ⌊x * 4 ^ ((109 - binExp x) / 2).toNat⌋ := Int.toNat_of_nonneg hfl
      calc ((⌊x * 4 ^ ((109 - binExp x) / 2).toNat⌋.toNat : ℕ) : ℚ)
          = ((⌊x * 4 ^ ((109 - binExp x) / 2).toNat⌋ : ℤ) : ℚ) := by
            rw [← this]; norm_cast
        _ ≤ _ := Int.floor_le _
    refine le_trans ?_ hN
    exact_mod_cast h1
  · have hN : x * 4 ^ ((109 - binExp x) / 2).toNat
        < ((⌊x * 4 ^ ((109 - binExp x) / 2).toNat⌋.toNat : ℕ) : ℚ) + 1 := by
      have : ((⌊x * 4 ^ ((109 - binExp x) / 2).toNat⌋.toNat : ℕ) : ℤ)
          = ⌊x * 4 ^ ((109 - binExp x) / 2).toNat⌋ := Int.toNat_of_nonneg hfl
      calc x * 4 ^ ((109 - binExp x) / 2).toNat
          < ((⌊x * 4 ^ ((109 - binExp x) / 2).toNat⌋ : ℤ) : ℚ) + 1 := Int.lt_floor_add_one _
        _ = _ := by rw [← this]; norm_cast
    refine lt_of_lt_of_le hN ?_
    have : ⌊x * 4 ^ ((109 - binExp x) / 2).toNat⌋.toNat + 1
        ≤ (isqrt ⌊x * 4 ^ ((109 - binExp x) / 2).toNat⌋.toNat + 1)
          * (isqrt ⌊x * 4 ^ ((109 - binExp x) / 2).toNat⌋.toNat + 1) := h2
    exact_mod_cast this
  · split_ifs <;> omega
  · split_ifs with hc
    · simp [hc]
    · simp [hc]

theorem f64Sqrt_nonneg (x : ℚ) : 0 ≤ f64Sqrt x := by
  rcases le_or_lt x 0 with h | h
  · simp [f64Sqrt, h]
  · obtain ⟨k, s, sticky, he, -⟩ := f64Sqrt_parts x h
    rw [he]
    exact f64Round_nonneg _ (by positivity)

theorem f64Sqrt_zero : f64Sqrt 0 = 0 := by simp [f64Sqrt]

theorem f64Sqrt_le_one (x : ℚ) (hx : x ≤ 1) : f64Sqrt x ≤ 1 := by
  rcases le_or_lt x 0 with h | h
  · simp [f64Sqrt, h]
  · obtain ⟨k, s, sticky, he, -, -, hs1, -, hst1, hst0⟩ := f64Sqrt_parts x h
    rw [he, ← f64Round_one]
    refine f64Round_mono _ _ (by positivity) ?_
    rw [div_le_one (by positivity)]
    have h4 : (4 : ℚ) ^ k = (2 : ℚ) ^ k * 2 ^ k := by
      rw [← mul_pow]; norm_num
    have hsq : (s : ℚ) * s ≤ (2 : ℚ) ^ k * 2 ^ k := by
      calc (s : ℚ) * s ≤ x * 4 ^ k := hs1
        _ ≤ 1 * 4 ^ k := mul_le_mul_of_nonneg_right hx (by positivity)
        _ = _ := by rw [one_mul, h4]
    have hsle : s ≤ 2 ^ k := by
      by_contra hc
      have hlt : 2 ^ k < s := lt_of_not_ge hc
      have : (2 : ℕ) ^ k * 2 ^ k < s * s := Nat.mul_lt_mul'' hlt hlt
      have : ((2 : ℚ) ^ k * 2 ^ k) < (s : ℚ) * s := by exact_mod_cast this
      linarith
    have hnat : 2 * s + sticky ≤ 2 ^ (k + 1) := by
      rw [pow_succ]
      rcases lt_or_eq_of_le hsle with hlt | heq
      · omega
      · have hex : (s : ℚ) * s = x * 4 ^ k := by
          apply le_antisymm hs1
          calc x * 4 ^ k ≤ 1 * 4 ^ k := mul_le_mul_of_nonneg_right hx (by positivity)
            _ = (s : ℚ) * s := by rw [one_mul, h4, heq]; push_cast; ring
        have : sticky = 0 := hst0.mpr hex
        omega
    exact_mod_cast hnat

theorem f64Eps_pos : 0 < f64Eps := by unfold f64Eps; positivity

theorem f64Eps_lt_one : f64Eps < 1 := by unfold f64Eps; norm_num

/-- Rounding a positive value in the normal range changes it by a factor in
`[1 - eps, 1 + eps]`. -/
theorem f64Round_rel (q : ℚ) (hq : 0 < q) (hn : (2 : ℚ) ^ (-1022 : ℤ) ≤ q) :
    q * (1 - f64Eps) ≤ f64Round q ∧ f64Round q ≤ q * (1 + f64Eps) := by
  have he : -1022 ≤ binExp q := binExp_ge_of_le q hq.ne' _ (by rwa [abs_of_pos hq])
  have h := f64Round_error q hq.ne' he
  rw [abs_of_pos hq, abs_le] at h
  unfold f64Eps
  constructor
  · have : q * (1 - 1 / 2 ^ 53) = q - q / 2 ^ 53 := by ring
    rw [this]; linarith [h.1]
  · have : q * (1 + 1 / 2 ^ 53) = q + q / 2 ^ 53 := by ring
    rw [this]; linarith [h.2]

/-- The square of `f64Sqrt x` is `x` up to three roundings. -/
theorem f64Sqrt_sq (x : ℚ) (hx : (2 : ℚ) ^ (-1074 : ℤ) ≤ x) :
    x * (1 - f64Eps) ^ 3 ≤ f64Sqrt x ^ 2 ∧ f64Sqrt x ^ 2 ≤ x * (1 + f64Eps) ^ 3 := by
  have hx0 : 0 < x := lt_of_lt_of_le (zpow_pos (by norm_num) _) hx
  obtain ⟨k, s, sticky, he, hk1, hk2, hs1, hs2, hst1, hst0⟩ := f64Sqrt_parts x hx0
  have hE : -1074 ≤ binExp x := binExp_ge_of_le x hx0.ne' _ (by rwa [abs_of_pos hx0])
  have hw : (0 : ℚ) < 2 ^ k := by positivity
  have h4 : (4 : ℚ) ^ k = (2 : ℚ) ^ k * 2 ^ k := by rw [← mul_pow]; norm_num
  -- the scaled argument has at least 108 bits
  have hy : (2 : ℚ) ^ (108 : ℕ) ≤ x * 4 ^ k := by
    have h1 : (2 : ℚ) ^ binExp x ≤ x := by
      have := (binExp_spec x hx0.ne').1
      rwa [abs_of_pos hx0] at this
    have h2 : (4 : ℚ) ^ k = (2 : ℚ) ^ (2 * (k : ℤ)) := by
      rw [zpow_mul, zpow_natCast]
      norm_num
    calc (2 : ℚ) ^ (108 : ℕ) = (2 : ℚ) ^ (108 : ℤ) := by norm_num
      _ ≤ (2 : ℚ) ^ (binExp x + 2 * (k : ℤ)) :=
        zpow_le_zpow_right₀ (by norm_num) (by omega)
      _ = (2 : ℚ) ^ binExp x * (2 : ℚ) ^ (2 * (k : ℤ)) := zpow_add₀ (by norm_num) _ _
      _ ≤ x * 4 ^ k := by
        rw [h2]; exact mul_le_mul_of_nonneg_right h1 (zpow_pos (by norm_num) _).le
  have hs54 : 2 ^ 54 ≤ s := by
    by_contra hc
    have hlt : s + 1 ≤ 2 ^ 54 := by omega
    have : (s + 1) * (s + 1) ≤ 2 ^ 54 * 2 ^ 54 := Nat.mul_le_mul hlt hlt
    have hq : ((s : ℚ) + 1) * ((s : ℚ) + 1) ≤ (2 : ℚ) ^ (108 : ℕ) := by
      have e : (2 : ℚ) ^ (108 : ℕ) = ((2 ^ 54 * 2 ^ 54 : ℕ) : ℚ) := by norm_num
      rw [e]
      exact_mod_cast this
    linarith
  have hsq : ((2 : ℚ) ^ 54) ≤ (s : ℚ) := by exact_mod_cast hs54
  have hspos : (0 : ℚ) < s := lt_of_lt_of_le (by positivity) hsq
  set v : ℚ := ((2 * s + sticky : ℕ) : ℚ) / 2 ^ (k + 1) with hv
  have hvw : v * 2 ^ k = (s : ℚ) + (sticky : ℚ) / 2 := by
    rw [hv, pow_succ]; push_cast; field_simp; ring
  have hstq : (0 : ℚ) ≤ (sticky : ℚ) ∧ (sticky : ℚ) ≤ 1 :=
    ⟨by positivity, by exact_mod_cast hst1⟩
  have hvpos : 0 < v := by rw [hv]; positivity
  -- v squared against x
  have hvsq : x * (1 - f64Eps) ≤ v ^ 2 ∧ v ^ 2 ≤ x * (1 + f64Eps) := by
    have hscale : v ^ 2 * 4 ^ k = ((s : ℚ) + (sticky : ℚ) / 2) ^ 2 := by
      rw [← hvw, h4]; ring
    have h4pos : (0 : ℚ) < 4 ^ k := by positivity
    have hsy : (s : ℚ) * 2 ^ 54 ≤ x * 4 ^ k :=
      le_trans (mul_le_mul_of_nonneg_left hsq hspos.le) hs1
    have hexp : ((s : ℚ) + 1) * ((s : ℚ) + 1) = (s : ℚ) * s + 2 * s + 1 := by ring
    rcases Nat.eq_zero_or_pos sticky with h0 | h1
    · have hex : (s : ℚ) * s = x * 4 ^ k := hst0.mp h0
      have : v ^ 2 * 4 ^ k = x * 4 ^ k := by
        rw [hscale, h0, ← hex]; push_cast; ring
      have hveq : v ^ 2 = x := mul_right_cancel₀ h4pos.ne' this
      rw [hveq]
      have hxe : 0 ≤ x * f64Eps := mul_nonneg hx0.le f64Eps_pos.le
      constructor <;> linarith
    · have hone : sticky = 1 := by omega
      have hsc : v ^ 2 * 4 ^ k = (s : ℚ) * s + s + 1 / 4 := by
        rw [hscale, hone]; push_cast; ring
      have hbound : (s : ℚ) + 1 ≤ x * 4 ^ k * f64Eps := by
        unfold f64Eps
        rw [mul_one_div, le_div_iff₀ (by positivity)]
        have h54 : ((2 : ℚ) ^ 54) = 2 * 2 ^ 53 := by norm_num
        have h53 : (0 : ℚ) < 2 ^ 53 := by positivity
        have hs1' : (1 : ℚ) ≤ s := le_trans (by norm_num) hsq
        have : ((s : ℚ) + 1) * 2 ^ 53 ≤ (s : ℚ) * 2 ^ 54 := by
          rw [h54]
          have : (1 : ℚ) * 2 ^ 53 ≤ (s : ℚ) * 2 ^ 53 := mul_le_mul_of_nonneg_right hs1' h53.le
          linarith
        linarith
      constructor
      · have : x * (1 - f64Eps) * 4 ^ k ≤ v ^ 2 * 4 ^ k := by
          have e : x * (1 - f64Eps) * 4 ^ k = x * 4 ^ k - x * 4 ^ k * f64Eps := by ring
          rw [hsc, e]; linarith
        exact le_of_mul_le_mul_right this h4pos
      · have : v ^ 2 * 4 ^ k ≤ x * (1 + f64Eps) * 4 ^ k := by
          have e : x * (1 + f64Eps) * 4 ^ k = x * 4 ^ k + x * 4 ^ k * f64Eps := by ring
          rw [hsc, e]; linarith
        exact le_of_mul_le_mul_right this h4pos
  -- v is in the normal range
  have hvn : (2 : ℚ) ^ (-1022 : ℤ) ≤ v := by
    have hk3 : (k : ℤ) ≤ 591 := by
      rcases max_cases (0 : ℤ) ((109 - binExp x) / 2) with ⟨h, -⟩ | ⟨h, -⟩ <;> rw [h] at hk2 <;> omega
    have h1 : (s : ℚ) / 2 ^ k ≤ v := by
      rw [div_le_iff₀ hw, hvw]; linarith [hstq.1]
    have h2 : (2 : ℚ) ^ (54 - (k : ℤ)) ≤ (s : ℚ) / 2 ^ k := by
      rw [zpow_sub₀ (by norm_num), zpow_natCast]
      exact div_le_div_of_nonneg_right (by exact_mod_cast hsq) hw.le
    calc (2 : ℚ) ^ (-1022 : ℤ) ≤ (2 : ℚ) ^ (54 - (k : ℤ)) :=
        zpow_le_zpow_right₀ (by norm_num) (by omega)
      _ ≤ _ := h2
      _ ≤ v := h1
  obtain ⟨hr1, hr2⟩ := f64Round_rel v hvpos hvn
  rw [he]
  have hlo : (0 : ℚ) ≤ 1 - f64Eps := by linarith [f64Eps_lt_one]
  have hhi : (0 : ℚ) ≤ 1 + f64Eps := by linarith [f64Eps_pos]
  constructor
  · calc x * (1 - f64Eps) ^ 3 = x * (1 - f64Eps) * (1 - f64Eps) ^ 2 := by ring
      _ ≤ v ^ 2 * (1 - f64Eps) ^ 2 := mul_le_mul_of_nonneg_right hvsq.1 (by positivity)
      _ = (v * (1 - f64Eps)) ^ 2 := by ring
      _ ≤ f64Round v ^ 2 := pow_le_pow_left₀ (mul_nonneg hvpos.le hlo) hr1 2
  · calc f64Round v ^ 2 ≤ (v * (1 + f64Eps)) ^ 2 :=
        pow_le_pow_left₀ (f64Round_nonneg v hvpos.le) hr2 2
      _ = v ^ 2 * (1 + f64Eps) ^ 2 := by ring
      _ ≤ x * (1 + f64Eps) * (1 + f64Eps) ^ 2 := mul_le_mul_of_nonneg_right hvsq.2 (by positivity)
      _ = x * (1 + f64Eps) ^ 3 := by ring

/-! ### Chunker -/

theorem frameLoop_trace (bpf : Int) (cb : Bool) (hpos : 0 < bpf) :
    ∀ (fuel : Nat) (s : LoopState), s.buffer.length ≤ fuel →
      (frameLoop bpf cb fuel s).1 = Status.returned ∧
      (frameLoop bpf cb fuel s).2.buffer.length < bpf.toNat ∧
      (frameLoop bpf cb fuel s).2.buffer.length = s.buffer.length % bpf.toNat ∧
      (frameLoop bpf cb fuel s).2.iterations = s.iterations + s.buffer.length / bpf.toNat ∧
      (cb = true →
        (frameLoop bpf cb fuel s).2.emitted.flatten ++ (frameLoop bpf cb fuel s).2.buffer
          = s.emitted.flatten ++ s.buffer) ∧
      (cb = true →
        (frameLoop bpf cb fuel s).2.emitted.length
          = s.emitted.length + s.buffer.length / bpf.toNat) := by
  obtain ⟨n, rfl⟩ : ∃ n : Nat, bpf = (n : Int) := ⟨bpf.toNat, (Int.toNat_of_nonneg hpos.le).symm⟩
  have hn : 0 < n := by exact_mod_cast hpos
  intro fuel
  induction fuel with
  | zero =>
    intro s hs
    have h0 : s.buffer.length = 0 := Nat.le_zero.mp hs
    have hlt : ¬ ((n : Int) ≤ (s.buffer.length : Int)) := by rw [h0]; push_cast; omega
    simp only [frameLoop, hlt, if_false, Int.toNat_ofNat]
    refine ⟨trivial, by omega, ?_, ?_, fun _ => trivial, fun _ => ?_⟩
    · rw [h0]; simp
    · rw [h0]; simp
    · rw [h0]; simp
  | succ fuel ih =>
    intro s hs
    by_cases hle : (n : Int) ≤ (s.buffer.length : Int)
    · have hle' : n ≤ s.buffer.length := by exact_mod_cast hle
      have hneg : ¬ ((n : Int) < 0) := by omega
      simp only [frameLoop, hle, if_true, hneg, if_false]
      have hlen : (frameStep (n : Int) cb s).buffer.length = s.buffer.length - n := by
        simp [frameStep]
      have hfuel : (frameStep (n : Int) cb s).buffer.length ≤ fuel := by
        rw [hlen]; omega
      obtain ⟨h1, h2, h3, h4, h5, h6⟩ := ih (frameStep (n : Int) cb s) hfuel
      have hdiv : s.buffer.length / n = (s.buffer.length - n) / n + 1 := by
        rw [Nat.div_eq_sub_div hn hle']
      have hmod : s.buffer.length % n = (s.buffer.length - n) % n := by
        rw [Nat.mod_eq_sub_mod hle']
      refine ⟨h1, h2, ?_, ?_, fun hcb => ?_, fun hcb => ?_⟩
      · rw [h3, hlen]; simp only [Int.toNat_ofNat]; exact hmod.symm
      · rw [h4, hlen]; simp only [Int.toNat_ofNat, frameStep]; omega
      · rw [h5 hcb]
        simp [frameStep, hcb, List.append_assoc, List.take_append_drop]
      · rw [h6 hcb, hlen]
        simp only [frameStep, hcb, if_true, List.length_append, List.length_singleton,
          Int.toNat_ofNat]
        omega
    · have hlt : s.buffer.length < n := by
        have : (s.buffer.length : Int) < (n : Int) := lt_of_not_ge hle
        exact_mod_cast this
      simp only [frameLoop, hle, if_false, Int.toNat_ofNat]
      refine ⟨trivial, hlt, ?_, ?_, fun _ => trivial, fun _ => ?_⟩
      · rw [Nat.mod_eq_of_lt hlt]
      · rw [Nat.div_eq_of_lt hlt]; rfl
      · rw [Nat.div_eq_of_lt hlt]; rfl

theorem frameLoop_emitted_length (bpf : Int) (cb : Bool) :
    ∀ (fuel : Nat) (s : LoopState) (f : List Byte), f ∈ (frameLoop bpf cb fuel s).2.emitted →
      f ∈ s.emitted ∨ (f.length : Int) = bpf := by
  intro fuel
  induction fuel with
  | zero =>
    intro s f hf
    left
    unfold frameLoop at hf
    split_ifs at hf <;> exact hf
  | succ fuel ih =>
    intro s f hf
    unfold frameLoop at hf
    split_ifs at hf with h1 h2
    · exact Or.inl hf
    · rcases ih _ f hf with h | h
      · cases cb
        · left; simpa [frameStep] using h
        · simp only [frameStep, if_true, List.mem_append, List.mem_singleton] at h
          rcases h with h | h
          · exact Or.inl h
          · right
            have hb : 0 ≤ bpf := not_lt.mp h2
            have hn : bpf.toNat ≤ s.buffer.length := by
              have : ((bpf.toNat : Nat) : Int) ≤ (s.buffer.length : Int) := by
                rw [Int.toNat_of_nonneg hb]; exact h1
              exact_mod_cast this
            rw [h, List.length_take, Nat.min_eq_left hn, Int.toNat_of_nonneg hb]
      · exact Or.inr h
    · exact Or.inl hf

theorem frameLoop_zero_running (cb : Bool) :
    ∀ (fuel : Nat) (s : LoopState),
      (frameLoop 0 cb fuel s).1 = Status.running ∧
      (frameLoop 0 cb fuel s).2.iterations = s.iterations + fuel ∧
      (frameLoop 0 cb fuel s).2.buffer = s.buffer := by
  intro fuel
  induction fuel with
  | zero =>
    intro s
    have h : (0 : Int) ≤ (s.buffer.length : Int) := Int.natCast_nonneg _
    simp [frameLoop, h]
  | succ fuel ih =>
    intro s
    have h : (0 : Int) ≤ (s.buffer.length : Int) := Int.natCast_nonneg _
    obtain ⟨h1, h2, h3⟩ := ih (frameStep 0 cb s)
    simp only [frameLoop, h, if_true, lt_irrefl, if_false]
    refine ⟨h1, ?_, ?_⟩
    · rw [h2]; simp only [frameStep]; omega
    · rw [h3]; simp [frameStep]

theorem ProcessRTP_returns (c : Chunker) (payload : List Byte) (fuel : Nat)
    (hpos : 0 < c.bytesPerFrame) (hfuel : c.buffer.length + payload.length ≤ fuel) :
    (c.ProcessRTP fuel payload).status = Status.returned ∧
    (c.ProcessRTP fuel payload).chunker.bytesPerFrame = c.bytesPerFrame ∧
    (c.ProcessRTP fuel payload).chunker.onChunk = c.onChunk ∧
    (c.ProcessRTP fuel payload).chunker.buffer.length ≤ c.buffer.length + payload.length ∧
    (c.ProcessRTP fuel payload).iterations
      = (c.buffer.length + payload.length) / c.bytesPerFrame.toNat ∧
    (c.onChunk = true →
      (c.ProcessRTP fuel payload).emitted.flatten ++ (c.ProcessRTP fuel payload).chunker.buffer
        = c.buffer ++ payload) ∧
    (c.onChunk = true →
      (c.ProcessRTP fuel payload).emitted.length
        = (c.buffer.length + payload.length) / c.bytesPerFrame.toNat) := by
  have hs : ({ buffer := c.buffer ++ payload, emitted := [], iterations := 0 } :
      LoopState).buffer.length ≤ fuel := by
    simpa using hfuel
  obtain ⟨h1, h2, h3, h4, h5, h6⟩ := frameLoop_trace c.bytesPerFrame c.onChunk hpos fuel _ hs
  simp only [List.length_append] at h3 h4 h6
  refine ⟨h1, rfl, rfl, ?_, ?_, ?_, ?_⟩
  · show (frameLoop _ _ _ _).2.buffer.length ≤ _
    rw [h3]; exact Nat.mod_le _ _
  · show (frameLoop _ _ _ _).2.iterations = _
    rw [h4]; simp
  · intro hcb
    have := h5 hcb
    simpa [Chunker.ProcessRTP] using this
  · intro hcb
    have := h6 hcb
    simpa [Chunker.ProcessRTP] using this

theorem feed_concat (fuel : Nat) :
    ∀ (payloads : List (List Byte)) (c : Chunker), 0 < c.bytesPerFrame → c.onChunk = true →
      c.buffer.length + payloads.flatten.length ≤ fuel →
      (c.feed fuel payloads).status = Status.returned ∧
      (c.feed fuel payloads).emitted.flatten ++ (c.feed fuel payloads).chunker.buffer
        = c.buffer ++ payloads.flatten := by
  intro payloads
  induction payloads with
  | nil => intro c _ _ _; simp [Chunker.feed]
  | cons p ps ih =>
    intro c hpos hcb hfuel
    simp only [List.flatten_cons, List.length_append] at hfuel
    obtain ⟨h1, h2, h3, h4, -, h6, -⟩ :=
      ProcessRTP_returns c p fuel hpos (by omega)
    obtain ⟨i1, i2⟩ := ih (c.ProcessRTP fuel p).chunker (h2 ▸ hpos) (h3 ▸ hcb) (by omega)
    simp only [Chunker.feed, h1]
    refine ⟨i1, ?_⟩
    rw [List.flatten_append, List.append_assoc, i2, ← List.append_assoc, h6 hcb]
    simp [List.append_assoc]

/-! ### calculateEnergy never panics -/

theorem uint16LE_lt : ∀ (b : List Byte) (u : Nat), uint16LE b = some u → u < 65536 := by
  intro b u h
  match b, h with
  | b0 :: b1 :: _, h =>
    simp only [uint16LE, Option.some.injEq] at h
    have h0 := b0.isLt
    have h1 := b1.isLt
    omega

theorem int16_range (u : Nat) (h : u < 65536) : -32768 ≤ int16 u ∧ int16 u ≤ 32767 := by
  unfold int16
  split_ifs <;> omega

theorem sampleAt_some (pcm : List Byte) (i : Nat) (h : i < pcm.length / 2) :
    ∃ s : Int, sampleAt pcm i = some s ∧ -32768 ≤ s ∧ s ≤ 32767 := by
  have h2 : i * 2 + 2 ≤ pcm.length := by omega
  have hle : i * 2 ≤ pcm.length := by omega
  have hlen : (pcm.drop (i * 2)).length = pcm.length - i * 2 := List.length_drop _ _
  match hd : pcm.drop (i * 2) with
  | [] => rw [hd] at hlen; simp at hlen; omega
  | [_] => rw [hd] at hlen; simp at hlen; omega
  | b0 :: b1 :: t =>
    have hu : uint16LE (b0 :: b1 :: t) = some (b0.val + 256 * b1.val) := rfl
    refine ⟨int16 (b0.val + 256 * b1.val), ?_, int16_range _ (uint16LE_lt _ _ hu)⟩
    simp [sampleAt, sliceFrom, hle, hd, uint16LE]

theorem energy_fold_some (pcm : List Byte) :
    ∀ (idx : List Nat) (sum : ℚ), (∀ i ∈ idx, i < pcm.length / 2) →
      ∃ total : ℚ, idx.foldl (energyStep pcm) (some sum) = some total := by
  intro idx
  induction idx with
  | nil => intro sum _; exact ⟨sum, rfl⟩
  | cons i rest ih =>
    intro sum hi
    obtain ⟨s, hs, -⟩ := sampleAt_some pcm i (hi i (List.mem_cons_self _ _))
    have hstep : energyStep pcm (some sum) i
        = some (f64Add sum (f64Mul (f64Div (f64OfInt s) 32768) (f64Div (f64OfInt s) 32768))) := by
      simp [energyStep, hs]
    rw [List.foldl_cons, hstep]
    exact ih _ fun j hj => hi j (List.mem_cons_of_mem _ hj)

theorem calculateEnergy_some (pcm : List Byte) : ∃ energy : ℚ, calculateEnergy pcm = some energy := by
  unfold calculateEnergy
  split_ifs with h
  · exact ⟨0, rfl⟩
  · obtain ⟨total, ht⟩ := energy_fold_some pcm (List.range (pcm.length / 2)) 0
      (fun i hi => List.mem_range.mp hi)
    exact ⟨f64Sqrt (f64Div total (f64OfInt ((pcm.length / 2 : Nat) : Int))),
      by simp only [ht, Option.map_some']⟩

/-! ### VAD.Process case by case -/

theorem loud_iff (threshold : ℚ) (chunk : List Byte) :
    loud threshold chunk = true ↔ ∃ e, calculateEnergy chunk = some e ∧ threshold < e := by
  unfold loud
  cases h : calculateEnergy chunk <;> simp

theorem quiet_iff (threshold : ℚ) (chunk : List Byte) :
    quiet threshold chunk = true ↔ ∃ e, calculateEnergy chunk = some e ∧ ¬ threshold < e := by
  unfold quiet
  cases h : calculateEnergy chunk <;> simp

theorem quiet_or_loud (threshold : ℚ) (chunk : List Byte) :
    quiet threshold chunk = true ∨ loud threshold chunk = true := by
  obtain ⟨e, he⟩ := calculateEnergy_some chunk
  by_cases h : threshold < e
  · exact Or.inr ((loud_iff _ _).mpr ⟨e, he, h⟩)
  · exact Or.inl ((quiet_iff _ _).mpr ⟨e, he, h⟩)

theorem Process_loud (v : VAD) (now : Int) (chunk : List Byte)
    (h : loud v.threshold chunk = true) :
    v.Process now chunk = some
      (if v.isSpeaking then { vad := v, active := true, events := [] }
       else
        { vad := { v with isSpeaking := true, silenceStart := none }
          active := true
          events := if v.onSpeechStart then [VADEvent.speechStart] else [] }) := by
  obtain ⟨e, he, hlt⟩ := (loud_iff _ _).mp h
  cases hs : v.isSpeaking <;> simp [VAD.Process, he, VAD.classify, hlt, hs]

theorem Process_quiet (v : VAD) (now : Int) (chunk : List Byte)
    (h : quiet v.threshold chunk = true) :
    v.Process now chunk = some
      (if v.isSpeaking then
        match v.silenceStart with
        | none => { vad := { v with silenceStart := some now }, active := false, events := [] }
        | some t =>
          if v.minSilenceDur < timeSince now t then
            { vad := { v with isSpeaking := false }
              active := false
              events := if v.onSpeechEnd then [VADEvent.speechEnd] else [] }
          else { vad := v, active := false, events := [] }
       else { vad := v, active := false, events := [] }) := by
  obtain ⟨e, he, hlt⟩ := (quiet_iff _ _).mp h
  cases hs : v.isSpeaking <;> simp [VAD.Process, he, VAD.classify, hlt, hs]

theorem feed_cons (v : VAD) (p : Int × List Byte) (rest : List (Int × List Byte)) :
    v.feed (p :: rest) = (v.Process p.1 p.2).bind fun r =>
      (VAD.feed r.vad rest).map fun out => (out.1, r.events ++ out.2) := by
  obtain ⟨now, chunk⟩ := p
  rfl

/-- While a silence run is pending and no frame is late enough, quiet frames
change nothing and fire nothing. -/
theorem feed_quiet_pending (v : VAD) (t : Int) (hsp : v.isSpeaking = true)
    (hst : v.silenceStart = some t) :
    ∀ frames : List (Int × List Byte),
      (∀ p ∈ frames, quiet v.threshold p.2 = true ∧ ¬ v.minSilenceDur < timeSince p.1 t) →
      v.feed frames = some (v, []) := by
  intro frames
  induction frames with
  | nil => intro _; rfl
  | cons p rest ih =>
    intro h
    obtain ⟨hq, hw⟩ := h p (List.mem_cons_self _ _)
    have hp := Process_quiet v p.1 p.2 hq
    simp only [hsp, hst, if_true, hw, if_false] at hp
    rw [feed_cons, hp, Option.some_bind, ih fun q hq => h q (List.mem_cons_of_mem _ hq)]
    rfl

theorem feed_append (v : VAD) (xs ys : List (Int × List Byte)) :
    v.feed (xs ++ ys) = (v.feed xs).bind fun r =>
      (VAD.feed r.1 ys).map fun out => (out.1, r.2 ++ out.2) := by
  induction xs generalizing v with
  | nil =>
    simp only [List.nil_append, VAD.feed, Option.some_bind, List.nil_append]
    cases VAD.feed v ys <;> rfl
  | cons p rest ih =>
    rw [List.cons_append, feed_cons, feed_cons]
    cases hp : v.Process p.1 p.2 with
    | none => rfl
    | some r =>
      simp only [Option.some_bind]
      rw [ih]
      cases h1 : VAD.feed r.vad rest with
      | none => rfl
      | some o =>
        simp only [Option.some_bind, Option.map_some']
        cases h2 : VAD.feed o.1 ys with
        | none => rfl
        | some o2 => simp [List.append_assoc]

theorem timeSince_small (t d : Int) (h1 : -2 ^ 63 ≤ d) (h2 : d < 2 ^ 63) :
    timeSince (t + d) t = d := by
  unfold timeSince
  have : t + d - t = d := by ring
  rw [this, min_eq_right (by omega), max_eq_right h1]

theorem timeSince_not_gt (now t m : Int) (hm : -2 ^ 63 ≤ m) (h : now - t < m) :
    ¬ m < timeSince now t := by
  unfold timeSince
  intro hlt
  rcases lt_max_iff.mp hlt with h1 | h1
  · omega
  · have := lt_min_iff.mp h1
    omega

theorem framesEvery_succ (t0 step : Int) (chunk : Nat → List Byte) (n : Nat) :
    framesEvery t0 step chunk (n + 1)
      = framesEvery t0 step chunk n ++ [(t0 + step * (n : Int), chunk n)] := by
  simp [framesEvery, List.range_succ]

theorem framesEvery_cons (t0 step : Int) (chunk : Nat → List Byte) (n : Nat) :
    framesEvery t0 step chunk (n + 1)
      = (t0, chunk 0) :: (List.range n).map
          fun (k : Nat) => (t0 + step * ((k + 1 : Nat) : Int), chunk (k + 1)) := by
  simp [framesEvery, List.range_succ_eq_map, Function.comp_def]

/-- A run of quiet frames at regular clock readings, starting while speaking
with no timer pending: the first frame starts the timer, and as long as no
later frame of the run comes more than `minSilenceDur` after the first one,
nothing else changes and nothing fires. -/
theorem feed_quiet_run (v : VAD) (t0 step : Int) (chunk : Nat → List Byte) (n : Nat)
    (hsp : v.isSpeaking = true) (hst : v.silenceStart = none)
    (hq : ∀ k, k < n + 1 → quiet v.threshold (chunk k) = true)
    (hwait : ∀ k : Nat, 1 ≤ k → k < n + 1 →
      ¬ v.minSilenceDur < timeSince (t0 + step * (k : Int)) t0) :
    v.feed (framesEvery t0 step chunk (n + 1)) = some ({ v with silenceStart := some t0 }, []) := by
  obtain ⟨thr, m, ss, sp, cb1, cb2⟩ := v
  simp only at hsp hst hq hwait
  subst hsp hst
  rw [framesEvery_cons, feed_cons, Process_quiet ⟨thr, m, none, true, cb1, cb2⟩ t0 (chunk 0)
    (hq 0 (Nat.succ_pos n))]
  simp only [if_true, Option.some_bind]
  rw [feed_quiet_pending ⟨thr, m, some t0, true, cb1, cb2⟩ t0 rfl rfl]
  · rfl
  · intro p hp
    obtain ⟨k, hk, rfl⟩ := List.mem_map.mp hp
    have hk' : k < n := List.mem_range.mp hk
    exact ⟨hq (k + 1) (by omega), hwait (k + 1) (by omega) (by omega)⟩

theorem quiet_silentFrame : quiet threshold002 silentFrame = true := by decide!

theorem loud_loudFrame : loud threshold002 loudFrame = true := by decide!

/-! ### calculateEnergy against the list of samples -/

theorem samplesLE_length : ∀ (n : Nat) (pcm : List Byte), pcm.length = n →
    (specSamples pcm).length = n / 2 := by
  intro n
  induction n using Nat.strong_induction_on with
  | _ n ih =>
    intro pcm hlen
    match pcm, hlen with
    | [], h => simp at h; subst h; rfl
    | [_], h => simp at h; subst h; rfl
    | b0 :: b1 :: rest, h =>
      simp only [List.length_cons] at h
      have := ih rest.length (by omega) rest rfl
      simp only [specSamples, List.length_cons, this]
      omega

theorem samplesLE_range_aux : ∀ (n : Nat) (pcm : List Byte), pcm.length = n →
    ∀ s ∈ specSamples pcm, -32768 ≤ s ∧ s ≤ 32767 := by
  intro n
  induction n using Nat.strong_induction_on with
  | _ n ih =>
    intro pcm hlen
    match pcm, hlen with
    | [], _ => intro s hs; simp [specSamples] at hs
    | [_], _ => intro s hs; simp [specSamples] at hs
    | b0 :: b1 :: rest, h =>
      intro s hs
      simp only [specSamples, List.mem_cons] at hs
      rcases hs with rfl | hs
      · have h0 := b0.isLt
        have h1 := b1.isLt
        exact int16_range _ (by omega)
      · simp only [List.length_cons] at h
        exact ih rest.length (by omega) rest rfl s hs

theorem samplesLE_range (pcm : List Byte) :
    ∀ s ∈ specSamples pcm, -32768 ≤ s ∧ s ≤ 32767 :=
  samplesLE_range_aux pcm.length pcm rfl

theorem sampleAt_cons_succ (b0 b1 : Byte) (rest : List Byte) (i : Nat) :
    sampleAt (b0 :: b1 :: rest) (i + 1) = sampleAt rest i := by
  have e : (i + 1) * 2 = i * 2 + 2 := by ring
  simp only [sampleAt, sliceFrom, e, List.length_cons, List.drop_succ_cons]
  by_cases h : i * 2 ≤ rest.length
  · have h' : i * 2 + 2 ≤ rest.length + 1 + 1 := by omega
    simp [h, h']
  · have h' : ¬ i * 2 + 2 ≤ rest.length + 1 + 1 := by omega
    simp [h, h']

theorem sampleAt_cons_zero (b0 b1 : Byte) (rest : List Byte) :
    sampleAt (b0 :: b1 :: rest) 0 = some (int16 (b0.val + 256 * b1.val)) := by
  simp [sampleAt, sliceFrom, uint16LE]

theorem energyStep_cons_succ (b0 b1 : Byte) (rest : List Byte) (acc : Option ℚ) (i : Nat) :
    energyStep (b0 :: b1 :: rest) acc (i + 1) = energyStep rest acc i := by
  simp only [energyStep, sampleAt_cons_succ]

/-- The index loop of `calculateEnergy` is a fold of the loop body over the
samples of the slice. -/
theorem energy_fold_eq : ∀ (n : Nat) (pcm : List Byte) (sum : ℚ), pcm.length = n →
    (List.range (pcm.length / 2)).foldl (energyStep pcm) (some sum)
      = some ((specSamples pcm).foldl sumStep sum) := by
  intro n
  induction n using Nat.strong_induction_on with
  | _ n ih =>
    intro pcm sum hlen
    match pcm, hlen with
    | [], _ => rfl
    | [_], _ => simp [specSamples]
    | b0 :: b1 :: rest, h =>
      simp only [List.length_cons] at h
      have hdiv : (rest.length + 1 + 1) / 2 = rest.length / 2 + 1 := by omega
      simp only [List.length_cons, hdiv, List.range_succ_eq_map, List.foldl_cons,
        List.foldl_map, energyStep_cons_succ]
      have h0 : energyStep (b0 :: b1 :: rest) (some sum) 0
          = some (sumStep sum (int16 (b0.val + 256 * b1.val))) := by
        simp [energyStep, sampleAt_cons_zero, sumStep]
      rw [h0, ih rest.length (by omega) rest _ rfl]
      rfl

theorem calculateEnergy_eq (pcm : List Byte) (h : 2 ≤ pcm.length) :
    calculateEnergy pcm = some (f64Sqrt (f64Div ((specSamples pcm).foldl sumStep 0)
      (f64OfInt ((pcm.length / 2 : Nat) : Int)))) := by
  unfold calculateEnergy
  rw [if_neg (by omega)]
  simp only [energy_fold_eq pcm.length pcm 0 rfl, Option.map_some']

/-! ### calculateEnergy: the accumulated sum -/

theorem sqTerm_bounds (s : Int) (h1 : -32768 ≤ s) (h2 : s ≤ 32767) :
    0 ≤ sqTerm s ∧ sqTerm s ≤ 1 ∧ (sqTerm s = 0 ∨ (1 : ℚ) / 2 ^ 30 ≤ sqTerm s) := by
  have e : sqTerm s = ((s * s : Int) : ℚ) / 2 ^ 30 := by
    unfold sqTerm; push_cast; ring
  have hss : 0 ≤ s * s := mul_self_nonneg s
  have hle : s * s ≤ 2 ^ 30 := by nlinarith
  have hssq : (0 : ℚ) ≤ ((s * s : Int) : ℚ) := by exact_mod_cast hss
  have hleq : ((s * s : Int) : ℚ) ≤ 2 ^ 30 := by exact_mod_cast hle
  rw [e]
  refine ⟨by positivity, by rw [div_le_one (by positivity)]; exact hleq, ?_⟩
  by_cases h0 : s = 0
  · left; subst h0; simp
  · right
    have : 1 ≤ s * s := by
      have := mul_self_pos.mpr h0
      omega
    have : (1 : ℚ) ≤ ((s * s : Int) : ℚ) := by exact_mod_cast this
    exact div_le_div_of_nonneg_right this (by positivity)

theorem sumStep_eq (sum : ℚ) (s : Int) (h1 : -32768 ≤ s) (h2 : s ≤ 32767) :
    sumStep sum s = f64Round (sum + sqTerm s) := by
  have habs : |(s : ℚ)| < (2 : ℚ) ^ (53 : ℤ) := by
    have : |s| ≤ 32768 := abs_le.mpr ⟨h1, by omega⟩
    have : |(s : ℚ)| ≤ 32768 := by exact_mod_cast this
    refine lt_of_le_of_lt this (by norm_num)
  have e1 : f64OfInt s = (s : ℚ) := f64Round_int s habs
  have e2 : f64Div (s : ℚ) 32768 = (s : ℚ) / 32768 := by
    have := f64Round_exact s (-15) habs (by norm_num)
    have e : (s : ℚ) * (2 : ℚ) ^ (-15 : ℤ) = (s : ℚ) / 32768 := by
      rw [zpow_neg, div_eq_mul_inv]; norm_num
    rw [e] at this
    exact this
  have e3 : f64Mul ((s : ℚ) / 32768) ((s : ℚ) / 32768) = sqTerm s := by
    have hss : |((s * s : Int) : ℚ)| < (2 : ℚ) ^ (53 : ℤ) := by
      have h0 : 0 ≤ s * s := mul_self_nonneg s
      have hle : s * s ≤ 2 ^ 30 := by nlinarith
      have : |s * s| ≤ 2 ^ 30 := by rw [abs_of_nonneg h0]; exact hle
      have : |((s * s : Int) : ℚ)| ≤ 2 ^ 30 := by exact_mod_cast this
      refine lt_of_le_of_lt this (by norm_num)
    have := f64Round_exact (s * s) (-30) hss (by norm_num)
    have e : ((s * s : Int) : ℚ) * (2 : ℚ) ^ (-30 : ℤ) = (s : ℚ) / 32768 * ((s : ℚ) / 32768) := by
      rw [zpow_neg]; push_cast; field_simp; norm_num
    rw [e] at this
    unfold f64Mul sqTerm
    rw [this]; ring
  unfold sumStep
  rw [e1, e2, e3]
  rfl

theorem f64Round_two_pow_53 : f64Round ((2 : ℚ) ^ (53 : ℕ)) = (2 : ℚ) ^ (53 : ℕ) := by
  have := f64Round_exact 1 53 (by norm_num) (by norm_num)
  have e : ((1 : Int) : ℚ) * (2 : ℚ) ^ (53 : ℤ) = (2 : ℚ) ^ (53 : ℕ) := by norm_num
  rwa [e] at this

theorem f64Round_nat (n : Nat) (h : n ≤ 2 ^ 53) : f64Round (n : ℚ) = (n : ℚ) := by
  rcases lt_or_eq_of_le h with hlt | heq
  · have : |((n : Int) : ℚ)| < (2 : ℚ) ^ (53 : ℤ) := by
      rw [abs_of_nonneg (by positivity)]
      have : ((n : Int) : ℚ) < ((2 ^ 53 : ℕ) : ℚ) := by exact_mod_cast hlt
      refine lt_of_lt_of_le this (by norm_num)
    have := f64Round_int (n : Int) this
    simpa using this
  · rw [heq]
    have := f64Round_two_pow_53
    simpa using this

theorem f64Round_two_pow_53_succ : f64Round ((2 : ℚ) ^ (53 : ℕ) + 1) = (2 : ℚ) ^ (53 : ℕ) := by
  decide!

theorem f64Round_inv_two_pow_30 : f64Round ((1 : ℚ) / 2 ^ 30) = (1 : ℚ) / 2 ^ 30 := by
  have := f64Round_exact 1 (-30) (by norm_num) (by norm_num)
  have e : ((1 : Int) : ℚ) * (2 : ℚ) ^ (-30 : ℤ) = (1 : ℚ) / 2 ^ 30 := by
    rw [zpow_neg]; norm_num
  rwa [e] at this

/-- Rounding a non-negative value that is zero or in the normal range. -/
theorem f64Round_rel_nonneg (q : ℚ) (h : q = 0 ∨ (2 : ℚ) ^ (-1022 : ℤ) ≤ q) :
    q * (1 - f64Eps) ≤ f64Round q ∧ f64Round q ≤ q * (1 + f64Eps) := by
  rcases h with h | h
  · subst h; simp [f64Round_zero]
  · exact f64Round_rel q (lt_of_lt_of_le (zpow_pos (by norm_num) _) h) h

theorem SumInv_zero : SumInv 0 0 0 :=
  ⟨le_rfl, by simp, Or.inl rfl, le_rfl, by simp, by simp⟩

theorem two_pow_neg_1022_le : (2 : ℚ) ^ (-1022 : ℤ) ≤ (1 : ℚ) / 2 ^ 30 := by
  have e : (1 : ℚ) / 2 ^ 30 = (2 : ℚ) ^ (-30 : ℤ) := by rw [zpow_neg]; norm_num
  rw [e]
  exact zpow_le_zpow_right₀ (by norm_num) (by norm_num)

theorem SumInv_step (k : Nat) (T S t : ℚ) (inv : SumInv k T S)
    (ht0 : 0 ≤ t) (ht1 : t ≤ 1) (htb : t = 0 ∨ (1 : ℚ) / 2 ^ 30 ≤ t) :
    SumInv (k + 1) (T + t) (f64Round (S + t)) := by
  obtain ⟨hS0, hSk, hSb, hT0, hlo, hhi⟩ := inv
  have hq0 : 0 ≤ S + t := add_nonneg hS0 ht0
  have hqb : S + t = 0 ∨ (1 : ℚ) / 2 ^ 30 ≤ S + t := by
    rcases hSb with h | h
    · rcases htb with h' | h'
      · left; rw [h, h']; ring
      · right; linarith
    · right; linarith
  have hrel := f64Round_rel_nonneg (S + t)
    (hqb.imp id fun h => le_trans two_pow_neg_1022_le h)
  have he0 : (0 : ℚ) ≤ 1 - f64Eps := by linarith [f64Eps_lt_one]
  have he1 : (1 : ℚ) - f64Eps ≤ 1 := by linarith [f64Eps_pos]
  have hE1 : (1 : ℚ) ≤ 1 + f64Eps := by linarith [f64Eps_pos]
  refine ⟨f64Round_nonneg _ hq0, ?_, ?_, add_nonneg hT0 ht0, ?_, ?_⟩
  · -- at most the number of samples, and at most 2 ^ 53
    rcases le_or_lt (2 ^ 53) k with hk | hk
    · have hk' : ((2 : ℚ) ^ 53) ≤ (k : ℚ) := by exact_mod_cast hk
      have hS : S ≤ 2 ^ 53 := le_trans hSk (min_le_right _ _)
      have : f64Round (S + t) ≤ (2 : ℚ) ^ (53 : ℕ) := by
        rw [← f64Round_two_pow_53_succ]
        exact f64Round_mono _ _ hq0 (by linarith)
      refine le_min ?_ this
      push_cast
      linarith
    · have hS : S ≤ k := le_trans hSk (min_le_left _ _)
      have hk1 : k + 1 ≤ 2 ^ 53 := hk
      have : f64Round (S + t) ≤ ((k + 1 : ℕ) : ℚ) := by
        rw [← f64Round_nat (k + 1) hk1]
        exact f64Round_mono _ _ hq0 (by push_cast; linarith)
      refine le_min this ?_
      refine le_trans this ?_
      exact_mod_cast hk1
  · rcases hqb with h | h
    · left; rw [h, f64Round_zero]
    · right
      rw [← f64Round_inv_two_pow_30]
      exact f64Round_mono _ _ (by positivity) h
  · have hp : (1 - f64Eps) ^ k ≤ 1 := pow_le_one₀ he0 he1
    have hp0 : 0 ≤ (1 - f64Eps) ^ k := pow_nonneg he0 k
    calc (T + t) * (1 - f64Eps) ^ (k + 1)
        = (T * (1 - f64Eps) ^ k + t * (1 - f64Eps) ^ k) * (1 - f64Eps) := by ring
      _ ≤ (S + t) * (1 - f64Eps) := by
        refine mul_le_mul_of_nonneg_right ?_ he0
        have : t * (1 - f64Eps) ^ k ≤ t * 1 := mul_le_mul_of_nonneg_left hp ht0
        linarith
      _ ≤ f64Round (S + t) := hrel.1
  · have hp : 1 ≤ (1 + f64Eps) ^ k := one_le_pow₀ hE1
    calc f64Round (S + t) ≤ (S + t) * (1 + f64Eps) := hrel.2
      _ ≤ (T * (1 + f64Eps) ^ k + t * (1 + f64Eps) ^ k) * (1 + f64Eps) := by
        refine mul_le_mul_of_nonneg_right ?_ (by linarith)
        have : t * 1 ≤ t * (1 + f64Eps) ^ k := mul_le_mul_of_nonneg_left hp ht0
        linarith
      _ = (T + t) * (1 + f64Eps) ^ (k + 1) := by ring

theorem SumInv_fold : ∀ (l : List Int) (k : Nat) (T S : ℚ), SumInv k T S →
    (∀ s ∈ l, -32768 ≤ s ∧ s ≤ 32767) →
    SumInv (k + l.length) (T + (l.map sqTerm).sum) (l.foldl sumStep S) := by
  intro l
  induction l with
  | nil => intro k T S inv _; simpa using inv
  | cons s rest ih =>
    intro k T S inv hr
    obtain ⟨h1, h2⟩ := hr s (List.mem_cons_self _ _)
    obtain ⟨b0, b1, b2⟩ := sqTerm_bounds s h1 h2
    have step := SumInv_step k T S (sqTerm s) inv b0 b1 b2
    have := ih (k + 1) (T + sqTerm s) (f64Round (S + sqTerm s)) step
      (fun x hx => hr x (List.mem_cons_of_mem _ hx))
    rw [List.foldl_cons, sumStep_eq S s h1 h2, List.map_cons, List.sum_cons, List.length_cons]
    have e1 : k + (rest.length + 1) = k + 1 + rest.length := by ring
    have e2 : T + (sqTerm s + (rest.map sqTerm).sum) = T + sqTerm s + (rest.map sqTerm).sum := by
      ring
    rw [e1, e2]
    exact this

/-! ### calculateEnergy: the result -/

theorem f64Eps_facts :
    (0 : ℚ) < 1 - f64Eps ∧ (1 : ℚ) - f64Eps ≤ 1 ∧ (1 : ℚ) ≤ 1 + f64Eps ∧
    (1 - f64Eps) * (1 + f64Eps) ≤ 1 ∧ 1 ≤ (1 - f64Eps) * (1 + f64Eps) ^ 2 ∧
    (1 : ℚ) / 2 ≤ 1 - f64Eps := by
  unfold f64Eps
  norm_num

theorem energy_of_samples (l : List Int) (hl : ∀ s ∈ l, -32768 ≤ s ∧ s ≤ 32767)
    (hn : 1 ≤ l.length) :
    0 ≤ f64Sqrt (f64Div (l.foldl sumStep 0) (f64OfInt (l.length : Int))) ∧
    f64Sqrt (f64Div (l.foldl sumStep 0) (f64OfInt (l.length : Int))) ≤ 1 ∧
    (l.length < 2 ^ 63 →
      specMeanSquare l * (1 - f64Eps) ^ (l.length + 6)
        ≤ f64Sqrt (f64Div (l.foldl sumStep 0) (f64OfInt (l.length : Int))) ^ 2 ∧
      f64Sqrt (f64Div (l.foldl sumStep 0) (f64OfInt (l.length : Int))) ^ 2
        ≤ specMeanSquare l * (1 + f64Eps) ^ (l.length + 6)) := by
  obtain ⟨ha0, ha1, hb1, hab, hab2, hahalf⟩ := f64Eps_facts
  have inv := SumInv_fold l 0 0 0 SumInv_zero hl
  simp only [zero_add] at inv
  obtain ⟨hS0, hSk, hSb, hT0, hlo, hhi⟩ := inv
  set S := l.foldl sumStep 0 with hSdef
  set T := (l.map sqTerm).sum with hTdef
  set n : ℚ := (l.length : ℚ) with hndef
  have hn1 : (1 : ℚ) ≤ n := by rw [hndef]; exact_mod_cast hn
  have hn0 : (0 : ℚ) < n := lt_of_lt_of_le one_pos hn1
  have hD : f64OfInt (l.length : Int) = f64Round n := by
    unfold f64OfInt; rw [hndef]; norm_cast
  rw [hD]
  set D := f64Round n with hDdef
  have hD1 : 1 ≤ D := by
    rw [← f64Round_one]; exact f64Round_mono _ _ zero_le_one hn1
  have hD0 : 0 < D := lt_of_lt_of_le one_pos hD1
  have hnn : (2 : ℚ) ^ (-1022 : ℤ) ≤ n :=
    le_trans (zpow_le_one_of_nonpos₀ (by norm_num) (by norm_num)) hn1
  obtain ⟨hDlo, hDhi⟩ := f64Round_rel n hn0 hnn
  have hSD : S ≤ D := by
    rcases le_or_lt l.length (2 ^ 53) with h | h
    · have : D = n := by rw [hDdef, hndef]; exact f64Round_nat _ h
      rw [this]; exact le_trans hSk (min_le_left _ _)
    · have h53 : ((2 : ℚ) ^ (53 : ℕ)) ≤ n := by
        rw [hndef]; exact_mod_cast h.le
      have : (2 : ℚ) ^ (53 : ℕ) ≤ D := by
        rw [← f64Round_two_pow_53]
        exact f64Round_mono _ _ (by positivity) h53
      exact le_trans (le_trans hSk (min_le_right _ _)) this
  have hq0 : 0 ≤ S / D := div_nonneg hS0 hD0.le
  have hq1 : S / D ≤ 1 := (div_le_one hD0).mpr hSD
  have hm0 : 0 ≤ f64Div S D := f64Round_nonneg _ hq0
  have hm1 : f64Div S D ≤ 1 := by
    unfold f64Div; rw [← f64Round_one]; exact f64Round_mono _ _ hq0 hq1
  refine ⟨f64Sqrt_nonneg _, f64Sqrt_le_one _ hm1, fun hlen => ?_⟩
  have hmean : specMeanSquare l = T / n := rfl
  rw [hmean]
  have hMean0 : 0 ≤ T / n := div_nonneg hT0 hn0.le
  rcases hSb with hz | hbig
  · -- all samples are zero
    have hT : T = 0 := by
      have hp : 0 < (1 - f64Eps) ^ l.length := pow_pos ha0 _
      have : T * (1 - f64Eps) ^ l.length ≤ 0 := by rw [← hz]; exact hlo
      have : T ≤ 0 := by
        by_contra hc
        have := mul_pos (lt_of_not_ge hc) hp
        linarith
      exact le_antisymm this hT0
    have he : f64Sqrt (f64Div S D) = 0 := by
      unfold f64Div; rw [hz, zero_div, f64Round_zero, f64Sqrt_zero]
    rw [he, hT]; simp
  · -- the mean is in the normal range
    have hn63 : n ≤ 2 ^ 63 := by
      rw [hndef]; exact_mod_cast hlen.le
    have hD64 : D ≤ 2 ^ 64 := by
      have : n * (1 + f64Eps) ≤ 2 ^ 63 * 2 := by
        have h2 : 1 + f64Eps ≤ 2 := by linarith [f64Eps_lt_one]
        exact mul_le_mul hn63 h2 (by linarith) (by positivity)
      linarith
    have hS0' : 0 < S := lt_of_lt_of_le (by positivity) hbig
    have hq94 : (1 : ℚ) / 2 ^ 94 ≤ S / D := by
      rw [div_le_div_iff₀ (by positivity) hD0]
      have : (1 : ℚ) * D ≤ 1 * 2 ^ 64 := by linarith
      calc (1 : ℚ) * D ≤ 2 ^ 64 := by linarith
        _ = (1 : ℚ) / 2 ^ 30 * 2 ^ 94 := by norm_num
        _ ≤ S * 2 ^ 94 := mul_le_mul_of_nonneg_right hbig (by positivity)
    have hqpos : 0 < S / D := div_pos hS0' hD0
    have hqn : (2 : ℚ) ^ (-1022 : ℤ) ≤ S / D := by
      refine le_trans ?_ hq94
      have e : (1 : ℚ) / 2 ^ 94 = (2 : ℚ) ^ (-94 : ℤ) := by rw [zpow_neg]; norm_num
      rw [e]; exact zpow_le_zpow_right₀ (by norm_num) (by norm_num)
    obtain ⟨hmlo, hmhi⟩ := f64Round_rel (S / D) hqpos hqn
    have hm : (2 : ℚ) ^ (-1074 : ℤ) ≤ f64Div S D := by
      have h1 : (1 : ℚ) / 2 ^ 94 * (1 / 2) ≤ S / D * (1 - f64Eps) :=
        mul_le_mul hq94 hahalf (by norm_num) hqpos.le
      have e : (1 : ℚ) / 2 ^ 94 * (1 / 2) = (2 : ℚ) ^ (-95 : ℤ) := by
        rw [zpow_neg]; norm_num
      rw [e] at h1
      calc (2 : ℚ) ^ (-1074 : ℤ) ≤ (2 : ℚ) ^ (-95 : ℤ) :=
          zpow_le_zpow_right₀ (by norm_num) (by norm_num)
        _ ≤ S / D * (1 - f64Eps) := h1
        _ ≤ f64Div S D := hmlo
    obtain ⟨hslo, hshi⟩ := f64Sqrt_sq (f64Div S D) hm
    -- the division by the rounded count
    have hdiv_hi : S / D ≤ S * (1 + f64Eps) ^ 2 / n := by
      rw [div_le_div_iff₀ hD0 hn0]
      have h1 : n ≤ (1 + f64Eps) ^ 2 * D := by
        calc n = n * 1 := (mul_one n).symm
          _ ≤ n * ((1 - f64Eps) * (1 + f64Eps) ^ 2) := mul_le_mul_of_nonneg_left hab2 hn0.le
          _ = (1 + f64Eps) ^ 2 * (n * (1 - f64Eps)) := by ring
          _ ≤ (1 + f64Eps) ^ 2 * D := mul_le_mul_of_nonneg_left hDlo (by positivity)
      calc S * n ≤ S * ((1 + f64Eps) ^ 2 * D) := mul_le_mul_of_nonneg_left h1 hS0
        _ = S * (1 + f64Eps) ^ 2 * D := by ring
    have hdiv_lo : S * (1 - f64Eps) / n ≤ S / D := by
      rw [div_le_div_iff₀ hn0 hD0]
      have h1 : (1 - f64Eps) * D ≤ n := by
        calc (1 - f64Eps) * D ≤ (1 - f64Eps) * (n * (1 + f64Eps)) :=
            mul_le_mul_of_nonneg_left hDhi ha0.le
          _ = n * ((1 - f64Eps) * (1 + f64Eps)) := by ring
          _ ≤ n * 1 := mul_le_mul_of_nonneg_left hab hn0.le
          _ = n := mul_one n
      calc S * (1 - f64Eps) * D = S * ((1 - f64Eps) * D) := by ring
        _ ≤ S * n := mul_le_mul_of_nonneg_left h1 hS0
    have hb0 : (0 : ℚ) ≤ 1 + f64Eps := by linarith
    constructor
    · calc T / n * (1 - f64Eps) ^ (l.length + 6)
          = T / n * (1 - f64Eps) ^ (l.length + 5) * (1 - f64Eps) := by ring
        _ ≤ T / n * (1 - f64Eps) ^ (l.length + 5) * 1 :=
          mul_le_mul_of_nonneg_left ha1 (mul_nonneg hMean0 (pow_nonneg ha0.le _))
        _ = T * (1 - f64Eps) ^ l.length * (1 - f64Eps) / n * (1 - f64Eps) ^ 4 := by ring
        _ ≤ S * (1 - f64Eps) / n * (1 - f64Eps) ^ 4 := by
          refine mul_le_mul_of_nonneg_right ?_ (pow_nonneg ha0.le _)
          refine div_le_div_of_nonneg_right ?_ hn0.le
          exact mul_le_mul_of_nonneg_right hlo ha0.le
        _ ≤ S / D * (1 - f64Eps) ^ 4 :=
          mul_le_mul_of_nonneg_right hdiv_lo (pow_nonneg ha0.le _)
        _ = S / D * (1 - f64Eps) * (1 - f64Eps) ^ 3 := by ring
        _ ≤ f64Div S D * (1 - f64Eps) ^ 3 :=
          mul_le_mul_of_nonneg_right hmlo (pow_nonneg ha0.le _)
        _ ≤ _ := hslo
    · calc f64Sqrt (f64Div S D) ^ 2 ≤ f64Div S D * (1 + f64Eps) ^ 3 := hshi
        _ ≤ S / D * (1 + f64Eps) * (1 + f64Eps) ^ 3 :=
          mul_le_mul_of_nonneg_right hmhi (pow_nonneg hb0 _)
        _ = S / D * (1 + f64Eps) ^ 4 := by ring
        _ ≤ S * (1 + f64Eps) ^ 2 / n * (1 + f64Eps) ^ 4 :=
          mul_le_mul_of_nonneg_right hdiv_hi (pow_nonneg hb0 _)
        _ ≤ T * (1 + f64Eps) ^ l.length * (1 + f64Eps) ^ 2 / n * (1 + f64Eps) ^ 4 := by
          refine mul_le_mul_of_nonneg_right ?_ (pow_nonneg hb0 _)
          refine div_le_div_of_nonneg_right ?_ hn0.le
          exact mul_le_mul_of_nonneg_right hhi (pow_nonneg hb0 _)
        _ = T / n * (1 + f64Eps) ^ (l.length + 6) := by ring

/-! ### NewChunker -/

theorem f64Trunc_bounds (x : ℚ) :
    (0 ≤ x → (f64Trunc x : ℚ) ≤ x ∧ x < (f64Trunc x : ℚ) + 1) ∧
    (x < 0 → (f64Trunc x : ℚ) - 1 < x ∧ x ≤ (f64Trunc x : ℚ)) := by
  unfold f64Trunc
  by_cases h0 : 0 ≤ x
  · simp only [h0, if_true]
    exact ⟨fun _ => ⟨Int.floor_le x, Int.lt_floor_add_one x⟩,
      fun hneg => absurd h0 (not_le.mpr hneg)⟩
  · simp only [h0, if_false]
    exact ⟨fun hpos => hpos.elim,
      fun _ => ⟨by linarith [Int.ceil_lt_add_one x], Int.le_ceil x⟩⟩

theorem f64ToInt_in_range (indefinite : Int) (x : ℚ)
    (h : -2 ^ 63 ≤ f64Trunc x ∧ f64Trunc x < 2 ^ 63) : f64ToInt indefinite x = f64Trunc x := by
  unfold f64ToInt
  rw [if_pos h]

theorem f64ToInt_out_of_range (indefinite : Int) (x : ℚ)
    (h : ¬ (-2 ^ 63 ≤ f64Trunc x ∧ f64Trunc x < 2 ^ 63)) :
    f64ToInt indefinite x = wrapInt64 indefinite := by
  unfold f64ToInt
  rw [if_neg h]

theorem NewChunker_some (indefinite sampleRate frameDuration : Int) (onChunk : Bool)
    (c : Chunker) (h : NewChunker indefinite sampleRate frameDuration onChunk = some c) :
    c.samplesPerFrame
      = f64ToInt indefinite (f64Mul (f64OfInt sampleRate) (durationSeconds frameDuration)) ∧
    0 ≤ c.bytesPerFrame ∧ c.buffer = [] ∧ c.onChunk = onChunk ∧
    c.sampleRate = sampleRate ∧ c.frameDuration = frameDuration := by
  unfold NewChunker at h
  simp only at h
  split_ifs at h with hneg
  obtain rfl := Option.some.inj h
  exact ⟨rfl, not_lt.mp hneg, rfl, rfl, rfl, rfl⟩

/-- Where the product is in the range of `int`, the chunker built does not
depend on what the implementation does with out-of-range conversions. -/
theorem NewChunker_in_range (i j sampleRate frameDuration : Int) (onChunk : Bool)
    (h : -2 ^ 63 ≤ f64Trunc (f64Mul (f64OfInt sampleRate) (durationSeconds frameDuration)) ∧
      f64Trunc (f64Mul (f64OfInt sampleRate) (durationSeconds frameDuration)) < 2 ^ 63) :
    NewChunker i sampleRate frameDuration onChunk
      = NewChunker j sampleRate frameDuration onChunk := by
  unfold NewChunker
  rw [f64ToInt_in_range i _ h, f64ToInt_in_range j _ h]

theorem frameLoop_below (bpf : Int) (cb : Bool) (fuel : Nat) (s : LoopState)
    (h : (s.buffer.length : Int) < bpf) : frameLoop bpf cb fuel s = (Status.returned, s) := by
  cases fuel <;> simp [frameLoop, not_le.mpr h]

theorem frameLoop_no_callback (bpf : Int) :
    ∀ (fuel : Nat) (s : LoopState), (frameLoop bpf false fuel s).2.emitted = s.emitted := by
  intro fuel
  induction fuel with
  | zero => intro s; unfold frameLoop; split_ifs <;> rfl
  | succ fuel ih =>
    intro s
    unfold frameLoop
    split_ifs
    · rfl
    · rw [ih]; simp [frameStep]
    · rfl

theorem feed_invariant (fuel : Nat) :
    ∀ (payloads : List (List Byte)) (c : Chunker), 0 < c.bytesPerFrame →
      c.buffer.length + payloads.flatten.length ≤ fuel →
      (c.feed fuel payloads).status = Status.returned ∧
      ((c.feed fuel payloads).chunker.buffer.length : Int) < c.bytesPerFrame ∨
      payloads = [] := by
  intro payloads
  induction payloads with
  | nil => intro c _ _; right; rfl
  | cons p ps ih =>
    intro c hpos hfuel
    left
    simp only [List.flatten_cons, List.length_append] at hfuel
    obtain ⟨h1, h2, -, h4, -, -, -⟩ := ProcessRTP_returns c p fuel hpos (by omega)
    have hlt : ((c.ProcessRTP fuel p).chunker.buffer.length : Int) < c.bytesPerFrame := by
      have hs : ({ buffer := c.buffer ++ p, emitted := [], iterations := 0 } :
          LoopState).buffer.length ≤ fuel := by simp; omega
      have := (frameLoop_trace c.bytesPerFrame c.onChunk hpos fuel _ hs).2.1
      have hcast : ((c.bytesPerFrame.toNat : Nat) : Int) = c.bytesPerFrame :=
        Int.toNat_of_nonneg hpos.le
      rw [← hcast]
      exact_mod_cast this
    simp only [Chunker.feed, h1]
    rcases ih (c.ProcessRTP fuel p).chunker (h2 ▸ hpos) (by omega) with h | h
    · exact ⟨h.1, h2 ▸ h.2⟩
    · subst h
      simp only [Chunker.feed]
      exact ⟨trivial, hlt⟩

/-! ### Sessions -/

theorem lookup_filter_self (id : String) (l : List (String × SessionPtr)) :
    (l.filter fun e => e.1 != id).lookup id = none := by
  induction l with
  | nil => rfl
  | cons e rest ih =>
    obtain ⟨k, p⟩ := e
    by_cases h : k = id
    · have hb : (k != id) = false := by simp [h]
      rw [List.filter_cons_of_neg (by simp [hb])]
      exact ih
    · have hb : (k != id) = true := by simp [h]
      have hne : (id == k) = false := by simpa using fun h' => h h'.symm
      rw [List.filter_cons_of_pos (by simp [hb]), List.lookup, hne]
      exact ih

theorem lookup_filter_other (id id' : String) (h : id' ≠ id) (l : List (String × SessionPtr)) :
    (l.filter fun e => e.1 != id).lookup id' = l.lookup id' := by
  induction l with
  | nil => rfl
  | cons e rest ih =>
    obtain ⟨k, p⟩ := e
    by_cases hk : k = id
    · have hb : (k != id) = false := by simp [hk]
      have hne : (id' == k) = false := by rw [hk]; simpa using h
      rw [List.filter_cons_of_neg (by simp [hb]), ih, List.lookup, hne]
    · have hb : (k != id) = true := by simp [hk]
      rw [List.filter_cons_of_pos (by simp [hb])]
      cases hq : id' == k
      · rw [List.lookup, hq, List.lookup, hq]; exact ih
      · rw [List.lookup, hq, List.lookup, hq]

theorem filter_of_lookup_none (id : String) (l : List (String × SessionPtr))
    (h : l.lookup id = none) : (l.filter fun e => e.1 != id) = l := by
  induction l with
  | nil => rfl
  | cons e rest ih =>
    obtain ⟨k, p⟩ := e
    cases hq : id == k
    · rw [List.lookup, hq] at h
      have hk : ¬ k = id := by
        intro h'
        rw [h'] at hq
        simp at hq
      have hb : (k != id) = true := by simp [hk]
      rw [List.filter_cons_of_pos (by simp [hb]), ih h]
    · rw [List.lookup, hq] at h
      exact Option.noConfusion h

theorem Get_Delete_self (m : Manager) (id : String) :
    (m.Delete id).Get id = (none, false) := by
  simp [Manager.Get, Manager.Delete, lookup_filter_self]

theorem Get_Delete_other (m : Manager) (id id' : String) (h : id' ≠ id) :
    (m.Delete id).Get id' = m.Get id' := by
  simp [Manager.Get, Manager.Delete, lookup_filter_other id id' h]

theorem Delete_Delete (m : Manager) (id : String) : (m.Delete id).Delete id = m.Delete id := by
  simp [Manager.Delete, List.filter_filter]

theorem Get_none_iff (m : Manager) (id : String) :
    m.Get id = (none, false) ↔ m.sessions.lookup id = none := by
  unfold Manager.Get
  cases m.sessions.lookup id <;> simp

theorem updateState_some (w : SessionWorld) (sess : SessionPtr) (s : Session)
    (state : State) (now : Int) (h : w.heap[sess]? = some s) :
    w.updateState sess state now
      = some { w with heap := w.heap.set sess (s.UpdateState state now) } := by
  simp only [SessionWorld.updateState, h]

theorem getElem?_set_self (heap : List Session) (sess : SessionPtr) (s s' : Session)
    (h : heap[sess]? = some s) : (heap.set sess s')[sess]? = some s' := by
  have hlt : sess < heap.length := by
    by_contra hc
    rw [List.getElem?_eq_none (not_lt.mp hc)] at h
    exact Option.noConfusion h
  simp [List.getElem?_set, hlt]
/-! ### FanOut: one channel -/

theorem execs_cons (s : Chan × Nat) (op : ChanOp) (rest : List ChanOp) :
    Chan.execs s (op :: rest) = (Chan.exec s op).bind fun s1 => Chan.execs s1 rest := rfl

theorem execs_append (s : Chan × Nat) (a b : List ChanOp) :
    Chan.execs s (a ++ b) = (Chan.execs s a).bind fun s1 => Chan.execs s1 b := by
  induction a generalizing s with
  | nil => rfl
  | cons op rest ih =>
    rw [List.cons_append, execs_cons, execs_cons]
    cases h : Chan.exec s op with
    | none => rfl
    | some s1 => rw [Option.some_bind, Option.some_bind, ih]

theorem execs_recvs (c : Chan) (n k : Nat) :
    Chan.execs (c, n) (List.replicate k ChanOp.recv) = some (Chan.recv^[k] c, n) := by
  induction k generalizing c with
  | zero => rfl
  | succ k ih =>
    simp only [List.replicate_succ, Chan.execs, Chan.exec, Option.some_bind, ih,
      Function.iterate_succ, Function.comp_apply]

theorem recv_accepted (c : Chan) : c.recv.accepted = c.accepted := by
  unfold Chan.recv Chan.accepted
  cases hq : c.queue with
  | nil => simp only; split_ifs <;> simp [hq]
  | cons f rest => simp

theorem recv_cap (c : Chan) : c.recv.cap = c.cap := by
  unfold Chan.recv
  cases hq : c.queue with
  | nil => simp only; split_ifs <;> rfl
  | cons f rest => rfl

theorem recv_closed (c : Chan) : c.recv.closed = c.closed := by
  unfold Chan.recv
  cases hq : c.queue with
  | nil => simp only; split_ifs <;> rfl
  | cons f rest => rfl

theorem recv_good (c : Chan) (h : c.Good) : c.recv.Good := by
  obtain ⟨cap, q, tk, w, cl⟩ := c
  unfold Chan.recv Chan.Good at *
  cases q with
  | nil =>
    simp only
    split_ifs
    · exact h
    · intro _; rfl
  | cons f rest =>
    simp only at h ⊢
    intro hw
    exact absurd (h hw) (List.cons_ne_nil _ _)

theorem iterate_recv_closed (c : Chan) (k : Nat) : (Chan.recv^[k] c).closed = c.closed := by
  induction k generalizing c with
  | zero => rfl
  | succ k ih => rw [Function.iterate_succ, Function.comp_apply, ih, recv_closed]

/-- What one operation does to the frames a channel has received. -/
theorem exec_accepted (s s' : Chan × Nat) (op : ChanOp) (hg : s.1.Good)
    (h : Chan.exec s op = some s') :
    s'.1.Good ∧ s'.1.cap = s.1.cap ∧
    ((s'.1.accepted = s.1.accepted ++ offered [op] ∧ s'.2 = s.2) ∨
     (s'.1.accepted = s.1.accepted ∧ s'.2 = s.2 + (offered [op]).length)) := by
  obtain ⟨c, n⟩ := s
  cases op with
  | recv =>
    simp only [Chan.exec, Option.some.injEq] at h
    subst h
    exact ⟨recv_good c hg, recv_cap c, Or.inl ⟨by simp [offered, recv_accepted], rfl⟩⟩
  | close =>
    simp only [Chan.exec, Chan.close] at h
    split_ifs at h with hc
    · simp at h
    · simp only [Option.map_some', Option.some.injEq] at h
      subst h
      refine ⟨?_, rfl, Or.inl ⟨by simp [offered, Chan.accepted], rfl⟩⟩
      intro hw
      exact absurd hw (lt_irrefl 0)
  | send frame =>
    simp only [Chan.exec, Chan.trySend] at h
    split_ifs at h with hc hw hq
    · simp only [Option.some.injEq] at h
      subst h
      have hq0 : c.queue = [] := hg hw
      refine ⟨?_, rfl, Or.inl ⟨by simp [offered, Chan.accepted, hq0], rfl⟩⟩
      intro _
      exact hq0
    · simp only [Option.some.injEq] at h
      subst h
      refine ⟨?_, rfl, Or.inl ⟨by simp [offered, Chan.accepted], rfl⟩⟩
      intro hw'
      exact absurd hw' hw
    · simp only [Option.some.injEq] at h
      subst h
      exact ⟨hg, rfl, Or.inr ⟨rfl, by simp [offered]⟩⟩

theorem offered_cons (op : ChanOp) (rest : List ChanOp) :
    offered (op :: rest) = offered [op] ++ offered rest := by
  cases op <;> simp [offered]

theorem offered_append (a b : List ChanOp) : offered (a ++ b) = offered a ++ offered b := by
  induction a with
  | nil => rfl
  | cons op rest ih =>
    rw [List.cons_append, offered_cons, ih, offered_cons op rest, List.append_assoc]

theorem offered_recvs (k : Nat) : offered (List.replicate k ChanOp.recv) = [] := by
  induction k with
  | zero => rfl
  | succ k ih => simp [List.replicate_succ, offered, ih]

/-- The frames a channel receives under a sequence of operations are an
order-preserving subsequence of the frames offered, and every offered frame is
either received or counted as dropped. -/
theorem execs_accepted : ∀ (trace : List ChanOp) (s s' : Chan × Nat), s.1.Good →
    Chan.execs s trace = some s' →
    ∃ acc : List (List Byte), s'.1.accepted = s.1.accepted ++ acc ∧
      acc.Sublist (offered trace) ∧ acc.length + s'.2 = (offered trace).length + s.2 ∧
      s'.1.cap = s.1.cap ∧ s'.1.Good := by
  intro trace
  induction trace with
  | nil =>
    intro s s' hg h
    simp only [Chan.execs, Option.some.injEq] at h
    subst h
    exact ⟨[], by simp, List.Sublist.refl _, by simp [offered], rfl, hg⟩
  | cons op rest ih =>
    intro s s' hg h
    simp only [Chan.execs] at h
    cases h1 : Chan.exec s op with
    | none => rw [h1] at h; exact Option.noConfusion h
    | some s1 =>
      rw [h1, Option.some_bind] at h
      obtain ⟨hg1, hcap1, hstep⟩ := exec_accepted s s1 op hg h1
      obtain ⟨acc, ha, hsub, hlen, hcap, hgood⟩ := ih s1 s' hg1 h
      rw [offered_cons]
      rcases hstep with ⟨e1, e2⟩ | ⟨e1, e2⟩
      · refine ⟨offered [op] ++ acc, by rw [ha, e1, List.append_assoc],
          List.Sublist.append (List.Sublist.refl _) hsub, ?_, hcap.trans hcap1, hgood⟩
        simp only [List.length_append]
        omega
      · refine ⟨acc, by rw [ha, e1],
          List.Sublist.trans hsub (List.sublist_append_right _ _), ?_, hcap.trans hcap1, hgood⟩
        simp only [List.length_append]
        omega

/-- A channel nobody receives from keeps the first frames that fit. -/
theorem execs_sends_only : ∀ (frames : List (List Byte)) (cap : Nat)
    (q tk : List (List Byte)) (n : Nat), q.length ≤ cap →
    Chan.execs ((⟨cap, q, tk, 0, false⟩ : Chan), n) (frames.map ChanOp.send)
      = some ((⟨cap, (q ++ frames).take cap, tk, 0, false⟩ : Chan),
          n + (q.length + frames.length - cap)) := by
  intro frames
  induction frames with
  | nil =>
    intro cap q tk n hq
    simp only [List.map_nil, Chan.execs, List.append_nil, List.length_nil, Nat.add_zero]
    rw [List.take_of_length_le hq, Nat.sub_eq_zero_of_le hq]
    rfl
  | cons f rest ih =>
    intro cap q tk n hq
    rw [List.map_cons, execs_cons]
    by_cases hroom : q.length < cap
    · have hstep : Chan.exec ((⟨cap, q, tk, 0, false⟩ : Chan), n) (ChanOp.send f)
          = some ((⟨cap, q ++ [f], tk, 0, false⟩ : Chan), n) := by
        simp [Chan.exec, Chan.trySend, hroom]
      rw [hstep, Option.some_bind, ih cap (q ++ [f]) tk n (by simp; omega)]
      simp only [List.append_assoc, List.singleton_append, List.length_append,
        List.length_singleton, List.length_cons, List.length_nil]
      have : q.length + (0 + 1) + rest.length - cap = q.length + (rest.length + 1) - cap := by
        omega
      rw [this]
    · have hstep : Chan.exec ((⟨cap, q, tk, 0, false⟩ : Chan), n) (ChanOp.send f)
          = some ((⟨cap, q, tk, 0, false⟩ : Chan), n + 1) := by
        simp [Chan.exec, Chan.trySend, hroom]
      rw [hstep, Option.some_bind, ih cap q tk (n + 1) hq]
      have hfull : q.length = cap := by omega
      have e1 : (q ++ f :: rest).take cap = q := by
        rw [← hfull, List.take_left']
        rfl
      have e2 : (q ++ rest).take cap = q := by
        rw [← hfull, List.take_left']
        rfl
      rw [e1, e2]
      simp only [List.length_cons]
      have : n + 1 + (q.length + rest.length - cap) = n + (q.length + (rest.length + 1) - cap) := by
        omega
      rw [this]
/-! ### FanOut: the run seen from one channel -/

theorem set_same (cs : Chans) (i : Nat) (c : Chan) : (cs.set i c) i = c := by
  simp [Chans.set]

theorem set_other (cs : Chans) (i j : Nat) (c : Chan) (h : j ≠ i) : (cs.set i c) j = cs j := by
  simp [Chans.set, h]

theorem drain_cons (cs : Chans) (i : Nat) (rest : List Nat) :
    drain cs (i :: rest) = drain (cs.set i (cs i).recv) rest := rfl

theorem drain_at (d : Nat) : ∀ (rs : List Nat) (cs : Chans),
    (drain cs rs) d = Chan.recv^[rs.count d] (cs d) := by
  intro rs
  induction rs with
  | nil => intro cs; rfl
  | cons i rest ih =>
    intro cs
    rw [drain_cons, ih]
    by_cases h : i = d
    · subst h
      rw [set_same, List.count_cons_self, Function.iterate_succ, Function.comp_apply]
    · rw [set_other _ _ _ _ (fun h' => h h'.symm), List.count_cons_of_ne (fun h' => h h'.symm)]

theorem drain_closed (cs : Chans) (rs : List Nat) (i : Nat) :
    ((drain cs rs) i).closed = (cs i).closed := by
  rw [drain_at, iterate_recv_closed]

theorem trySend_closed (c c' : Chan) (f : List Byte) (b : Bool)
    (h : c.trySend f = some (c', b)) : c.closed = false ∧ c'.closed = false := by
  unfold Chan.trySend at h
  split_ifs at h with hc hw hq
  all_goals
    simp only [Option.some.injEq, Prod.mk.injEq] at h
    obtain ⟨rfl, -⟩ := h
    simp [hc]

theorem count_append_singleton_ne (l : List (Option Nat)) (a b : Option Nat) (h : a ≠ b) :
    (l ++ [a]).count b = l.count b := by
  simp [List.count_append, List.count_cons, h]

theorem count_append_singleton_self (l : List (Option Nat)) (a : Option Nat) :
    (l ++ [a]).count a = l.count a + 1 := by
  simp [List.count_append]

theorem sendOne_local (d : Nat) (sched : Nat → List Nat) (frame : List Byte)
    (st st' : FanOutState) (out : Option Nat) (h : sendOne sched frame st out = some st') :
    st'.step = st.step + 1 ∧ st'.closes = st.closes ∧
    (∀ i, (st'.chans i).closed = (st.chans i).closed) ∧
    Chan.execs (st.chans d, st.drops.count (some d))
        (List.replicate ((sched st.step).count d) ChanOp.recv
          ++ (if out = some d then [ChanOp.send frame] else []))
      = some (st'.chans d, st'.drops.count (some d)) := by
  rw [execs_append, execs_recvs, Option.some_bind, ← drain_at]
  unfold sendOne at h
  cases out with
  | none =>
    simp only [Option.some.injEq] at h
    subst h
    refine ⟨rfl, rfl, fun i => drain_closed _ _ _, ?_⟩
    simp only [if_neg (by simp : ¬ (none : Option Nat) = some d), Chan.execs]
    rw [count_append_singleton_ne _ _ _ (by simp)]
  | some i =>
    simp only at h
    cases hs : (drain st.chans (sched st.step) i).trySend frame with
    | none => rw [hs] at h; exact Option.noConfusion h
    | some r =>
      obtain ⟨c, b⟩ := r
      rw [hs] at h
      obtain ⟨hc0, hc1⟩ := trySend_closed _ _ _ _ hs
      cases b with
      | true =>
        simp only [Option.some.injEq] at h
        subst h
        refine ⟨rfl, rfl, fun j => ?_, ?_⟩
        · dsimp only
          by_cases hj : j = i
          · subst hj
            rw [set_same, hc1, ← drain_closed st.chans (sched st.step) j, hc0]
          · rw [set_other _ _ _ _ hj, drain_closed]
        · by_cases hid : i = d
          · subst hid
            simp only [if_true, execs_cons, Chan.exec, hs, Option.some_bind, Chan.execs,
              set_same]
          · have hne : ¬ (some i : Option Nat) = some d := by simpa using hid
            simp only [if_neg hne, Chan.execs]
            rw [set_other _ _ _ _ (fun h' => hid h'.symm)]
      | false =>
        simp only [Option.some.injEq] at h
        subst h
        refine ⟨rfl, rfl, fun j => drain_closed _ _ _, ?_⟩
        by_cases hid : i = d
        · subst hid
          simp only [if_true, execs_cons, Chan.exec, hs, Option.some_bind, Chan.execs]
          rw [count_append_singleton_self]
        · have hne : ¬ (some i : Option Nat) = some d := by simpa using hid
          simp only [if_neg hne, Chan.execs]
          rw [count_append_singleton_ne _ _ _ hne]

theorem sendFrame_local (d : Nat) (sched : Nat → List Nat) (frame : List Byte) :
    ∀ (outs : List (Option Nat)) (st st' : FanOutState),
      sendFrame sched frame st outs = some st' →
      st'.step = st.step + outs.length ∧ st'.closes = st.closes ∧
      (∀ i, (st'.chans i).closed = (st.chans i).closed) ∧
      Chan.execs (st.chans d, st.drops.count (some d)) (localSend d sched frame st.step outs)
        = some (st'.chans d, st'.drops.count (some d)) := by
  intro outs
  induction outs with
  | nil =>
    intro st st' h
    simp only [sendFrame, Option.some.injEq] at h
    subst h
    exact ⟨rfl, rfl, fun _ => rfl, rfl⟩
  | cons out rest ih =>
    intro st st' h
    simp only [sendFrame] at h
    cases h1 : sendOne sched frame st out with
    | none => rw [h1] at h; exact Option.noConfusion h
    | some st1 =>
      rw [h1, Option.some_bind] at h
      obtain ⟨a1, a2, a3, a4⟩ := sendOne_local d sched frame st st1 out h1
      obtain ⟨b1, b2, b3, b4⟩ := ih st1 st' h
      refine ⟨by rw [b1, a1, List.length_cons]; omega, b2.trans a2,
        fun i => (b3 i).trans (a3 i), ?_⟩
      rw [localSend, execs_append, a4, Option.some_bind, ← a1, b4]

theorem sendAll_local (d : Nat) (sched : Nat → List Nat) (outs : List (Option Nat)) :
    ∀ (input : List (List Byte)) (st st' : FanOutState),
      sendAll sched outs st input = some st' →
      st'.step = st.step + input.length * outs.length ∧ st'.closes = st.closes ∧
      (∀ i, (st'.chans i).closed = (st.chans i).closed) ∧
      Chan.execs (st.chans d, st.drops.count (some d)) (localSendAll d sched outs st.step input)
        = some (st'.chans d, st'.drops.count (some d)) := by
  intro input
  induction input with
  | nil =>
    intro st st' h
    simp only [sendAll, Option.some.injEq] at h
    subst h
    exact ⟨by simp, rfl, fun _ => rfl, rfl⟩
  | cons frame rest ih =>
    intro st st' h
    simp only [sendAll] at h
    cases h1 : sendFrame sched frame st outs with
    | none => rw [h1] at h; exact Option.noConfusion h
    | some st1 =>
      rw [h1, Option.some_bind] at h
      obtain ⟨a1, a2, a3, a4⟩ := sendFrame_local d sched frame outs st st1 h1
      obtain ⟨b1, b2, b3, b4⟩ := ih st1 st' h
      refine ⟨by rw [b1, a1, List.length_cons]; ring, b2.trans a2,
        fun i => (b3 i).trans (a3 i), ?_⟩
      rw [localSendAll, execs_append, a4, Option.some_bind, ← a1, b4]

theorem closeOne_local (d : Nat) (sched : Nat → List Nat)
    (st st' : FanOutState) (out : Option Nat) (h : closeOne sched st out = some st') :
    st'.step = st.step + 1 ∧ st'.drops = st.drops ∧
    (∃ i, out = some i ∧ st'.closes = st.closes ++ [i] ∧ (st.chans i).closed = false ∧
      (st'.chans i).closed = true ∧ ∀ j, j ≠ i → (st'.chans j).closed = (st.chans j).closed) ∧
    Chan.execs (st.chans d, st.drops.count (some d))
        (List.replicate ((sched st.step).count d) ChanOp.recv
          ++ (if out = some d then [ChanOp.close] else []))
      = some (st'.chans d, st'.drops.count (some d)) := by
  rw [execs_append, execs_recvs, Option.some_bind, ← drain_at]
  unfold closeOne at h
  cases out with
  | none => exact Option.noConfusion h
  | some i =>
    simp only at h
    cases hs : (drain st.chans (sched st.step) i).close with
    | none => rw [hs] at h; exact Option.noConfusion h
    | some c =>
      rw [hs] at h
      simp only [Option.some.injEq] at h
      subst h
      have hopen : (drain st.chans (sched st.step) i).closed = false := by
        unfold Chan.close at hs
        split_ifs at hs with hc
        simpa using hc
      have hcl : c.closed = true := by
        unfold Chan.close at hs
        split_ifs at hs with hc
        simp only [Option.some.injEq] at hs
        subst hs
        rfl
      refine ⟨rfl, rfl, ⟨i, rfl, rfl, ?_, ?_, fun j hj => ?_⟩, ?_⟩
      · rw [← drain_closed st.chans (sched st.step) i]; exact hopen
      · simp only [set_same]; exact hcl
      · simp only [set_other _ _ _ _ hj, drain_closed]
      · by_cases hid : i = d
        · subst hid
          simp only [if_true, execs_cons, Chan.exec, hs, Option.map_some', Option.some_bind,
            Chan.execs, set_same]
        · have hne : ¬ (some i : Option Nat) = some d := by simpa using hid
          simp only [if_neg hne, Chan.execs]
          rw [set_other _ _ _ _ (fun h' => hid h'.symm)]

theorem closeAll_local (d : Nat) (sched : Nat → List Nat) :
    ∀ (outs : List (Option Nat)) (st st' : FanOutState),
      closeAll sched st outs = some st' →
      st'.step = st.step + outs.length ∧ st'.drops = st.drops ∧
      Chan.execs (st.chans d, st.drops.count (some d)) (localClose d sched st.step outs)
        = some (st'.chans d, st'.drops.count (some d)) := by
  intro outs
  induction outs with
  | nil =>
    intro st st' h
    simp only [closeAll, Option.some.injEq] at h
    subst h
    exact ⟨rfl, rfl, rfl⟩
  | cons out rest ih =>
    intro st st' h
    simp only [closeAll] at h
    cases h1 : closeOne sched st out with
    | none => rw [h1] at h; exact Option.noConfusion h
    | some st1 =>
      rw [h1, Option.some_bind] at h
      obtain ⟨a1, a2, -, a4⟩ := closeOne_local d sched st st1 out h1
      obtain ⟨b1, b2, b4⟩ := ih st1 st' h
      refine ⟨by rw [b1, a1, List.length_cons]; omega, b2.trans a2, ?_⟩
      rw [localClose, execs_append, a4, Option.some_bind, ← a1, b4]

/-- The operations on channel `d` during a whole run of `FanOut`. -/
theorem FanOut_local (d : Nat) (sched : Nat → List Nat) (chans : Chans)
    (outs : List (Option Nat)) (input : List (List Byte)) (st : FanOutState)
    (h : FanOut sched chans outs input = some st) :
    Chan.execs (chans d, 0)
        (localSendAll d sched outs 0 input
          ++ localClose d sched (input.length * outs.length) outs)
      = some (st.chans d, st.drops.count (some d)) := by
  unfold FanOut at h
  cases h1 : sendAll sched outs { chans := chans, drops := [], closes := [], step := 0 } input with
  | none => rw [h1] at h; exact Option.noConfusion h
  | some st1 =>
    rw [h1, Option.some_bind] at h
    obtain ⟨a1, -, -, a4⟩ := sendAll_local d sched outs input _ st1 h1
    obtain ⟨-, -, b4⟩ := closeAll_local d sched outs st1 st h
    simp only [List.count_nil, zero_add] at a4 a1
    rw [execs_append, a4, Option.some_bind, ← a1, b4]
/-! ### FanOut: what is offered to one channel, and when the run completes -/

theorem offered_localSend (d : Nat) (sched : Nat → List Nat) (frame : List Byte) :
    ∀ (outs : List (Option Nat)) (t : Nat),
      offered (localSend d sched frame t outs) = List.replicate (outs.count (some d)) frame := by
  intro outs
  induction outs with
  | nil => intro t; rfl
  | cons out rest ih =>
    intro t
    rw [localSend, offered_append, offered_append, offered_recvs, ih, List.nil_append]
    by_cases h : out = some d
    · subst h
      simp [offered, List.replicate_succ]
    · have h' : ¬ some d = out := fun h' => h h'.symm
      simp [h, offered, List.count_cons, h']

theorem offered_localSendAll_once (d : Nat) (sched : Nat → List Nat) (outs : List (Option Nat))
    (hd : outs.count (some d) = 1) :
    ∀ (input : List (List Byte)) (t : Nat), offered (localSendAll d sched outs t input) = input := by
  intro input
  induction input with
  | nil => intro t; rfl
  | cons f rest ih =>
    intro t
    rw [localSendAll, offered_append, offered_localSend, hd, ih]
    rfl

theorem offered_localClose (d : Nat) (sched : Nat → List Nat) :
    ∀ (outs : List (Option Nat)) (t : Nat), offered (localClose d sched t outs) = [] := by
  intro outs
  induction outs with
  | nil => intro t; rfl
  | cons out rest ih =>
    intro t
    rw [localClose, offered_append, offered_append, offered_recvs, ih]
    by_cases h : out = some d <;> simp [h, offered]

theorem localSend_undrained (d : Nat) (sched : Nat → List Nat) (frame : List Byte)
    (hs : ∀ t, d ∉ sched t) :
    ∀ (outs : List (Option Nat)) (t : Nat),
      localSend d sched frame t outs
        = List.replicate (outs.count (some d)) (ChanOp.send frame) := by
  intro outs
  induction outs with
  | nil => intro t; rfl
  | cons out rest ih =>
    intro t
    rw [localSend, ih, List.count_eq_zero_of_not_mem (hs t)]
    by_cases h : out = some d
    · subst h
      simp [List.replicate_succ]
    · have h' : ¬ some d = out := fun h' => h h'.symm
      simp [h, List.count_cons, h']

theorem localSendAll_undrained (d : Nat) (sched : Nat → List Nat) (outs : List (Option Nat))
    (hs : ∀ t, d ∉ sched t) (hd : outs.count (some d) = 1) :
    ∀ (input : List (List Byte)) (t : Nat),
      localSendAll d sched outs t input = input.map ChanOp.send := by
  intro input
  induction input with
  | nil => intro t; rfl
  | cons f rest ih =>
    intro t
    rw [localSendAll, localSend_undrained d sched f hs, hd, ih]
    rfl

theorem localClose_undrained (d : Nat) (sched : Nat → List Nat) (hs : ∀ t, d ∉ sched t) :
    ∀ (outs : List (Option Nat)) (t : Nat),
      localClose d sched t outs = List.replicate (outs.count (some d)) ChanOp.close := by
  intro outs
  induction outs with
  | nil => intro t; rfl
  | cons out rest ih =>
    intro t
    rw [localClose, ih, List.count_eq_zero_of_not_mem (hs t)]
    by_cases h : out = some d
    · subst h
      simp [List.replicate_succ]
    · have h' : ¬ some d = out := fun h' => h h'.symm
      simp [h, List.count_cons, h']

theorem sendOne_ok (sched : Nat → List Nat) (frame : List Byte) (st : FanOutState)
    (out : Option Nat) (hopen : ∀ i, out = some i → (st.chans i).closed = false) :
    ∃ st', sendOne sched frame st out = some st' := by
  unfold sendOne
  cases out with
  | none => exact ⟨_, rfl⟩
  | some i =>
    have hc : (drain st.chans (sched st.step) i).closed = false := by
      rw [drain_closed]; exact hopen i rfl
    simp only [Chan.trySend, hc, Bool.false_eq_true, if_false]
    split_ifs <;> exact ⟨_, rfl⟩

theorem sendFrame_ok (sched : Nat → List Nat) (frame : List Byte) :
    ∀ (outs : List (Option Nat)) (st : FanOutState),
      (∀ i, some i ∈ outs → (st.chans i).closed = false) →
      ∃ st', sendFrame sched frame st outs = some st' := by
  intro outs
  induction outs with
  | nil => intro st _; exact ⟨st, rfl⟩
  | cons out rest ih =>
    intro st hopen
    obtain ⟨st1, h1⟩ := sendOne_ok sched frame st out
      (fun i hi => hopen i (by rw [hi]; exact List.mem_cons_self _ _))
    obtain ⟨-, -, hcl, -⟩ := sendOne_local 0 sched frame st st1 out h1
    obtain ⟨st', h'⟩ := ih st1 (fun i hi => by
      rw [hcl]; exact hopen i (List.mem_cons_of_mem _ hi))
    exact ⟨st', by simp only [sendFrame, h1, Option.some_bind, h']⟩

theorem sendAll_ok (sched : Nat → List Nat) (outs : List (Option Nat)) :
    ∀ (input : List (List Byte)) (st : FanOutState),
      (∀ i, some i ∈ outs → (st.chans i).closed = false) →
      ∃ st', sendAll sched outs st input = some st' := by
  intro input
  induction input with
  | nil => intro st _; exact ⟨st, rfl⟩
  | cons f rest ih =>
    intro st hopen
    obtain ⟨st1, h1⟩ := sendFrame_ok sched f outs st hopen
    obtain ⟨-, -, hcl, -⟩ := sendFrame_local 0 sched f outs st st1 h1
    obtain ⟨st', h'⟩ := ih st1 (fun i hi => by rw [hcl]; exact hopen i hi)
    exact ⟨st', by simp only [sendAll, h1, Option.some_bind, h']⟩

theorem closeOne_ok (sched : Nat → List Nat) (st : FanOutState) (i : Nat)
    (hopen : (st.chans i).closed = false) :
    ∃ st', closeOne sched st (some i) = some st' := by
  have hc : (drain st.chans (sched st.step) i).closed = false := by
    rw [drain_closed]; exact hopen
  simp only [closeOne, Chan.close, hc, Bool.false_eq_true, if_false]
  exact ⟨_, rfl⟩

theorem closeAll_ok (sched : Nat → List Nat) :
    ∀ (ids : List Nat) (st : FanOutState), ids.Nodup →
      (∀ i ∈ ids, (st.chans i).closed = false) →
      ∃ st', closeAll sched st (ids.map some) = some st' ∧
        st'.closes = st.closes ++ ids ∧ st'.drops = st.drops ∧
        st'.step = st.step + ids.length ∧
        (∀ i ∈ ids, (st'.chans i).closed = true) ∧
        (∀ j, j ∉ ids → (st'.chans j).closed = (st.chans j).closed) := by
  intro ids
  induction ids with
  | nil => intro st _ _; exact ⟨st, rfl, by simp, rfl, rfl, by simp, fun _ _ => rfl⟩
  | cons i rest ih =>
    intro st hnd hopen
    obtain ⟨hi, hnd'⟩ := List.nodup_cons.mp hnd
    obtain ⟨st1, h1⟩ := closeOne_ok sched st i (hopen i (List.mem_cons_self _ _))
    obtain ⟨a1, a2, ⟨k, hk, a3, -, a5, a6⟩, -⟩ := closeOne_local 0 sched st st1 (some i) h1
    obtain rfl : i = k := Option.some.inj hk
    have hopen1 : ∀ j ∈ rest, (st1.chans j).closed = false := by
      intro j hj
      have hne : j ≠ i := fun h => hi (h ▸ hj)
      rw [a6 j hne]
      exact hopen j (List.mem_cons_of_mem _ hj)
    obtain ⟨st', b0, b1, b2, b3, b4, b5⟩ := ih st1 hnd' hopen1
    refine ⟨st', by simp only [List.map_cons, closeAll, h1, Option.some_bind, b0], ?_, b2.trans a2,
      by rw [b3, a1, List.length_cons]; omega, ?_, ?_⟩
    · rw [b1, a3, List.append_assoc]; rfl
    · intro j hj
      rcases List.mem_cons.mp hj with rfl | hj'
      · rw [b5 j hi]; exact a5
      · exact b4 j hj'
    · intro j hj
      have hne : j ≠ i := fun h => hj (h ▸ List.mem_cons_self _ _)
      have hnr : j ∉ rest := fun h => hj (List.mem_cons_of_mem _ h)
      rw [b5 j hnr, a6 j hne]
theorem localSend_congr (d : Nat) (sched1 sched2 : Nat → List Nat) (frame : List Byte)
    (h : ∀ t, (sched1 t).count d = (sched2 t).count d) :
    ∀ (outs : List (Option Nat)) (t : Nat),
      localSend d sched1 frame t outs = localSend d sched2 frame t outs := by
  intro outs
  induction outs with
  | nil => intro t; rfl
  | cons out rest ih => intro t; rw [localSend, localSend, h t, ih]

theorem localSendAll_congr (d : Nat) (sched1 sched2 : Nat → List Nat) (outs : List (Option Nat))
    (h : ∀ t, (sched1 t).count d = (sched2 t).count d) :
    ∀ (input : List (List Byte)) (t : Nat),
      localSendAll d sched1 outs t input = localSendAll d sched2 outs t input := by
  intro input
  induction input with
  | nil => intro t; rfl
  | cons f rest ih =>
    intro t; rw [localSendAll, localSendAll, localSend_congr d sched1 sched2 f h, ih]

theorem localClose_congr (d : Nat) (sched1 sched2 : Nat → List Nat)
    (h : ∀ t, (sched1 t).count d = (sched2 t).count d) :
    ∀ (outs : List (Option Nat)) (t : Nat),
      localClose d sched1 t outs = localClose d sched2 t outs := by
  intro outs
  induction outs with
  | nil => intro t; rfl
  | cons out rest ih => intro t; rw [localClose, localClose, h t, ih]

/-- `FanOut` completes when its destinations are non-nil, pairwise distinct and
open, and then has closed each of them once, in order. -/
theorem FanOut_ok (sched : Nat → List Nat) (chans : Chans) (ids : List Nat)
    (input : List (List Byte)) (hnd : ids.Nodup)
    (hopen : ∀ i ∈ ids, (chans i).closed = false) :
    ∃ st, FanOut sched chans (ids.map some) input = some st ∧ st.closes = ids ∧
      st.step = input.length * ids.length + ids.length ∧
      (∀ i ∈ ids, (st.chans i).closed = true) ∧
      (∀ j, j ∉ ids → (st.chans j).closed = (chans j).closed) := by
  have hmem : ∀ i, some i ∈ ids.map some → i ∈ ids := by
    intro i hi
    obtain ⟨j, hj, he⟩ := List.mem_map.mp hi
    exact Option.some.inj he ▸ hj
  obtain ⟨st1, h1⟩ := sendAll_ok sched (ids.map some) input
    { chans := chans, drops := [], closes := [], step := 0 }
    (fun i hi => hopen i (hmem i hi))
  obtain ⟨a1, a2, a3, -⟩ := sendAll_local 0 sched (ids.map some) input _ st1 h1
  obtain ⟨st, b0, b1, -, b3, b4, b5⟩ := closeAll_ok sched ids st1 hnd
    (fun i hi => by rw [a3]; exact hopen i hi)
  refine ⟨st, by simp only [FanOut, h1, Option.some_bind, b0], by rw [b1, a2]; rfl, ?_, b4,
    fun j hj => by rw [b5 j hj, a3]⟩
  rw [b3, a1, List.length_map]
  simp

/-! ### FanOut: a destination that is ready whenever a frame arrives -/

theorem readyAtSends_cons (s : Chan × Nat) (op : ChanOp) (rest : List ChanOp) :
    Chan.readyAtSends s (op :: rest)
      = ((match op with
          | ChanOp.send _ => s.1.ready
          | _ => true)
        && (match Chan.exec s op with
          | some s1 => Chan.readyAtSends s1 rest
          | none => true)) := rfl

theorem readyAtSends_append (a b : List ChanOp) (s s1 : Chan × Nat)
    (ha : Chan.readyAtSends s a = true) (he : Chan.execs s a = some s1)
    (hb : Chan.readyAtSends s1 b = true) : Chan.readyAtSends s (a ++ b) = true := by
  induction a generalizing s with
  | nil =>
    simp only [Chan.execs, Option.some.injEq] at he
    subst he
    exact hb
  | cons op rest ih =>
    rw [execs_cons] at he
    rw [readyAtSends_cons] at ha
    rw [List.cons_append, readyAtSends_cons]
    cases h1 : Chan.exec s op with
    | none => rw [h1] at he; exact Option.noConfusion he
    | some s2 =>
      rw [h1, Option.some_bind] at he
      rw [h1, Bool.and_eq_true] at ha
      rw [Bool.and_eq_true]
      exact ⟨ha.1, ih s2 ha.2 he⟩

/-- A send to a ready channel is taken: the frame is received and nothing is
dropped. -/
theorem trySend_ready (c : Chan) (frame : List Byte) (hg : c.Good) (hc : c.closed = false)
    (hr : c.ready = true) :
    ∃ c', c.trySend frame = some (c', true) ∧ c'.accepted = c.accepted ++ [frame] ∧
      c'.Good ∧ c'.closed = false ∧ c'.cap = c.cap ∧
      (c.queue.length ≤ c.cap → c'.queue.length ≤ c'.cap) := by
  unfold Chan.trySend
  simp only [hc, Bool.false_eq_true, if_false]
  by_cases hw : 0 < c.waiting
  · have hq0 : c.queue = [] := hg hw
    simp only [hw, if_true]
    refine ⟨_, rfl, by simp [Chan.accepted, hq0], fun _ => hq0, rfl, rfl, fun h => h⟩
  · have hq : c.queue.length < c.cap := by
      simp only [Chan.ready, Bool.or_eq_true, decide_eq_true_eq] at hr
      exact hr.resolve_right hw
    simp only [hw, if_false, hq, if_true]
    refine ⟨_, rfl, by simp [Chan.accepted], fun hw' => absurd hw' hw, rfl, rfl, fun _ => ?_⟩
    simp only [List.length_append, List.length_singleton]
    omega

/-- When the channel is ready at every send, it receives every frame offered
and nothing is dropped. -/
theorem execs_ready : ∀ (trace : List ChanOp) (s s' : Chan × Nat), s.1.Good →
    Chan.readyAtSends s trace = true → Chan.execs s trace = some s' →
    s'.1.accepted = s.1.accepted ++ offered trace ∧ s'.2 = s.2 ∧ s'.1.Good := by
  intro trace
  induction trace with
  | nil =>
    intro s s' hg _ h
    simp only [Chan.execs, Option.some.injEq] at h
    subst h
    exact ⟨by simp [offered], rfl, hg⟩
  | cons op rest ih =>
    intro s s' hg hr h
    rw [execs_cons] at h
    rw [readyAtSends_cons] at hr
    cases h1 : Chan.exec s op with
    | none => rw [h1] at h; exact Option.noConfusion h
    | some s1 =>
      rw [h1, Option.some_bind] at h
      rw [h1, Bool.and_eq_true] at hr
      have hstep : s1.1.accepted = s.1.accepted ++ offered [op] ∧ s1.2 = s.2 ∧ s1.1.Good := by
        obtain ⟨hg1, -, hcase⟩ := exec_accepted s s1 op hg h1
        cases op with
        | recv =>
          rcases hcase with ⟨e1, e2⟩ | ⟨e1, e2⟩
          · exact ⟨e1, e2, hg1⟩
          · exact ⟨by simpa [offered] using e1, by simpa [offered] using e2, hg1⟩
        | close =>
          rcases hcase with ⟨e1, e2⟩ | ⟨e1, e2⟩
          · exact ⟨e1, e2, hg1⟩
          · exact ⟨by simpa [offered] using e1, by simpa [offered] using e2, hg1⟩
        | send frame =>
          have hcl : s.1.closed = false := by
            cases hc : s.1.closed with
            | false => rfl
            | true => simp [Chan.exec, Chan.trySend, hc] at h1
          obtain ⟨c', ht, hacc, -, -, -, -⟩ := trySend_ready s.1 frame hg hcl hr.1
          simp only [Chan.exec, ht, Option.some.injEq] at h1
          subst h1
          exact ⟨by simpa [offered] using hacc, rfl, hg1⟩
      obtain ⟨a1, a2, a3⟩ := ih s1 s' hstep.2.2 hr.2 h
      refine ⟨?_, a2.trans hstep.2.1, a3⟩
      rw [a1, hstep.1, offered_cons op rest, List.append_assoc]

theorem recv_sound (c : Chan) (h : c.Sound) : c.recv.Sound ∧ c.recv.ready = true := by
  obtain ⟨cap, q, tk, w, cl⟩ := c
  obtain ⟨hc, hq, hg⟩ := h
  simp only at hc
  subst hc
  cases q with
  | nil =>
    refine ⟨⟨rfl, Nat.zero_le _, fun _ => rfl⟩, ?_⟩
    simp [Chan.recv, Chan.ready]
  | cons f rest =>
    have hq' : rest.length + 1 ≤ cap := hq
    have hw : w = 0 := by
      by_contra hne
      exact List.cons_ne_nil _ _ (hg (Nat.pos_of_ne_zero hne))
    subst hw
    refine ⟨⟨rfl, ?_, fun h0 => absurd h0 (lt_irrefl 0)⟩, ?_⟩
    · show rest.length ≤ cap
      omega
    · simp only [Chan.recv, Chan.ready, Bool.or_eq_true, decide_eq_true_eq]
      left
      omega

theorem recvs_sound (k : Nat) (c : Chan) (h : c.Sound) :
    (Chan.recv^[k] c).Sound ∧ (0 < k → (Chan.recv^[k] c).ready = true) := by
  induction k generalizing c with
  | zero => exact ⟨h, fun h0 => absurd h0 (lt_irrefl 0)⟩
  | succ k ih =>
    rw [Function.iterate_succ, Function.comp_apply]
    obtain ⟨a1, a2⟩ := recv_sound c h
    obtain ⟨b1, b2⟩ := ih c.recv a1
    refine ⟨b1, fun _ => ?_⟩
    cases k with
    | zero => exact a2
    | succ j => exact b2 (Nat.succ_pos j)

theorem readyAtSends_recvs (k : Nat) (s : Chan × Nat) :
    Chan.readyAtSends s (List.replicate k ChanOp.recv) = true := by
  induction k generalizing s with
  | zero => rfl
  | succ k ih =>
    rw [List.replicate_succ, readyAtSends_cons]
    simp only [Chan.exec, Bool.true_and]
    exact ih _

/-- A destination whose consumers receive before every channel operation is
ready at every send of the inner loop. -/
theorem localSend_drained (d : Nat) (sched : Nat → List Nat) (frame : List Byte)
    (hs : ∀ t, d ∈ sched t) :
    ∀ (outs : List (Option Nat)) (t : Nat) (s : Chan × Nat), s.1.Sound →
      ∃ s', Chan.execs s (localSend d sched frame t outs) = some s' ∧ s'.1.Sound ∧
        Chan.readyAtSends s (localSend d sched frame t outs) = true := by
  intro outs
  induction outs with
  | nil => intro t s h; exact ⟨s, rfl, h, rfl⟩
  | cons out rest ih =>
    intro t s h
    obtain ⟨c, n⟩ := s
    have hk : 0 < (sched t).count d := List.count_pos_iff.mpr (hs t)
    obtain ⟨r1, r2⟩ := recvs_sound ((sched t).count d) c h
    have hready := r2 hk
    have e1 := execs_recvs c n ((sched t).count d)
    have q1 := readyAtSends_recvs ((sched t).count d) (c, n)
    by_cases ho : out = some d
    · obtain ⟨c', ht, -, hg', hc', hcap', hq'⟩ :=
        trySend_ready _ frame r1.2.2 r1.1 hready
      have hsound : c'.Sound := ⟨hc', hq' r1.2.1, hg'⟩
      obtain ⟨s', e3, hs', q3⟩ := ih (t + 1) (c', n) hsound
      have e2 : Chan.execs (Chan.recv^[(sched t).count d] c, n) [ChanOp.send frame]
          = some (c', n) := by
        simp only [Chan.execs, Chan.exec, ht, Option.some_bind]
      have q2 : Chan.readyAtSends (Chan.recv^[(sched t).count d] c, n) [ChanOp.send frame]
          = true := by
        simp only [Chan.readyAtSends, Chan.exec, ht, hready, Bool.and_self]
      have e12 : Chan.execs (c, n)
          (List.replicate ((sched t).count d) ChanOp.recv ++ [ChanOp.send frame])
          = some (c', n) := by
        rw [execs_append, e1, Option.some_bind, e2]
      refine ⟨s', ?_, hs', ?_⟩
      · simp only [localSend, ho, if_true]
        rw [execs_append, e12, Option.some_bind, e3]
      · simp only [localSend, ho, if_true]
        exact readyAtSends_append _ _ _ _
          (readyAtSends_append _ _ _ _ q1 e1 q2) e12 q3
    · obtain ⟨s', e3, hs', q3⟩ := ih (t + 1) (Chan.recv^[(sched t).count d] c, n) r1
      refine ⟨s', ?_, hs', ?_⟩
      · simp only [localSend, ho, if_false, List.append_nil]
        rw [execs_append, e1, Option.some_bind, e3]
      · simp only [localSend, ho, if_false, List.append_nil]
        exact readyAtSends_append _ _ _ _ q1 e1 q3

theorem localSendAll_drained (d : Nat) (sched : Nat → List Nat) (outs : List (Option Nat))
    (hs : ∀ t, d ∈ sched t) :
    ∀ (input : List (List Byte)) (t : Nat) (s : Chan × Nat), s.1.Sound →
      ∃ s', Chan.execs s (localSendAll d sched outs t input) = some s' ∧ s'.1.Sound ∧
        Chan.readyAtSends s (localSendAll d sched outs t input) = true := by
  intro input
  induction input with
  | nil => intro t s h; exact ⟨s, rfl, h, rfl⟩
  | cons f rest ih =>
    intro t s h
    obtain ⟨s1, e1, h1, q1⟩ := localSend_drained d sched f hs outs t s h
    obtain ⟨s2, e2, h2, q2⟩ := ih (t + outs.length) s1 h1
    refine ⟨s2, ?_, h2, ?_⟩
    · rw [localSendAll, execs_append, e1, Option.some_bind, e2]
    · rw [localSendAll]
      exact readyAtSends_append _ _ _ _ q1 e1 q2

/-- In a run that completes, a destination listed once that is ready at every
send ends up with every input frame, in order, and no drop. -/
theorem FanOut_ready (d : Nat) (sched : Nat → List Nat) (chans : Chans)
    (outs : List (Option Nat)) (input : List (List Byte)) (st : FanOutState)
    (hd : outs.count (some d) = 1) (hg : (chans d).Good)
    (hrun : FanOut sched chans outs input = some st)
    (hr : Chan.readyAtSends (chans d, 0) (localSendAll d sched outs 0 input) = true) :
    (st.chans d).accepted = (chans d).accepted ++ input ∧ st.drops.count (some d) = 0 := by
  have hloc := FanOut_local d sched chans outs input st hrun
  rw [execs_append] at hloc
  cases h1 : Chan.execs (chans d, 0) (localSendAll d sched outs 0 input) with
  | none => rw [h1] at hloc; exact Option.noConfusion hloc
  | some s1 =>
    rw [h1, Option.some_bind] at hloc
    obtain ⟨a1, a2, a3⟩ := execs_ready _ _ _ hg hr h1
    obtain ⟨acc, b1, b2, b3, -, -⟩ := execs_accepted _ s1 _ a3 hloc
    rw [offered_localClose] at b2 b3
    have hacc : acc = [] := List.eq_nil_of_sublist_nil b2
    subst hacc
    rw [offered_localSendAll_once d sched outs hd] at a1
    simp only [List.append_nil] at b1
    simp only [List.length_nil, Nat.zero_add] at b3
    exact ⟨by rw [b1, a1], by rw [b3, a2]⟩

/-! ### VAD: the notifications alternate -/

theorem classify_alternates (v : VAD) (now : Int) (energy : ℚ) (rest : List VADEvent)
    (hs : v.onSpeechStart = true) (he : v.onSpeechEnd = true) :
    alternatesFrom v.isSpeaking ((v.classify now energy).events ++ rest)
        = alternatesFrom (v.classify now energy).vad.isSpeaking rest
      ∧ (v.classify now energy).vad.onSpeechStart = true
      ∧ (v.classify now energy).vad.onSpeechEnd = true
      ∧ (v.classify now energy).vad.threshold = v.threshold
      ∧ (v.classify now energy).vad.minSilenceDur = v.minSilenceDur := by
  unfold VAD.classify
  by_cases h : v.threshold < energy
  · cases hsp : v.isSpeaking <;> simp [h, hs, he, hsp, alternatesFrom]
  · cases hsp : v.isSpeaking
    · simp [h, hs, he, hsp]
    · cases hst : v.silenceStart with
      | none => simp [h, hs, he, hsp]
      | some t =>
        by_cases hd : v.minSilenceDur < timeSince now t <;>
          simp [h, hd, hs, he, hsp, alternatesFrom]

theorem feed_alternates (frames : List (Int × List Byte)) (v : VAD)
    (hs : v.onSpeechStart = true) (he : v.onSpeechEnd = true) :
    ∃ (v' : VAD) (events : List VADEvent), v.feed frames = some (v', events) ∧
      alternatesFrom v.isSpeaking events = some v'.isSpeaking := by
  induction frames generalizing v with
  | nil => exact ⟨v, [], rfl, by cases v.isSpeaking <;> rfl⟩
  | cons p rest ih =>
    obtain ⟨energy, hen⟩ := calculateEnergy_some p.2
    obtain ⟨_, h2, h3, _, _⟩ := classify_alternates v p.1 energy [] hs he
    have hp : v.Process p.1 p.2 = some (v.classify p.1 energy) := by
      simp only [VAD.Process, hen, Option.map_some']
    obtain ⟨v', events, hf, ha⟩ := ih (v.classify p.1 energy).vad h2 h3
    refine ⟨v', (v.classify p.1 energy).events ++ events, ?_, ?_⟩
    · rw [feed_cons, hp, Option.some_bind, hf]
      rfl
    · rw [(classify_alternates v p.1 energy events hs he).1, ha]

theorem alternatesFrom_count (events : List VADEvent) (b b' : Bool)
    (h : alternatesFrom b events = some b') :
    events.count VADEvent.speechStart + (if b then 1 else 0)
      = events.count VADEvent.speechEnd + (if b' then 1 else 0) := by
  induction events generalizing b with
  | nil =>
    cases b <;> simp only [alternatesFrom, Option.some.injEq] at h <;> subst h <;> rfl
  | cons e rest ih =>
    cases b
    · cases e
      · have := ih true (by simpa only [alternatesFrom] using h)
        simp only [if_true] at this
        simp [List.count_cons, this]
      · simp only [alternatesFrom] at h
        exact absurd h (by simp)
    · cases e
      · simp only [alternatesFrom] at h
        exact absurd h (by simp)
      · have := ih false (by simpa only [alternatesFrom] using h)
        simp at this
        simp [List.count_cons, this]
        omega

/-! ### WAV header -/

theorem Write_never_fails (out p : List Byte) :
    Writer.Write ⟨out, none⟩ p = (⟨out ++ p, none⟩, none) := rfl

theorem orReturn_ok (w : Writer) (rest : Writer → Writer × Option String) :
    orReturn (w, none) rest = rest w := rfl

theorem writeUint16_spec (out : List Byte) (val : Nat) :
    writeUint16 ⟨out, none⟩ val = (⟨out ++ specLittleEndian 2 val, none⟩, none) := by
  simp [writeUint16, Write_never_fails, specLittleEndian, Nat.shiftRight_eq_div_pow]

theorem writeUint32_spec (out : List Byte) (val : Nat) :
    writeUint32 ⟨out, none⟩ val = (⟨out ++ specLittleEndian 4 val, none⟩, none) := by
  simp [writeUint32, Write_never_fails, specLittleEndian, Nat.shiftRight_eq_div_pow,
    Nat.div_div_eq_div_mul]

theorem toByte_val (val : Nat) : (toByte val).val = val % 256 := by
  simp [toByte, Fin.ofNat]

theorem decode_uint16 (val : Nat) (h : val < 2 ^ 16) :
    decodeLittleEndian (specLittleEndian 2 val) = val := by
  simp only [specLittleEndian, decodeLittleEndian, toByte_val]
  omega

theorem decode_uint32 (val : Nat) (h : val < 2 ^ 32) :
    decodeLittleEndian (specLittleEndian 4 val) = val := by
  simp only [specLittleEndian, decodeLittleEndian, toByte_val]
  omega

theorem specLittleEndian_length (n val : Nat) : (specLittleEndian n val).length = n := by
  induction n generalizing val with
  | zero => rfl
  | succ n ih => simp [specLittleEndian, ih]

theorem writeWAVHeader_out (out : List Byte) (sampleRate bitsPerSample numChannels dataSize : Nat) :
    writeWAVHeader ⟨out, none⟩ sampleRate bitsPerSample numChannels dataSize
      = (⟨out ++ specWAVHeader sampleRate bitsPerSample numChannels dataSize, none⟩, none) := by
  have e : sampleRate * numChannels % 2 ^ 32 * (bitsPerSample / 8) % 2 ^ 32
      = sampleRate * numChannels * (bitsPerSample / 8) % 2 ^ 32 := by
    rw [Nat.mul_mod, Nat.mod_mod, ← Nat.mul_mod]
  simp only [writeWAVHeader, Write_never_fails, orReturn_ok, writeUint16_spec, writeUint32_spec,
    specWAVHeader, e, List.append_assoc]

theorem specWAVHeader_length (sampleRate bitsPerSample numChannels dataSize : Nat) :
    (specWAVHeader sampleRate bitsPerSample numChannels dataSize).length = 44 := by
  simp only [specWAVHeader, List.length_append, specLittleEndian_length]
  rfl

/-! ### Skill registry -/

theorem Register_exists (r : Registry) (s old : Skill)
    (h : r.skills.lookup s.Name = some old) :
    r.Register s = (r, some ("skill " ++ s.Name ++ " already registered")) := by
  simp only [Registry.Register, h]

theorem Register_fresh (r : Registry) (s : Skill) (h : r.skills.lookup s.Name = none) :
    r.Register s = ({ skills := (s.Name, s) :: r.skills }, none) := by
  simp only [Registry.Register, h]

theorem Registry_Get_true_iff (r : Registry) (name : String) :
    (r.Get name).2 = true ↔ ∃ old, r.skills.lookup name = some old := by
  unfold Registry.Get
  cases h : r.skills.lookup name <;> simp

theorem Registry_Get_false_iff (r : Registry) (name : String) :
    (r.Get name).2 = false ↔ r.skills.lookup name = none := by
  unfold Registry.Get
  cases h : r.skills.lookup name <;> simp

theorem Registry_Get_cons_self (name : String) (s : Skill) (l : List (String × Skill)) :
    Registry.Get { skills := (name, s) :: l } name = (some s, true) := by
  simp [Registry.Get, List.lookup]

theorem Registry_Get_cons_other (name other : String) (s : Skill) (l : List (String × Skill))
    (h : other ≠ name) :
    Registry.Get { skills := (name, s) :: l } other = Registry.Get { skills := l } other := by
  have hb : (other == name) = false := by simpa using h
  simp only [Registry.Get, List.lookup, hb]

theorem Register_keeps (r : Registry) (s : Skill) (name : String)
    (h : (r.Get name).2 = true) : ((r.Register s).1.Get name).2 = true := by
  by_cases hn : (r.Get s.Name).2 = true
  · obtain ⟨old, ho⟩ := (Registry_Get_true_iff _ _).1 hn
    rw [Register_exists r s old ho]
    exact h
  · have hf := (Registry_Get_false_iff _ _).1 (by simpa using hn)
    rw [Register_fresh r s hf]
    by_cases e : name = s.Name
    · rw [e, Registry_Get_cons_self]
    · rw [Registry_Get_cons_other _ _ _ _ e]
      exact h

theorem registerAll_keeps (skills : List Skill) (r : Registry) (name : String)
    (h : (r.Get name).2 = true) : ((registerAll r skills).1.Get name).2 = true := by
  induction skills generalizing r with
  | nil => exact h
  | cons s rest ih =>
    unfold registerAll
    cases he : (r.Register s).2 with
    | some err => exact Register_keeps r s name h
    | none => exact ih _ (Register_keeps r s name h)

theorem registerAll_head (s : Skill) (rest : List Skill) (r : Registry)
    (h : (r.Get s.Name).2 = true) :
    registerAll r (s :: rest) = (r, some ("skill " ++ s.Name ++ " already registered")) := by
  obtain ⟨old, ho⟩ := (Registry_Get_true_iff _ _).1 h
  simp only [registerAll, Register_exists r s old ho]

theorem registerAll_ok_head (s : Skill) (rest : List Skill) (r : Registry)
    (h : (registerAll r (s :: rest)).2 = none) :
    ((registerAll r (s :: rest)).1.Get s.Name).2 = true := by
  unfold registerAll at h ⊢
  cases he : (r.Register s).2 with
  | some err => rw [he] at h; simp at h
  | none =>
    simp only [he] at h ⊢
    apply registerAll_keeps
    by_cases hn : (r.Get s.Name).2 = true
    · obtain ⟨old, ho⟩ := (Registry_Get_true_iff _ _).1 hn
      rw [Register_exists r s old ho] at he
      simp at he
    · have hf := (Registry_Get_false_iff _ _).1 (by simpa using hn)
      rw [Register_fresh r s hf, Registry_Get_cons_self]

/-! ## Checked properties: Chunker -/

/-- C1 as stated fails: a chunker with frame length 2 whose `onChunk` is nil
consumes the complete frame `[1, 2]` without handing it to anybody; the emitted
frames plus the retained buffer are empty, not the input. -/
theorem C1_counterexample_nil_callback :
    0 < chunkerNoCallback.bytesPerFrame ∧
    (chunkerNoCallback.feed 4 [[1, 2]]).status = Status.returned ∧
    (chunkerNoCallback.feed 4 [[1, 2]]).emitted.flatten
        ++ (chunkerNoCallback.feed 4 [[1, 2]]).chunker.buffer = [] ∧
    chunkerNoCallback.buffer ++ [[(1 : Byte), 2]].flatten = [1, 2] := by
  decide

/-- C1 (amended): for every chunker with a positive frame byte length and a
non-nil `onChunk`, and every finite sequence of payloads passed to `ProcessRTP`
in order, every call returns (given fuel for the bytes involved), and the
concatenation of all frames handed to `onChunk` followed by the buffer retained
after the last call equals the initial buffer followed by all payloads. -/
theorem C1_chunker_bytes_preserved (c : Chunker) (payloads : List (List Byte)) (fuel : Nat)
    (hpos : 0 < c.bytesPerFrame) (hcb : c.onChunk = true)
    (hfuel : c.buffer.length + payloads.flatten.length ≤ fuel) :
    (c.feed fuel payloads).status = Status.returned ∧
    (c.feed fuel payloads).emitted.flatten ++ (c.feed fuel payloads).chunker.buffer
      = c.buffer ++ payloads.flatten :=
  feed_concat fuel payloads c hpos hcb hfuel

/-- C1 witness: three payloads of 3, 0 and 2 bytes through a 2-byte chunker give
the frames `[1,2]`, `[3,4]` and the retained byte `[5]`. -/
theorem C1_chunker_bytes_preserved_witness :
    (chunkerTwoBytes.feed 5 [[1, 2, 3], [], [4, 5]]).emitted = [[1, 2], [3, 4]] ∧
    (chunkerTwoBytes.feed 5 [[1, 2, 3], [], [4, 5]]).chunker.buffer = [5] ∧
    ((chunkerTwoBytes.feed 5 [[1, 2, 3], [], [4, 5]]).status = Status.returned ∧
      (chunkerTwoBytes.feed 5 [[1, 2, 3], [], [4, 5]]).emitted.flatten
          ++ (chunkerTwoBytes.feed 5 [[1, 2, 3], [], [4, 5]]).chunker.buffer
        = chunkerTwoBytes.buffer ++ [[(1 : Byte), 2, 3], [], [4, 5]].flatten) :=
  ⟨by decide, by decide,
    C1_chunker_bytes_preserved chunkerTwoBytes [[1, 2, 3], [], [4, 5]] 5
      (by decide) (by decide) (by decide)⟩

/-- C2: every frame that `ProcessRTP` hands to `onChunk` has length exactly
`samplesPerFrame * 2` as Go computes that product (64-bit `int`), for every
chunker, payload and number of loop iterations run; when the product does not
overflow this is the mathematical `samplesPerFrame * 2`. -/
theorem C2_emitted_frame_length (c : Chunker) (payload : List Byte) (fuel : Nat)
    (f : List Byte) (hf : f ∈ (c.ProcessRTP fuel payload).emitted) :
    (f.length : Int) = wrapInt64 (c.samplesPerFrame * 2) ∧
    (-2 ^ 62 ≤ c.samplesPerFrame → c.samplesPerFrame < 2 ^ 62 →
      (f.length : Int) = c.samplesPerFrame * 2) := by
  have h := frameLoop_emitted_length c.bytesPerFrame c.onChunk fuel
    { buffer := c.buffer ++ payload, emitted := [], iterations := 0 } f hf
  have hlen : (f.length : Int) = wrapInt64 (c.samplesPerFrame * 2) := by
    rcases h with h | h
    · simp at h
    · exact h
  refine ⟨hlen, fun h1 h2 => ?_⟩
  rw [hlen]
  unfold wrapInt64
  omega

/-- C2 witness: the frame `[3, 4]` emitted by a 2-byte chunker. -/
theorem C2_emitted_frame_length_witness :
    [(3 : Byte), 4] ∈ (chunkerTwoBytes.ProcessRTP 5 [1, 2, 3, 4, 5]).emitted ∧
    ((([(3 : Byte), 4] : List Byte).length : Int) = wrapInt64 (chunkerTwoBytes.samplesPerFrame * 2) ∧
      (-2 ^ 62 ≤ chunkerTwoBytes.samplesPerFrame → chunkerTwoBytes.samplesPerFrame < 2 ^ 62 →
        (([(3 : Byte), 4] : List Byte).length : Int) = chunkerTwoBytes.samplesPerFrame * 2)) :=
  ⟨by decide, C2_emitted_frame_length chunkerTwoBytes [1, 2, 3, 4, 5] 5 [3, 4] (by decide)⟩

/-- C10, the failing input: `NewChunker(0, 20ms, cb)` builds a chunker with
`samplesPerFrame = 0`, and on it `ProcessRTP` never leaves its frame loop,
whatever the payload: after any number `fuel` of iterations the loop condition
`len(c.buffer) >= 0` still holds and the buffer is unchanged. -/
theorem C10_zero_frame_loop_never_returns (fuel : Nat) (payload : List Byte) :
    (∀ indefinite : Int, NewChunker indefinite 0 20000000 true = some chunkerZeroFrame) ∧
    chunkerZeroFrame.samplesPerFrame = 0 ∧
    (chunkerZeroFrame.ProcessRTP fuel payload).status = Status.running ∧
    (chunkerZeroFrame.ProcessRTP fuel payload).iterations = fuel ∧
    (chunkerZeroFrame.ProcessRTP fuel payload).chunker.buffer = payload := by
  refine ⟨fun indefinite => ?_, rfl, ?_⟩
  · rw [NewChunker_in_range indefinite 0 0 20000000 true (by decide!)]
    decide!
  obtain ⟨h1, h2, h3⟩ := frameLoop_zero_running true fuel
    { buffer := [] ++ payload, emitted := [], iterations := 0 }
  have hb : chunkerZeroFrame.bytesPerFrame = 0 := by decide
  simp only [Chunker.ProcessRTP, hb]
  refine ⟨h1, ?_, ?_⟩
  · exact h2.trans (by simp)
  · exact h3.trans (by simp)

/-! ## Checked properties: voice activity detection -/

/-- C3, the failing input: a detector built by `NewVAD(0.02, 300ms)` with both
callbacks set receives a loud frame at 0 ms, a silent frame at 20 ms, a loud
frame at 40 ms and a silent frame at 1000 ms.  The loud frame at 40 ms leaves
the silence timer of the interrupted run pending (`silenceStart` stays at
20 ms), and the silent frame at 1000 ms, the first frame of a new silence run,
ends speech at once: `isSpeaking` becomes false and `onSpeechEnd` fires. -/
theorem C3_interrupted_silence_ends_speech :
    vadFresh.feed [(0, loudFrame), (20000000, silentFrame), (40000000, loudFrame)]
      = some ({ vadFresh with isSpeaking := true, silenceStart := some 20000000 },
          [VADEvent.speechStart]) ∧
    vadFresh.feed [(0, loudFrame), (20000000, silentFrame), (40000000, loudFrame),
        (1000000000, silentFrame)]
      = some ({ vadFresh with isSpeaking := false, silenceStart := some 20000000 },
          [VADEvent.speechStart, VADEvent.speechEnd]) := by
  have h1 : vadFresh.Process 0 loudFrame = some
      { vad := { vadFresh with isSpeaking := true, silenceStart := none }, active := true,
        events := [VADEvent.speechStart] } :=
    Process_loud vadFresh 0 loudFrame loud_loudFrame
  have h2 : VAD.Process { vadFresh with isSpeaking := true, silenceStart := none } 20000000
      silentFrame = some
      { vad := { vadFresh with isSpeaking := true, silenceStart := some 20000000 },
        active := false, events := [] } :=
    Process_quiet { vadFresh with isSpeaking := true, silenceStart := none } 20000000 silentFrame
      quiet_silentFrame
  have h3 : VAD.Process { vadFresh with isSpeaking := true, silenceStart := some 20000000 }
      40000000 loudFrame = some
      { vad := { vadFresh with isSpeaking := true, silenceStart := some 20000000 },
        active := true, events := [] } :=
    Process_loud { vadFresh with isSpeaking := true, silenceStart := some 20000000 } 40000000
      loudFrame loud_loudFrame
  have h4 : VAD.Process { vadFresh with isSpeaking := true, silenceStart := some 20000000 }
      1000000000 silentFrame = some
      { vad := { vadFresh with isSpeaking := false, silenceStart := some 20000000 },
        active := false, events := [VADEvent.speechEnd] } :=
    Process_quiet { vadFresh with isSpeaking := true, silenceStart := some 20000000 } 1000000000
      silentFrame quiet_silentFrame
  constructor
  · rw [feed_cons, h1, Option.some_bind, feed_cons, h2, Option.some_bind, feed_cons, h3,
      Option.some_bind]
    rfl
  · rw [feed_cons, h1, Option.some_bind, feed_cons, h2, Option.some_bind, feed_cons, h3,
      Option.some_bind, feed_cons, h4, Option.some_bind]
    rfl

/-- C4 as stated fails: with threshold 0.02 and minSilenceDur 300 ms, fifteen
silent frames 20 ms apart, processed while speaking with no timer pending, fire
nothing and leave `IsSpeaking()` true: the fifteenth frame comes only 280 ms
after the first. -/
theorem C4_counterexample_fifteen_frames :
    vadSpeaking.feed (framesEvery 0 20000000 (fun _ => silentFrame) 15)
      = some ({ vadSpeaking with silenceStart := some 0 }, []) ∧
    VAD.IsSpeaking { vadSpeaking with silenceStart := some 0 } = true := by
  refine ⟨?_, rfl⟩
  refine feed_quiet_run vadSpeaking 0 20000000 (fun _ => silentFrame) 14 rfl rfl
    (fun _ _ => quiet_silentFrame) ?_
  intro k _ hk
  rw [timeSince_small 0 (20000000 * (k : Int)) (by omega) (by omega)]
  show ¬ (300000000 : Int) < 20000000 * (k : Int)
  omega

/-- C4 (amended): with minSilenceDur = 300 ms (and any threshold, 0.02 included),
for a detector that is speaking with no pending silence timer, consecutive
below-threshold frames whose clock readings are 20 ms apart fire nothing and
leave `IsSpeaking()` true up to and including the sixteenth frame; the
seventeenth frame, the first one more than 300 ms after the first, makes
`IsSpeaking()` false and fires `onSpeechEnd` exactly once when that callback is
set (nothing when it is nil). -/
theorem C4_speech_end_at_seventeenth_frame (v : VAD) (t0 : Int) (chunk : Nat → List Byte)
    (hdur : v.minSilenceDur = 300000000) (hsp : v.isSpeaking = true)
    (hst : v.silenceStart = none)
    (hq : ∀ k, k < 17 → quiet v.threshold (chunk k) = true) :
    (∀ n, n < 16 →
      v.feed (framesEvery t0 20000000 chunk (n + 1))
          = some ({ v with silenceStart := some t0 }, []) ∧
        VAD.IsSpeaking { v with silenceStart := some t0 } = true) ∧
    v.feed (framesEvery t0 20000000 chunk 17)
      = some ({ v with silenceStart := some t0, isSpeaking := false },
          if v.onSpeechEnd then [VADEvent.speechEnd] else []) ∧
    VAD.IsSpeaking { v with silenceStart := some t0, isSpeaking := false } = false := by
  have hwait : ∀ k : Nat, 1 ≤ k → k < 16 →
      ¬ v.minSilenceDur < timeSince (t0 + 20000000 * (k : Int)) t0 := by
    intro k _ hk
    rw [timeSince_small t0 (20000000 * (k : Int)) (by omega) (by omega), hdur]
    omega
  refine ⟨fun n hn => ⟨?_, hsp⟩, ?_, rfl⟩
  · exact feed_quiet_run v t0 20000000 chunk n hsp hst (fun k hk => hq k (by omega))
      (fun k h1 hk => hwait k h1 (by omega))
  · rw [framesEvery_succ, feed_append,
      feed_quiet_run v t0 20000000 chunk 15 hsp hst (fun k hk => hq k (by omega))
        (fun k h1 hk => hwait k h1 hk),
      Option.some_bind, feed_cons,
      Process_quiet { v with silenceStart := some t0 } (t0 + 20000000 * ((16 : Nat) : Int))
        (chunk 16) (hq 16 (by omega))]
    have hfire : v.minSilenceDur < timeSince (t0 + 20000000 * ((16 : Nat) : Int)) t0 := by
      rw [timeSince_small t0 _ (by norm_num) (by norm_num), hdur]
      norm_num
    simp only [hsp, if_true, hfire, Option.some_bind, VAD.feed, Option.map_some',
      List.append_nil, List.nil_append]

/-- C4 witness: the detector `vadSpeaking` (threshold 0.02, 300 ms, both
callbacks set) on seventeen silent frames starting at clock value 0. -/
theorem C4_speech_end_at_seventeenth_frame_witness :
    vadSpeaking.feed (framesEvery 0 20000000 (fun _ => silentFrame) 17)
      = some ({ vadSpeaking with silenceStart := some 0, isSpeaking := false },
          [VADEvent.speechEnd]) :=
  (C4_speech_end_at_seventeenth_frame vadSpeaking 0 (fun _ => silentFrame) rfl rfl rfl
    (fun _ _ => quiet_silentFrame)).2.1

/-- C5: for every detector that is speaking with no pending silence timer, a run
of below-threshold frames whose clock readings (after the first) all lie less
than minSilenceDur after the first frame of the run, followed by one
above-threshold frame, fires no callback at all and leaves `IsSpeaking()` true
(minSilenceDur being a Go `int64`, so at least `-2 ^ 63`). -/
theorem C5_short_silence_fires_nothing (v : VAD) (t1 : Int) (c1 : List Byte)
    (rest : List (Int × List Byte)) (tl : Int) (cl : List Byte)
    (hdur : -2 ^ 63 ≤ v.minSilenceDur)
    (hsp : v.isSpeaking = true) (hst : v.silenceStart = none)
    (hq1 : quiet v.threshold c1 = true)
    (hrest : ∀ p ∈ rest, quiet v.threshold p.2 = true ∧ p.1 - t1 < v.minSilenceDur)
    (hl : loud v.threshold cl = true) :
    ∃ v' : VAD, v.feed ((t1, c1) :: rest ++ [(tl, cl)]) = some (v', []) ∧
      v'.IsSpeaking = true := by
  obtain ⟨thr, m, ss, sp, cb1, cb2⟩ := v
  simp only at hdur hsp hst hq1 hrest hl
  subst hsp hst
  refine ⟨⟨thr, m, some t1, true, cb1, cb2⟩, ?_, rfl⟩
  rw [List.cons_append, feed_cons, Process_quiet ⟨thr, m, none, true, cb1, cb2⟩ t1 c1 hq1]
  simp only [if_true, Option.some_bind]
  rw [feed_append, feed_quiet_pending ⟨thr, m, some t1, true, cb1, cb2⟩ t1 rfl rfl rest
      (fun p hp => ⟨(hrest p hp).1, timeSince_not_gt p.1 t1 m hdur (hrest p hp).2⟩),
    Option.some_bind, feed_cons,
    Process_loud ⟨thr, m, some t1, true, cb1, cb2⟩ tl cl hl]
  rfl

/-- C5 witness: threshold 0.02, minSilenceDur 300 ms, fourteen silent frames
20 ms apart (at 0, 20, ..., 260 ms), then one loud frame at 280 ms. -/
theorem C5_short_silence_fires_nothing_witness :
    ∃ v' : VAD,
      vadSpeaking.feed ((0, silentFrame) ::
          (List.range 13).map (fun (k : Nat) => (20000000 * ((k : Int) + 1), silentFrame))
            ++ [(280000000, loudFrame)]) = some (v', []) ∧
      v'.IsSpeaking = true :=
  C5_short_silence_fires_nothing vadSpeaking 0 silentFrame
    ((List.range 13).map (fun (k : Nat) => (20000000 * ((k : Int) + 1), silentFrame)))
    280000000 loudFrame (by decide) rfl rfl quiet_silentFrame
    (by
      intro p hp
      obtain ⟨k, hk, rfl⟩ := List.mem_map.mp hp
      have hk' : k < 13 := List.mem_range.mp hk
      refine ⟨quiet_silentFrame, ?_⟩
      show 20000000 * ((k : Int) + 1) - 0 < 300000000
      omega)
    loud_loudFrame

/-- C6 as stated fails: a detector as `NewVAD` builds it has no callbacks; on its
first loud frame it starts speaking but `onSpeechStart` is invoked zero times. -/
theorem C6_counterexample_nil_callback :
    (NewVAD threshold002 300000000).isSpeaking = false ∧
    loud (NewVAD threshold002 300000000).threshold loudFrame = true ∧
    (NewVAD threshold002 300000000).Process 0 loudFrame
      = some { vad := { NewVAD threshold002 300000000 with isSpeaking := true }
               active := true
               events := [] } :=
  ⟨rfl, loud_loudFrame, Process_loud (NewVAD threshold002 300000000) 0 loudFrame loud_loudFrame⟩

/-- C6 (amended): for every detector and every frame whose energy exceeds the
threshold, `Process` returns true and leaves `isSpeaking` true.  If
`isSpeaking` was false, the call clears `silenceStart` and invokes
`onSpeechStart` exactly once when that callback is set, and invokes nothing
when it is nil; if `isSpeaking` was already true, the call invokes
`onSpeechStart` zero times. -/
theorem C6_speech_start (v : VAD) (now : Int) (chunk : List Byte)
    (hl : loud v.threshold chunk = true) :
    ∃ r : VADResult, v.Process now chunk = some r ∧ r.active = true ∧
      r.vad.isSpeaking = true ∧
      (v.isSpeaking = false →
        r.vad.silenceStart = none ∧
        r.events = (if v.onSpeechStart then [VADEvent.speechStart] else []) ∧
        r.events.count VADEvent.speechStart = (if v.onSpeechStart then 1 else 0)) ∧
      (v.isSpeaking = true → r.events.count VADEvent.speechStart = 0) := by
  refine ⟨_, Process_loud v now chunk hl, ?_⟩
  cases hs : v.isSpeaking
  · cases hc : v.onSpeechStart <;> simp
  · simpa using hs

/-- C6 witness: the detector `vadFresh` (callbacks set, not speaking) on a loud
frame. -/
theorem C6_speech_start_witness :
    ∃ r : VADResult, vadFresh.Process 0 loudFrame = some r ∧ r.active = true ∧
      r.vad.isSpeaking = true ∧
      (vadFresh.isSpeaking = false →
        r.vad.silenceStart = none ∧
        r.events = (if vadFresh.onSpeechStart then [VADEvent.speechStart] else []) ∧
        r.events.count VADEvent.speechStart = (if vadFresh.onSpeechStart then 1 else 0)) ∧
      (vadFresh.isSpeaking = true → r.events.count VADEvent.speechStart = 0) :=
  C6_speech_start vadFresh 0 loudFrame loud_loudFrame

/-- C7: for every detector state, clock value and frame, `Process` returns, and
it returns true if and only if the energy `calculateEnergy` computes for the
frame is strictly greater than the threshold, whatever `isSpeaking` and the
silence timer are. -/
theorem C7_process_returns_classification (v : VAD) (now : Int) (chunk : List Byte) :
    ∃ (energy : ℚ) (r : VADResult), calculateEnergy chunk = some energy ∧
      v.Process now chunk = some r ∧ (r.active = true ↔ v.threshold < energy) := by
  obtain ⟨energy, he⟩ := calculateEnergy_some chunk
  refine ⟨energy, v.classify now energy, he, by simp [VAD.Process, he], ?_⟩
  unfold VAD.classify
  by_cases h : v.threshold < energy
  · cases hs : v.isSpeaking <;> simp [h]
  · cases hs : v.isSpeaking
    · simp [h]
    · cases hst : v.silenceStart with
      | none => simp [h]
      | some t => by_cases hd : v.minSilenceDur < timeSince now t <;> simp [h, hd]

/-! ## Checked properties: numeric claims -/

/-- C8: for every byte slice, `calculateEnergy` returns (no index or slice
expression panics) a value in `[0, 1]`; the value is 0 when the slice has fewer
than two bytes; otherwise it is the `float64` square root of the `float64` mean
of `(s / 32768) ^ 2` over the `len / 2` signed 16-bit little-endian samples of
the slice (a trailing odd byte ignored), and for a slice whose length fits a Go
`int` its square is the exact mean up to a factor `(1 ± 2^-53) ^ (len / 2 + 6)`,
the accumulated rounding of the `float64` operations. -/
theorem C8_calculateEnergy_rms (pcm : List Byte) :
    ∃ energy : ℚ, calculateEnergy pcm = some energy ∧ 0 ≤ energy ∧ energy ≤ 1 ∧
      (pcm.length < 2 → energy = 0) ∧
      (2 ≤ pcm.length →
        (specSamples pcm).length = pcm.length / 2 ∧
        energy = f64Sqrt (f64Div ((specSamples pcm).foldl sumStep 0)
          (f64OfInt ((pcm.length / 2 : Nat) : Int))) ∧
        (pcm.length < 2 ^ 63 →
          specMeanSquare (specSamples pcm) * (1 - f64Eps) ^ (pcm.length / 2 + 6) ≤ energy ^ 2 ∧
          energy ^ 2 ≤ specMeanSquare (specSamples pcm) * (1 + f64Eps) ^ (pcm.length / 2 + 6))) := by
  rcases lt_or_le pcm.length 2 with hlt | hge
  · refine ⟨0, by simp [calculateEnergy, hlt], le_rfl, zero_le_one, fun _ => rfl, fun h => ?_⟩
    omega
  · have hlen := samplesLE_length pcm.length pcm rfl
    have hn : 1 ≤ (specSamples pcm).length := by rw [hlen]; omega
    obtain ⟨h0, h1, herr⟩ := energy_of_samples (specSamples pcm) (samplesLE_range pcm) hn
    rw [hlen] at h0 h1 herr
    refine ⟨_, calculateEnergy_eq pcm hge, h0, h1, fun h => ?_, fun _ => ⟨hlen, rfl, fun h63 => ?_⟩⟩
    · omega
    · exact herr (by omega)

/-- C8 witness: a five byte slice holding the samples `0x4040` and `-32768` and
one trailing byte. -/
theorem C8_calculateEnergy_rms_witness :
    specSamples [0x40, 0x40, 0x00, 0x80, 0x07] = [16448, -32768] ∧
    ∃ energy : ℚ, calculateEnergy [0x40, 0x40, 0x00, 0x80, 0x07] = some energy ∧
      0 ≤ energy ∧ energy ≤ 1 ∧
      specMeanSquare [16448, -32768] * (1 - f64Eps) ^ 8 ≤ energy ^ 2 ∧
      energy ^ 2 ≤ specMeanSquare [16448, -32768] * (1 + f64Eps) ^ 8 := by
  refine ⟨by decide, ?_⟩
  obtain ⟨energy, h1, h2, h3, -, h5⟩ := C8_calculateEnergy_rms [0x40, 0x40, 0x00, 0x80, 0x07]
  obtain ⟨-, -, h6⟩ := h5 (by decide)
  exact ⟨energy, h1, h2, h3, h6 (by decide)⟩

/-- C9 as stated fails: at 11025 Hz a 30 ms frame has 330.75 samples; the
specification's rounding gives 331, `NewChunker` stores 330, whatever the
implementation does with out-of-range conversions.  And for the greatest `int`
as sample rate with a frame of one second the product is `2 ^ 63`, out of the
range of `int`: on amd64 the conversion gives `-2 ^ 63`, which `NewChunker`
stores, where rounding gives `2 ^ 63 - 1`. -/
theorem C9_counterexample_truncation :
    (∀ indefinite : Int, NewChunker indefinite 11025 30000000 true
      = some { sampleRate := 11025, frameDuration := 30000000, samplesPerFrame := 330,
               buffer := [], onChunk := true }) ∧
    specSamplesPerFrame 11025 30000000 = 331 ∧
    NewChunker (-2 ^ 63) (2 ^ 63 - 1) 1000000000 true
      = some { sampleRate := 2 ^ 63 - 1, frameDuration := 1000000000,
               samplesPerFrame := -2 ^ 63, buffer := [], onChunk := true } ∧
    specSamplesPerFrame (2 ^ 63 - 1) 1000000000 = 2 ^ 63 - 1 := by
  refine ⟨fun indefinite => ?_, by decide!, by decide!, by decide!⟩
  rw [NewChunker_in_range indefinite 0 11025 30000000 true (by decide!)]
  decide!

/-- C9 (amended): whenever `NewChunker` returns a chunker and the `float64`
product `float64(sampleRate) * frameDuration.Seconds()`, truncated toward zero,
is in the range of `int`, samplesPerFrame is that truncated product (not the
rounded one), and the frame byte length used by `ProcessRTP` is the Go value of
`samplesPerFrame * 2`, which is not negative; 16000 Hz with 20 ms gives 320
samples (640 bytes) and 48000 Hz with 20 ms gives 960 samples (1920 bytes).
When the truncated product is out of the range of `int`, samplesPerFrame is
the value the implementation gives to the conversion. -/
theorem C9_samples_per_frame_truncated (indefinite sampleRate frameDuration : Int)
    (onChunk : Bool) (c : Chunker)
    (hrange : -2 ^ 63 ≤ f64Trunc (f64Mul (f64OfInt sampleRate) (durationSeconds frameDuration))
      ∧ f64Trunc (f64Mul (f64OfInt sampleRate) (durationSeconds frameDuration)) < 2 ^ 63)
    (h : NewChunker indefinite sampleRate frameDuration onChunk = some c) :
    ((0 ≤ f64Mul (f64OfInt sampleRate) (durationSeconds frameDuration) →
        (c.samplesPerFrame : ℚ) ≤ f64Mul (f64OfInt sampleRate) (durationSeconds frameDuration) ∧
        f64Mul (f64OfInt sampleRate) (durationSeconds frameDuration)
          < (c.samplesPerFrame : ℚ) + 1) ∧
      (f64Mul (f64OfInt sampleRate) (durationSeconds frameDuration) < 0 →
        (c.samplesPerFrame : ℚ) - 1
          < f64Mul (f64OfInt sampleRate) (durationSeconds frameDuration) ∧
        f64Mul (f64OfInt sampleRate) (durationSeconds frameDuration)
          ≤ (c.samplesPerFrame : ℚ))) ∧
    c.bytesPerFrame = wrapInt64 (c.samplesPerFrame * 2) ∧ 0 ≤ c.bytesPerFrame ∧
    (∃ c16 : Chunker, NewChunker indefinite 16000 20000000 onChunk = some c16 ∧
      c16.samplesPerFrame = 320 ∧ c16.bytesPerFrame = 640) ∧
    (∃ c48 : Chunker, NewChunker indefinite 48000 20000000 onChunk = some c48 ∧
      c48.samplesPerFrame = 960 ∧ c48.bytesPerFrame = 1920) ∧
    (∀ (sr d : Int) (c' : Chunker),
      ¬ (-2 ^ 63 ≤ f64Trunc (f64Mul (f64OfInt sr) (durationSeconds d))
        ∧ f64Trunc (f64Mul (f64OfInt sr) (durationSeconds d)) < 2 ^ 63) →
      NewChunker indefinite sr d onChunk = some c' →
      c'.samplesPerFrame = wrapInt64 indefinite) := by
  obtain ⟨h1, h2, -⟩ := NewChunker_some indefinite sampleRate frameDuration onChunk c h
  rw [f64ToInt_in_range indefinite _ hrange] at h1
  obtain ⟨t1, t2⟩ := f64Trunc_bounds (f64Mul (f64OfInt sampleRate) (durationSeconds frameDuration))
  rw [← h1] at t1 t2
  refine ⟨⟨t1, t2⟩, rfl, h2, ?_, ?_, fun sr d c' hout h' => ?_⟩
  · refine ⟨{ sampleRate := 16000, frameDuration := 20000000, samplesPerFrame := 320,
              buffer := [], onChunk := onChunk }, ?_, rfl, ?_⟩
    · rw [NewChunker_in_range indefinite 0 16000 20000000 onChunk (by decide!)]
      cases onChunk <;> decide!
    · cases onChunk <;> decide!
  · refine ⟨{ sampleRate := 48000, frameDuration := 20000000, samplesPerFrame := 960,
              buffer := [], onChunk := onChunk }, ?_, rfl, ?_⟩
    · rw [NewChunker_in_range indefinite 0 48000 20000000 onChunk (by decide!)]
      cases onChunk <;> decide!
    · cases onChunk <;> decide!
  · obtain ⟨e1, -⟩ := NewChunker_some indefinite sr d onChunk c' h'
    rw [e1, f64ToInt_out_of_range indefinite _ hout]

/-- C9 witness: the chunker for 16000 Hz and 20 ms frames, on an implementation
that gives `-2 ^ 63` to out-of-range conversions. -/
theorem C9_samples_per_frame_truncated_witness :
    NewChunker (-2 ^ 63) 16000 20000000 true = some chunker16k ∧
    chunker16k.samplesPerFrame = 320 ∧
    chunker16k.bytesPerFrame = wrapInt64 (320 * 2) ∧ 0 ≤ chunker16k.bytesPerFrame :=
  ⟨by decide!, rfl,
    (C9_samples_per_frame_truncated (-2 ^ 63) 16000 20000000 true chunker16k (by decide!)
      (by decide!)).2.1,
    (C9_samples_per_frame_truncated (-2 ^ 63) 16000 20000000 true chunker16k (by decide!)
      (by decide!)).2.2.1⟩

/-! ## Checked properties: Chunker, continued -/

/-- C11: for every chunker whose retained buffer is shorter than one frame,
`ProcessRTP` with a zero-length payload returns at once (whatever the fuel),
emits no frame, leaves the chunker and its retained buffer unchanged and
returns the error nil; and for every payload it returns, with the error nil,
given fuel for the bytes involved. -/
theorem C11_empty_payload_is_no_error (c : Chunker) (fuel : Nat)
    (hshort : (c.buffer.length : Int) < c.bytesPerFrame) :
    (c.ProcessRTP fuel []).status = Status.returned ∧
    (c.ProcessRTP fuel []).emitted = [] ∧
    (c.ProcessRTP fuel []).iterations = 0 ∧
    (c.ProcessRTP fuel []).chunker = c ∧
    (c.ProcessRTP fuel []).err = some GoError.nil ∧
    (∀ payload : List Byte, c.buffer.length + payload.length ≤ fuel →
      (c.ProcessRTP fuel payload).status = Status.returned ∧
      (c.ProcessRTP fuel payload).err = some GoError.nil) := by
  have hloop : frameLoop c.bytesPerFrame c.onChunk fuel
      { buffer := c.buffer ++ [], emitted := [], iterations := 0 }
      = (Status.returned, { buffer := c.buffer ++ [], emitted := [], iterations := 0 }) :=
    frameLoop_below _ _ _ _ (by simpa using hshort)
  have hpos : 0 < c.bytesPerFrame := lt_of_le_of_lt (Int.natCast_nonneg _) hshort
  refine ⟨?_, ?_, ?_, ?_, ?_, fun payload hfuel => ?_⟩
  · simp only [Chunker.ProcessRTP, hloop]
  · simp only [Chunker.ProcessRTP, hloop]
  · simp only [Chunker.ProcessRTP, hloop]
  · have hl : frameLoop c.bytesPerFrame c.onChunk fuel
        { buffer := c.buffer, emitted := [], iterations := 0 }
        = (Status.returned, { buffer := c.buffer, emitted := [], iterations := 0 }) :=
      frameLoop_below _ _ _ _ hshort
    simp only [Chunker.ProcessRTP, List.append_nil, hl]
  · simp only [RTPResult.err, Chunker.ProcessRTP, hloop]
  · have h := (ProcessRTP_returns c payload fuel hpos hfuel).1
    exact ⟨h, by simp only [RTPResult.err, h]⟩

/-- C11 witness: a 2-byte chunker holding one byte, given an empty payload. -/
theorem C11_empty_payload_is_no_error_witness :
    (chunkerOneByte.ProcessRTP 0 []).emitted = [] ∧
    (chunkerOneByte.ProcessRTP 0 []).chunker.buffer = [9] ∧
    (chunkerOneByte.ProcessRTP 0 []).err = some GoError.nil :=
  ⟨(C11_empty_payload_is_no_error chunkerOneByte 0 (by decide)).2.1,
    congrArg Chunker.buffer (C11_empty_payload_is_no_error chunkerOneByte 0 (by decide)).2.2.2.1,
    (C11_empty_payload_is_no_error chunkerOneByte 0 (by decide)).2.2.2.2.1⟩

/-- C20 as stated fails: a chunker with frame length 2 and a nil `onChunk`,
given the payload `[1, 2]`, runs its loop once but emits no frame, where
`floor((0 + 2) / 2) = 1`. -/
theorem C20_counterexample_nil_callback :
    0 < chunkerNoCallback.bytesPerFrame ∧
    (chunkerNoCallback.buffer.length : Int) < chunkerNoCallback.bytesPerFrame ∧
    (chunkerNoCallback.ProcessRTP 4 [1, 2]).status = Status.returned ∧
    (chunkerNoCallback.ProcessRTP 4 [1, 2]).emitted.length = 0 ∧
    (chunkerNoCallback.buffer.length + ([1, 2] : List Byte).length)
      / chunkerNoCallback.bytesPerFrame.toNat = 1 := by
  decide

/-- C20 (amended): for every chunker with frame byte length `B > 0` whose
retained buffer `b` is shorter than `B`, and every payload `p`, `ProcessRTP`
returns after `floor((len b + len p) / B)` loop iterations, hands that many
frames to `onChunk` when the callback is non-nil (none when it is nil), and
leaves a retained buffer of length `(len b + len p) mod B`, again shorter than
`B`; so "retained buffer shorter than one frame" holds after every sequence of
calls, and it holds for the empty buffer of every chunker of `NewChunker` with
`B > 0`. -/
theorem C20_frame_count_and_remainder (c : Chunker) (payload : List Byte) (fuel : Nat)
    (hpos : 0 < c.bytesPerFrame) (hshort : (c.buffer.length : Int) < c.bytesPerFrame)
    (hfuel : c.buffer.length + payload.length ≤ fuel) :
    (c.ProcessRTP fuel payload).status = Status.returned ∧
    (c.ProcessRTP fuel payload).iterations
      = (c.buffer.length + payload.length) / c.bytesPerFrame.toNat ∧
    (c.ProcessRTP fuel payload).emitted.length
      = (if c.onChunk then (c.buffer.length + payload.length) / c.bytesPerFrame.toNat else 0) ∧
    (c.ProcessRTP fuel payload).chunker.buffer.length
      = (c.buffer.length + payload.length) % c.bytesPerFrame.toNat ∧
    ((c.ProcessRTP fuel payload).chunker.buffer.length : Int)
      < (c.ProcessRTP fuel payload).chunker.bytesPerFrame ∧
    (∀ (payloads : List (List Byte)) (fuel' : Nat),
      c.buffer.length + payloads.flatten.length ≤ fuel' →
      (c.feed fuel' payloads).status = Status.returned ∧
      ((c.feed fuel' payloads).chunker.buffer.length : Int) < c.bytesPerFrame) ∧
    (∀ (indefinite sampleRate frameDuration : Int) (cb : Bool) (c0 : Chunker),
      NewChunker indefinite sampleRate frameDuration cb = some c0 → 0 < c0.bytesPerFrame →
      (c0.buffer.length : Int) < c0.bytesPerFrame) := by
  have hs : ({ buffer := c.buffer ++ payload, emitted := [], iterations := 0 } :
      LoopState).buffer.length ≤ fuel := by simpa using hfuel
  obtain ⟨h1, h2, h3, h4, -, h6⟩ := frameLoop_trace c.bytesPerFrame c.onChunk hpos fuel _ hs
  simp only [List.length_append] at h3 h4 h6
  have hcast : ((c.bytesPerFrame.toNat : Nat) : Int) = c.bytesPerFrame :=
    Int.toNat_of_nonneg hpos.le
  refine ⟨h1, ?_, ?_, h3, ?_, fun payloads fuel' hf => ?_, fun i sr d cb c0 h0 hp => ?_⟩
  · exact h4.trans (by simp)
  · cases hcb : c.onChunk
    · have := frameLoop_no_callback c.bytesPerFrame fuel
        { buffer := c.buffer ++ payload, emitted := [], iterations := 0 }
      simp only [Chunker.ProcessRTP, hcb, this, List.length_nil]
      rfl
    · have := h6 hcb
      simp only [List.length_nil, zero_add] at this
      simp only [if_true]
      exact this
  · show ((frameLoop _ _ _ _).2.buffer.length : Int) < c.bytesPerFrame
    have : ((frameLoop c.bytesPerFrame c.onChunk fuel
        { buffer := c.buffer ++ payload, emitted := [], iterations := 0 }).2.buffer.length : Int)
        < ((c.bytesPerFrame.toNat : Nat) : Int) := by exact_mod_cast h2
    rwa [hcast] at this
  · rcases feed_invariant fuel' payloads c hpos hf with h | h
    · exact h
    · subst h
      exact ⟨rfl, hshort⟩
  · obtain ⟨-, -, hb, -⟩ := NewChunker_some i sr d cb c0 h0
    rw [hb]
    exact hp

/-- C20 witness: a 2-byte chunker holding one byte, given four more bytes, emits
two frames and retains one byte. -/
theorem C20_frame_count_and_remainder_witness :
    (chunkerOneByte.ProcessRTP 5 [1, 2, 3, 4]).emitted = [[9, 1], [2, 3]] ∧
    (chunkerOneByte.ProcessRTP 5 [1, 2, 3, 4]).chunker.buffer = [4] ∧
    (chunkerOneByte.ProcessRTP 5 [1, 2, 3, 4]).iterations
      = (chunkerOneByte.buffer.length + ([1, 2, 3, 4] : List Byte).length)
        / chunkerOneByte.bytesPerFrame.toNat :=
  ⟨by decide, by decide,
    (C20_frame_count_and_remainder chunkerOneByte [1, 2, 3, 4] 5 (by decide) (by decide)
      (by decide)).2.1⟩

/-! ## Checked properties: sessions and the WebRTC handler -/

/-- C12 as stated fails: `UpdateState(StateConnected)` on a session in
`Disconnected` leaves it in `Connected`; and in the handler, a transport that
reports `Disconnected` and then `Connected` again leaves the session, already
removed from the registry, in `Connected`. -/
theorem C12_counterexample_leaves_disconnected :
    sessionDisconnected.State = StateDisconnected ∧
    (sessionDisconnected.UpdateState StateConnected 30).State = StateConnected ∧
    StateConnected ≠ StateDisconnected ∧
    (handleEvents 0 worldOneSession
        [(PeerEvent.transportClosed, 20), (PeerEvent.transportConnected, 30)]).map
      (fun w => (w.stateOf 0, w.manager.Get "a"))
      = some (some StateConnected, (none, false)) := by
  decide

/-- C12 (amended): for every session, state `s` and clock value,
`UpdateState(s)` sets the state to `s` whatever the state was, sets UpdatedAt
to the clock value and leaves ID and CreatedAt alone; so a session in
`Disconnected` is still in `Disconnected` afterwards exactly when `s` is
`Disconnected`. -/
theorem C12_update_state_sets_state (sess : Session) (s : State) (now : Int) :
    (sess.UpdateState s now).GetState = s ∧ (sess.UpdateState s now).UpdatedAt = now ∧
    (sess.UpdateState s now).ID = sess.ID ∧
    (sess.UpdateState s now).CreatedAt = sess.CreatedAt ∧
    (sess.GetState = StateDisconnected →
      ((sess.UpdateState s now).GetState = StateDisconnected ↔ s = StateDisconnected)) :=
  ⟨rfl, rfl, rfl, rfl, fun _ => Iff.rfl⟩

/-- C12 witness: a disconnected session stays disconnected under
`UpdateState(StateDisconnected)`. -/
theorem C12_update_state_sets_state_witness :
    sessionDisconnected.GetState = StateDisconnected ∧
    (sessionDisconnected.UpdateState StateDisconnected 30).GetState = StateDisconnected :=
  ⟨rfl, ((C12_update_state_sets_state sessionDisconnected StateDisconnected 30).2.2.2.2 rfl).mpr
    rfl⟩

/-- C13, the failing input: after `HandleOffer` created a session, the remote
track starts and then ends (EOF or read error) while the transport stays up.
The deferred function of the track goroutine sets `StateDisconnected` and
nothing deletes the session: it is in `Disconnected` and `Get` still finds it. -/
theorem C13_track_end_leaves_session_registered :
    worldOneSession.manager.Get "a" = (some 0, true) ∧
    (handleEvents 0 worldOneSession
        [(PeerEvent.transportConnected, 15), (PeerEvent.trackStarted, 20),
         (PeerEvent.trackEnded, 30)]).map
      (fun w => (w.stateOf 0, w.manager.Get "a"))
      = some (some StateDisconnected, (some 0, true)) := by
  decide

/-- C14: for every manager and every session object, handling the
transport-disconnect event (`UpdateState(StateDisconnected)`, then
`Delete(sess.ID)`) succeeds, and handling it a second time succeeds too and
gives the same session state `Disconnected` and the same registry: the ID of
the session is absent and the lookup of every other ID is as before the first
event. -/
theorem C14_disconnect_twice (w : SessionWorld) (sess : SessionPtr) (s : Session)
    (now1 now2 : Int) (h : w.heap[sess]? = some s) :
    ∃ w1 w2 : SessionWorld,
      handleEvent w sess PeerEvent.transportClosed now1 = some w1 ∧
      handleEvent w1 sess PeerEvent.transportClosed now2 = some w2 ∧
      w1.stateOf sess = some StateDisconnected ∧ w2.stateOf sess = some StateDisconnected ∧
      w2.manager = w1.manager ∧
      w1.manager.Get s.ID = (none, false) ∧
      (∀ id : String, id ≠ s.ID → w1.manager.Get id = w.manager.Get id) := by
  have h1 : (w.heap.set sess (s.UpdateState StateDisconnected now1))[sess]?
      = some (s.UpdateState StateDisconnected now1) := getElem?_set_self _ _ _ _ h
  have h2 : ((w.heap.set sess (s.UpdateState StateDisconnected now1)).set sess
      ((s.UpdateState StateDisconnected now1).UpdateState StateDisconnected now2))[sess]?
      = some ((s.UpdateState StateDisconnected now1).UpdateState StateDisconnected now2) :=
    getElem?_set_self _ _ _ _ h1
  refine ⟨{ heap := w.heap.set sess (s.UpdateState StateDisconnected now1)
            manager := w.manager.Delete s.ID },
    { heap := (w.heap.set sess (s.UpdateState StateDisconnected now1)).set sess
        ((s.UpdateState StateDisconnected now1).UpdateState StateDisconnected now2)
      manager := (w.manager.Delete s.ID).Delete s.ID }, ?_, ?_, ?_, ?_, ?_, ?_, ?_⟩
  · simp only [handleEvent, updateState_some w sess s _ _ h, Option.some_bind, h1,
      Option.map_some']
    rfl
  · have h1' : ({ heap := w.heap.set sess (s.UpdateState StateDisconnected now1)
                  manager := w.manager.Delete s.ID } : SessionWorld).heap[sess]?
        = some (s.UpdateState StateDisconnected now1) := h1
    simp only [handleEvent, updateState_some _ sess _ _ _ h1', Option.some_bind, h2,
      Option.map_some']
    rfl
  · simp only [SessionWorld.stateOf, h1, Option.map_some']; rfl
  · simp only [SessionWorld.stateOf, h2, Option.map_some']; rfl
  · simp only [Delete_Delete]
  · exact Get_Delete_self _ _
  · intro id hid
    exact Get_Delete_other _ _ _ hid

/-- C14 witness: the transport of the only session disconnects twice. -/
theorem C14_disconnect_twice_witness :
    ∃ w1 w2 : SessionWorld,
      handleEvent worldOneSession 0 PeerEvent.transportClosed 20 = some w1 ∧
      handleEvent w1 0 PeerEvent.transportClosed 30 = some w2 ∧
      w1.stateOf 0 = some StateDisconnected ∧ w2.stateOf 0 = some StateDisconnected ∧
      w2.manager = w1.manager ∧
      w1.manager.Get "a" = (none, false) ∧
      (∀ id : String, id ≠ "a" → w1.manager.Get id = worldOneSession.manager.Get id) :=
  C14_disconnect_twice worldOneSession 0
    { ID := "a", CreatedAt := 10, UpdatedAt := 11, State := StateNew } 20 30 (by decide)

/-- C15: for every manager, `Create()` allocates a session object in state
`New` with CreatedAt and UpdatedAt set to the clock readings and its ID set to
the drawn identifier, and an immediately following `Get` with that ID reports
found and returns the pointer `Create` returned; the objects that existed
before and the lookups of the other IDs are untouched. -/
theorem C15_create_then_get (w : SessionWorld) (uuid : String) (now1 now2 : Int) :
    (w.Create uuid now1 now2).1.heap[(w.Create uuid now1 now2).2]?
      = some { ID := uuid, CreatedAt := now1, UpdatedAt := now2, State := StateNew } ∧
    (w.Create uuid now1 now2).1.stateOf (w.Create uuid now1 now2).2 = some StateNew ∧
    (w.Create uuid now1 now2).1.manager.Get uuid = (some (w.Create uuid now1 now2).2, true) ∧
    (∀ p : SessionPtr, p < w.heap.length →
      (w.Create uuid now1 now2).1.heap[p]? = w.heap[p]?) ∧
    (∀ id : String, id ≠ uuid →
      (w.Create uuid now1 now2).1.manager.Get id = w.manager.Get id) := by
  refine ⟨?_, ?_, ?_, fun p hp => ?_, fun id hid => ?_⟩
  · simp [SessionWorld.Create]
  · simp [SessionWorld.stateOf, SessionWorld.Create, Session.GetState]
  · simp [SessionWorld.Create, Manager.Get, List.lookup]
  · simp [SessionWorld.Create, List.getElem?_append_left hp]
  · have hne : (id == uuid) = false := by simpa using hid
    simp only [SessionWorld.Create, Manager.Get, List.lookup, hne,
      lookup_filter_other uuid id hid]

/-- C15 witness: a second `Create()` in a world that already has a session. -/
theorem C15_create_then_get_witness :
    (worldOneSession.Create "b" 40 41).2 = 1 ∧
    (worldOneSession.Create "b" 40 41).1.manager.Get "b" = (some 1, true) ∧
    (worldOneSession.Create "b" 40 41).1.manager.Get "a" = (some 0, true) :=
  ⟨rfl, (C15_create_then_get worldOneSession "b" 40 41).2.2.1,
    ((C15_create_then_get worldOneSession "b" 40 41).2.2.2.2 "a" (by decide)).trans
      (by decide)⟩

/-- C16: for every manager and every id, after `Delete(id)` a `Get(id)` reports
not-found and the lookup of every other id is unchanged; `Delete` of an id
that is not registered leaves the registry unchanged; `Delete(id)` applied
twice equals `Delete(id)` applied once.  `Delete` has no error result and no
failing path. -/
theorem C16_delete_then_get (m : Manager) (id : String) :
    (m.Delete id).Get id = (none, false) ∧
    (∀ id' : String, id' ≠ id → (m.Delete id).Get id' = m.Get id') ∧
    (m.Get id = (none, false) → m.Delete id = m) ∧
    (m.Delete id).Delete id = m.Delete id := by
  refine ⟨Get_Delete_self m id, fun id' h => Get_Delete_other m id id' h, fun h => ?_,
    Delete_Delete m id⟩
  have := filter_of_lookup_none id m.sessions ((Get_none_iff m id).mp h)
  cases m
  simp only [Manager.Delete] at this ⊢
  rw [this]

/-- C16 witness: deleting `"a"`, and deleting the unregistered `"c"`, from a
manager holding `"a"` and `"b"`. -/
theorem C16_delete_then_get_witness :
    (managerTwo.Delete "a").Get "a" = (none, false) ∧
    (managerTwo.Delete "a").Get "b" = (some 1, true) ∧
    managerTwo.Delete "c" = managerTwo :=
  ⟨(C16_delete_then_get managerTwo "a").1,
    ((C16_delete_then_get managerTwo "a").2.1 "b" (by decide)).trans (by decide),
    (C16_delete_then_get managerTwo "c").2.2.1 (by decide)⟩
/-! ## Checked properties: FanOut -/

/-- C17: in a run of `FanOut` that completes, for a destination listed once that
starts as an open, empty channel of capacity `C` (with `w` receivers already
blocked on it): the frames it receives form an order-preserving subsequence of
the input, and every input frame is either received or dropped with a warning.
If the destination has room, or a blocked receiver, whenever a frame arrives,
it receives every input frame in the original order and nothing is dropped;
this is so in particular when its consumers receive before every channel
operation of `FanOut`, whatever `C` is.  A send to an open channel with room or
a blocked receiver is always taken.  If the destination is never drained
(`w = 0` and no receive during the run) it ends up holding exactly the first
`C` input frames, at most `C`, the other `len - C` frames dropped with a
warning each. -/
theorem C17_fanout_bounded_delivery (sched : Nat → List Nat) (chans : Chans)
    (outs : List (Option Nat)) (input : List (List Byte)) (d C w : Nat) (st : FanOutState)
    (hd : outs.count (some d) = 1)
    (hfresh : chans d = (⟨C, [], [], w, false⟩ : Chan))
    (hrun : FanOut sched chans outs input = some st) :
    (st.chans d).accepted.Sublist input ∧
    (st.chans d).accepted.length + st.drops.count (some d) = input.length ∧
    (Chan.readyAtSends (chans d, 0) (localSendAll d sched outs 0 input) = true →
      (st.chans d).accepted = input ∧ st.drops.count (some d) = 0) ∧
    ((∀ t, d ∈ sched t) →
      Chan.readyAtSends (chans d, 0) (localSendAll d sched outs 0 input) = true ∧
      (st.chans d).accepted = input ∧ st.drops.count (some d) = 0) ∧
    (∀ (c : Chan) (frame : List Byte), c.closed = false → c.Good → c.ready = true →
      ∃ c', c.trySend frame = some (c', true) ∧ c'.accepted = c.accepted ++ [frame]) ∧
    (w = 0 → (∀ t, d ∉ sched t) →
      (st.chans d).queue = input.take C ∧ (st.chans d).taken = [] ∧
      (st.chans d).queue.length ≤ C ∧ st.drops.count (some d) = input.length - C) := by
  have hloc := FanOut_local d sched chans outs input st hrun
  have hgood : (chans d).Good := by
    rw [hfresh]; intro _; rfl
  have hsound : (chans d).Sound := by
    rw [hfresh]; exact ⟨rfl, Nat.zero_le _, fun _ => rfl⟩
  have hempty : (chans d).accepted = [] := by rw [hfresh]; rfl
  have hready : Chan.readyAtSends (chans d, 0) (localSendAll d sched outs 0 input) = true →
      (st.chans d).accepted = input ∧ st.drops.count (some d) = 0 := by
    intro hr
    obtain ⟨r1, r2⟩ := FanOut_ready d sched chans outs input st hd hgood hrun hr
    rw [hempty, List.nil_append] at r1
    exact ⟨r1, r2⟩
  obtain ⟨acc, ha, hsub, hlen, -, -⟩ := execs_accepted _ (chans d, 0) _ hgood hloc
  rw [offered_append, offered_localSendAll_once d sched outs hd, offered_localClose,
    List.append_nil] at hsub hlen
  have hacc : (st.chans d).accepted = acc := by
    rw [show (st.chans d, st.drops.count (some d)).1 = st.chans d from rfl] at ha
    rw [ha, hfresh]; rfl
  simp only [Nat.add_zero] at hlen
  refine ⟨hacc ▸ hsub, by rw [hacc]; exact hlen, hready, fun hs => ?_,
    fun c frame hc hg hr => ?_, fun hw hs => ?_⟩
  · obtain ⟨s', -, -, hr⟩ := localSendAll_drained d sched outs hs input 0 (chans d, 0) hsound
    exact ⟨hr, hready hr⟩
  · obtain ⟨c', h1, h2, -⟩ := trySend_ready c frame hg hc hr
    exact ⟨c', h1, h2⟩
  · subst hw
    rw [localSendAll_undrained d sched outs hs hd, localClose_undrained d sched hs, hd,
      execs_append, hfresh] at hloc
    have hsend := execs_sends_only input C [] [] 0 (Nat.zero_le _)
    rw [hsend, Option.some_bind] at hloc
    simp only [List.replicate_one, execs_cons, Chan.exec, Chan.close, Bool.false_eq_true,
      if_false, Option.map_some', Option.some_bind, Chan.execs, Option.some.injEq,
      Prod.mk.injEq, List.nil_append, List.length_nil, Nat.zero_add] at hloc
    obtain ⟨h1, h2⟩ := hloc
    rw [← h1]
    exact ⟨rfl, rfl, by simp [List.length_take], h2.symm⟩

/-- C17 witness: three frames for two fresh destinations, destination 0 of
capacity 2.  With nobody receiving it ends up holding the first two frames, the
third dropped; with a consumer receiving before every channel operation it
receives all three frames in order and nothing is dropped. -/
theorem C17_fanout_bounded_delivery_witness :
    (∃ st, FanOut noDrain chansFresh [some 0, some 1] [[1], [2], [3]] = some st ∧
      (st.chans 0).queue = [[1], [2]] ∧ st.drops.count (some 0) = 1 ∧
      (st.chans 0).accepted.Sublist [[1], [2], [3]]) ∧
    (∃ st, FanOut drainZero chansFresh [some 0, some 1] [[1], [2], [3]] = some st ∧
      (st.chans 0).accepted = [[1], [2], [3]] ∧ st.drops.count (some 0) = 0) := by
  constructor
  · obtain ⟨st, hst, -⟩ := FanOut_ok noDrain chansFresh [0, 1] [[1], [2], [3]] (by decide)
      (by intro i _; unfold chansFresh; split_ifs <;> rfl)
    have h := C17_fanout_bounded_delivery noDrain chansFresh [some 0, some 1] [[1], [2], [3]]
      0 2 0 st (by decide) rfl hst
    obtain ⟨h1, h2, h3⟩ := h.2.2.2.2.2 rfl (fun t => by simp [noDrain])
    exact ⟨st, hst, h1, h3.2, h.1⟩
  · obtain ⟨st, hst, -⟩ := FanOut_ok drainZero chansFresh [0, 1] [[1], [2], [3]] (by decide)
      (by intro i _; unfold chansFresh; split_ifs <;> rfl)
    have h := C17_fanout_bounded_delivery drainZero chansFresh [some 0, some 1]
      [[1], [2], [3]] 0 2 0 st (by decide) rfl hst
    exact ⟨st, hst, (h.2.2.2.1 (fun t => by simp [drainZero])).2⟩

/-- C18: in two runs of `FanOut` on the same input and the same list of
destinations that both complete, if destination `d` starts in the same state
and its consumers receive at the same moments, then `d` ends in the same
state, with the same frames received and the same number of frames dropped,
whatever the state, the capacity and the schedules of the other channels are. -/
theorem C18_fanout_isolation (sched1 sched2 : Nat → List Nat) (chans1 chans2 : Chans)
    (outs : List (Option Nat)) (input : List (List Byte)) (d : Nat) (st1 st2 : FanOutState)
    (hsame : chans1 d = chans2 d)
    (hsched : ∀ t, (sched1 t).count d = (sched2 t).count d)
    (h1 : FanOut sched1 chans1 outs input = some st1)
    (h2 : FanOut sched2 chans2 outs input = some st2) :
    st1.chans d = st2.chans d ∧ (st1.chans d).accepted = (st2.chans d).accepted ∧
    st1.drops.count (some d) = st2.drops.count (some d) := by
  have l1 := FanOut_local d sched1 chans1 outs input st1 h1
  have l2 := FanOut_local d sched2 chans2 outs input st2 h2
  rw [localSendAll_congr d sched1 sched2 outs hsched, localClose_congr d sched1 sched2 hsched,
    hsame, l2] at l1
  simp only [Option.some.injEq, Prod.mk.injEq] at l1
  exact ⟨l1.1.symm, by rw [l1.1], l1.2.symm⟩

/-- C18 witness: destination 0 receives the same two frames whether the other
destination has capacity 3 or is always full (capacity 0). -/
theorem C18_fanout_isolation_witness :
    ∃ st1 st2, FanOut noDrain chansFresh [some 0, some 1] [[1], [2], [3]] = some st1 ∧
      FanOut noDrain chansOthersFull [some 0, some 1] [[1], [2], [3]] = some st2 ∧
      (st1.chans 1).cap ≠ (st2.chans 1).cap ∧
      st1.chans 0 = st2.chans 0 := by
  obtain ⟨st1, h1, -⟩ := FanOut_ok noDrain chansFresh [0, 1] [[1], [2], [3]] (by decide)
    (by intro i _; unfold chansFresh; split_ifs <;> rfl)
  obtain ⟨st2, h2, -⟩ := FanOut_ok noDrain chansOthersFull [0, 1] [[1], [2], [3]] (by decide)
    (by intro i _; unfold chansOthersFull; split_ifs <;> rfl)
  have h := C18_fanout_isolation noDrain noDrain chansFresh chansOthersFull [some 0, some 1]
    [[1], [2], [3]] 0 st1 st2 rfl (fun _ => rfl) h1 h2
  have c1 := (execs_accepted _ (chansFresh 1, 0) _ (by intro h; exact absurd h (lt_irrefl 0))
    (FanOut_local 1 noDrain chansFresh [some 0, some 1] [[1], [2], [3]] st1 h1)).choose_spec.2.2.2.1
  have c2 := (execs_accepted _ (chansOthersFull 1, 0) _
    (by intro h; exact absurd h (lt_irrefl 0))
    (FanOut_local 1 noDrain chansOthersFull [some 0, some 1] [[1], [2], [3]] st2 h2)).choose_spec.2.2.2.1
  refine ⟨st1, st2, h1, h2, ?_, h.1⟩
  have e1 : (st1.chans 1).cap = 3 := c1
  have e2 : (st2.chans 1).cap = 0 := c2
  rw [e1, e2]
  decide

/-- C21 as stated fails: a detector straight from `NewVAD` has no callbacks; after
one loud frame `IsSpeaking()` is true while `onSpeechStart` has been called zero
times, so calls of `onSpeechStart` minus calls of `onSpeechEnd` is 0, not 1. -/
theorem C21_counterexample_nil_callbacks :
    ∃ (v : VAD) (events : List VADEvent),
      (NewVAD threshold002 300000000).feed [(0, loudFrame)] = some (v, events) ∧
      v.IsSpeaking = true ∧
      events.count VADEvent.speechStart = events.count VADEvent.speechEnd := by
  refine ⟨{ NewVAD threshold002 300000000 with isSpeaking := true }, [], ?_, rfl, rfl⟩
  rw [feed_cons, Process_loud (NewVAD threshold002 300000000) 0 loudFrame loud_loudFrame]
  rfl

/-- C21 (amended): for every detector created by `NewVAD` and given two non-nil
callbacks by `SetCallbacks`, and every sequence of timestamped frames passed to
`Process`, every call returns and the notifications alternate strictly,
starting with `onSpeechStart`; the number of `onSpeechStart` calls minus the
number of `onSpeechEnd` calls is 1 when `IsSpeaking()` is true afterwards and 0
when it is false.  For every detector, a below-threshold frame received while
not speaking changes no state and fires nothing. -/
theorem C21_notifications_alternate (threshold : ℚ) (minSilenceDur : Int)
    (frames : List (Int × List Byte)) :
    (∃ (v : VAD) (events : List VADEvent),
        ((NewVAD threshold minSilenceDur).SetCallbacks true true).feed frames
          = some (v, events) ∧
        alternatesFrom false events = some v.IsSpeaking ∧
        events.count VADEvent.speechStart
          = events.count VADEvent.speechEnd + (if v.IsSpeaking then 1 else 0))
      ∧ ∀ (u : VAD) (now : Int) (chunk : List Byte), u.IsSpeaking = false →
          quiet u.threshold chunk = true →
          u.Process now chunk = some { vad := u, active := false, events := [] } := by
  constructor
  · obtain ⟨v, events, hf, ha⟩ :=
      feed_alternates frames ((NewVAD threshold minSilenceDur).SetCallbacks true true) rfl rfl
    refine ⟨v, events, hf, ha, ?_⟩
    have := alternatesFrom_count events false v.isSpeaking ha
    simpa using this
  · intro u now chunk hu hq
    have hu' : u.isSpeaking = false := hu
    rw [Process_quiet u now chunk hq, hu']
    rfl

/-- C21 at the detector `NewVAD(0.02, 300ms)` with both callbacks, fed a loud
frame and then two silent frames 400 ms apart. -/
theorem C21_notifications_alternate_witness :
    ∃ (v : VAD) (events : List VADEvent),
      vadFresh.feed [(0, loudFrame), (20000000, silentFrame), (420000000, silentFrame)]
        = some (v, events) ∧
      alternatesFrom false events = some v.IsSpeaking ∧
      events.count VADEvent.speechStart
        = events.count VADEvent.speechEnd + (if v.IsSpeaking then 1 else 0) :=
  (C21_notifications_alternate threshold002 300000000
    [(0, loudFrame), (20000000, silentFrame), (420000000, silentFrame)]).1

/-! ## Checked properties: WAV header -/

/-- C22: on a writer that never fails, `writeWAVHeader` returns nil and appends
exactly the 44 bytes of the documented layout ("RIFF", `dataSize + 36` wrapped
to 32 bits, "WAVE", "fmt ", 16, 1, `numChannels`, `sampleRate`, the wrapped
`byteRate` and `blockAlign`, `bitsPerSample`, "data", `dataSize`), every
integer little-endian; `writeUint16` and `writeUint32` write the little-endian
bytes of their argument, and decoding those bytes gives the argument back. -/
theorem C22_wav_header_layout (out : List Byte)
    (sampleRate bitsPerSample numChannels dataSize : Nat)
    (hrate : sampleRate < 2 ^ 32) (hbits : bitsPerSample < 2 ^ 16)
    (hchan : numChannels < 2 ^ 16) (hsize : dataSize < 2 ^ 32) :
    writeWAVHeader ⟨out, none⟩ sampleRate bitsPerSample numChannels dataSize
        = (⟨out ++ specWAVHeader sampleRate bitsPerSample numChannels dataSize, none⟩, none)
      ∧ (specWAVHeader sampleRate bitsPerSample numChannels dataSize).length = 44
      ∧ (∀ val, val < 2 ^ 16 →
          writeUint16 ⟨out, none⟩ val = (⟨out ++ specLittleEndian 2 val, none⟩, none)
            ∧ decodeLittleEndian (specLittleEndian 2 val) = val)
      ∧ (∀ val, val < 2 ^ 32 →
          writeUint32 ⟨out, none⟩ val = (⟨out ++ specLittleEndian 4 val, none⟩, none)
            ∧ decodeLittleEndian (specLittleEndian 4 val) = val)
      ∧ (let header := specWAVHeader sampleRate bitsPerSample numChannels dataSize
         header.take 4 = asciiBytes "RIFF"
          ∧ decodeLittleEndian ((header.drop 4).take 4) = (dataSize + 36) % 2 ^ 32
          ∧ (header.drop 8).take 8 = asciiBytes "WAVEfmt "
          ∧ decodeLittleEndian ((header.drop 16).take 4) = 16
          ∧ decodeLittleEndian ((header.drop 20).take 2) = 1
          ∧ decodeLittleEndian ((header.drop 22).take 2) = numChannels
          ∧ decodeLittleEndian ((header.drop 24).take 4) = sampleRate
          ∧ decodeLittleEndian ((header.drop 28).take 4)
              = sampleRate * numChannels * (bitsPerSample / 8) % 2 ^ 32
          ∧ decodeLittleEndian ((header.drop 32).take 2)
              = numChannels * (bitsPerSample / 8) % 2 ^ 16
          ∧ decodeLittleEndian ((header.drop 34).take 2) = bitsPerSample
          ∧ (header.drop 36).take 4 = asciiBytes "data"
          ∧ decodeLittleEndian ((header.drop 40).take 4) = dataSize) := by
  refine ⟨writeWAVHeader_out _ _ _ _ _, specWAVHeader_length _ _ _ _,
    fun val h => ⟨writeUint16_spec _ _, decode_uint16 _ h⟩,
    fun val h => ⟨writeUint32_spec _ _, decode_uint32 _ h⟩, ?_⟩
  have h1 := decode_uint32 ((dataSize + 36) % 2 ^ 32) (Nat.mod_lt _ (by norm_num))
  have h2 := decode_uint16 numChannels hchan
  have h3 := decode_uint32 sampleRate hrate
  have h4 := decode_uint32 (sampleRate * numChannels * (bitsPerSample / 8) % 2 ^ 32)
    (Nat.mod_lt _ (by norm_num))
  have h5 := decode_uint16 (numChannels * (bitsPerSample / 8) % 2 ^ 16)
    (Nat.mod_lt _ (by norm_num))
  have h6 := decode_uint16 bitsPerSample hbits
  have h7 := decode_uint32 dataSize hsize
  have a1 : asciiBytes "RIFF" = [0x52, 0x49, 0x46, 0x46] := by decide
  have a2 : asciiBytes "WAVE" = [0x57, 0x41, 0x56, 0x45] := by decide
  have a3 : asciiBytes "fmt " = [0x66, 0x6d, 0x74, 0x20] := by decide
  have a4 : asciiBytes "data" = [0x64, 0x61, 0x74, 0x61] := by decide
  have a5 : asciiBytes "WAVEfmt " = [0x57, 0x41, 0x56, 0x45, 0x66, 0x6d, 0x74, 0x20] := by decide
  simp only [specLittleEndian] at h1 h2 h3 h4 h5 h6 h7
  simp only [specWAVHeader, a1, a2, a3, a4, specLittleEndian, List.append_assoc,
    List.cons_append, List.nil_append]
  refine ⟨?_, ?_, ?_, ?_, ?_, ?_, ?_, ?_, ?_, ?_, ?_, ?_⟩
  · exact a1.symm
  · exact h1
  · exact a5.symm
  · rfl
  · rfl
  · exact h2
  · exact h3
  · exact h4
  · exact h5
  · exact h6
  · exact a4.symm
  · exact h7

/-- C22 at the header the recorder writes: 16 kHz, 16 bits, mono, 1000 bytes of
data. -/
theorem C22_wav_header_layout_witness :
    writeWAVHeader ⟨[], none⟩ 16000 16 1 1000
        = (⟨[] ++ specWAVHeader 16000 16 1 1000, none⟩, none)
      ∧ (specWAVHeader 16000 16 1 1000).length = 44 :=
  have h := C22_wav_header_layout [] 16000 16 1 1000 (by norm_num) (by norm_num) (by norm_num)
    (by norm_num)
  ⟨h.1, h.2.1⟩

/-! ## Checked properties: skill registry -/

/-- C23: `Register(s)` on a registry that already holds a skill named
`s.Name()` returns an error and leaves the registry as it was, so `Get` of that
name still returns the earlier skill; otherwise it returns nil, `Get(s.Name())`
then returns `s` and the lookup of every other name is unchanged.
`InitDefaultSkills` returns nil on the empty registry, and on any registry on
which it has returned nil a second run returns an error and changes nothing. -/
theorem C23_register_and_get (r : Registry) (s : Skill) :
    (∀ old, r.Get s.Name = (some old, true) →
        r.Register s = (r, some ("skill " ++ s.Name ++ " already registered"))
          ∧ (r.Register s).1.Get s.Name = (some old, true))
      ∧ ((r.Get s.Name).2 = false →
          (r.Register s).2 = none
            ∧ (r.Register s).1.Get s.Name = (some s, true)
            ∧ ∀ other, other ≠ s.Name → (r.Register s).1.Get other = r.Get other)
      ∧ (InitDefaultSkills NewRegistry).2 = none
      ∧ ((InitDefaultSkills r).2 = none →
          InitDefaultSkills (InitDefaultSkills r).1
            = ((InitDefaultSkills r).1, some "skill echo already registered")) := by
  refine ⟨fun old h => ?_, fun h => ?_, by decide, fun h => ?_⟩
  · have ht : (r.Get s.Name).2 = true := by rw [h]
    obtain ⟨old2, ho⟩ := (Registry_Get_true_iff _ _).1 ht
    rw [Register_exists r s old2 ho]
    exact ⟨rfl, h⟩
  · have hf := (Registry_Get_false_iff _ _).1 h
    rw [Register_fresh r s hf]
    exact ⟨rfl, Registry_Get_cons_self _ _ _, fun other ho => Registry_Get_cons_other _ _ _ _ ho⟩
  · exact registerAll_head EchoSkill _ _ (registerAll_ok_head EchoSkill _ r h)

/-- C23 at a registry that holds the echo skill, for another skill of that
name: the registration is refused and `Get` still returns the first one. -/
theorem C23_register_and_get_witness :
    registryEcho.Get otherEcho.Name = (some EchoSkill, true)
      ∧ registryEcho.Register otherEcho = (registryEcho, some "skill echo already registered")
      ∧ (NewRegistry.Get EchoSkill.Name).2 = false
      ∧ (NewRegistry.Register EchoSkill).1.Get EchoSkill.Name = (some EchoSkill, true)
      ∧ (InitDefaultSkills NewRegistry).2 = none
      ∧ InitDefaultSkills (InitDefaultSkills NewRegistry).1
          = ((InitDefaultSkills NewRegistry).1, some "skill echo already registered") :=
  ⟨by decide,
    ((C23_register_and_get registryEcho otherEcho).1 EchoSkill (by decide)).1,
    by decide,
    ((C23_register_and_get NewRegistry EchoSkill).2.1 (by decide)).2.1,
    by decide,
    (C23_register_and_get NewRegistry EchoSkill).2.2.2 (by decide)⟩

end StreamAudio
